import Mathlib

/-!
SimpleCalculator: the expression evaluator of `main.c`.

A shallow embedding of `parse_number`, `validate_expression` and `calculate`.

* A C string is a `List Char` holding the bytes of the buffer; the string ends at the first
  NUL character or at the end of the list (`strlen`), and reading `expr[i]` at or past the end
  of the list yields NUL (`charAt`).
* `double` values are rational numbers: every arithmetic step is exact, so rounding, overflow
  to infinity and NaN are outside this model.  The constants `0.1` and `1e-10` are the
  rationals `1/10` and `1/10^10`.
* `int` cursors are natural numbers, except `last_op_pos`, which may reach `-1`.
* Out-parameters (`*index`, `*error`, `*error_pos`) are returned next to the value.
-/

namespace SimpleCalculator

/-- The enumeration `ErrorType` of `main.c`. -/
inductive ErrorType where
  | ERROR_NONE
  | ERROR_INVALID_CHAR
  | ERROR_INVALID_NUMBER
  | ERROR_DIVISION_BY_ZERO
  | ERROR_INVALID_OPERATOR
  | ERROR_MISSING_OPERAND
  | ERROR_TRAILING_OPERATOR
  | ERROR_EMPTY_EXPRESSION
  deriving DecidableEq, Repr

open ErrorType

/-- The NUL character that terminates a C string. -/
def NUL : Char := Char.ofNat 0

/-- The read `expr[i]`: the character at offset `i`, NUL at or past the end of the buffer. -/
def charAt (expr : List Char) (i : Nat) : Char := expr.getD i NUL

/-- The C library `strlen`: the number of characters before the first NUL. -/
def strlen : List Char → Nat
  | [] => 0
  | c :: cs => if c = NUL then 0 else strlen cs + 1

/-- The C library `isdigit` in the "C" locale. -/
def isdigit (c : Char) : Bool := decide (48 ≤ c.toNat ∧ c.toNat ≤ 57)

/-- The C library `isalpha` in the "C" locale. -/
def isalpha (c : Char) : Bool :=
  decide (65 ≤ c.toNat ∧ c.toNat ≤ 90) || decide (97 ≤ c.toNat ∧ c.toNat ≤ 122)

/-- The C library `isalnum` in the "C" locale. -/
def isalnum (c : Char) : Bool := isalpha c || isdigit c

/-- The C library `isxdigit`. -/
def isxdigit (c : Char) : Bool :=
  isdigit c || decide (65 ≤ c.toNat ∧ c.toNat ≤ 70) || decide (97 ≤ c.toNat ∧ c.toNat ≤ 102)

/-- The test `c == '+' || c == '-' || c == '*' || c == '/'` that `calculate` repeats. -/
def isOperator (c : Char) : Bool := c = '+' || c = '-' || c = '*' || c = '/'

theorem lt_length_of_charAt_ne_NUL {expr : List Char} {i : Nat} (h : charAt expr i ≠ NUL) :
    i < expr.length := by
  by_contra hlt
  apply h
  unfold charAt
  rw [List.getD_eq_default]
  omega

/-- The loop `while (expr[index] == ' ') index++;` of `calculate`. -/
def skipSpaces (expr : List Char) (index : Nat) : Nat :=
  if h : charAt expr index = ' ' then skipSpaces expr (index + 1) else index
termination_by expr.length - index
decreasing_by
  have : index < expr.length := lt_length_of_charAt_ne_NUL (by rw [h]; decide)
  omega

/-- The value `digit` computed in the hexadecimal loop of `parse_number` (lines 58-65). -/
def hexDigitValue (c : Char) : Nat :=
  if isdigit c then c.toNat - 48
  else if 'a' ≤ c ∧ c ≤ 'f' then 10 + c.toNat - 97
  else 10 + c.toNat - 65

/-- The hexadecimal digit loop of `parse_number` (lines 51-69); returns `*index` and `value`. -/
def hexLoop (expr : List Char) (index : Nat) (value : ℚ) : Nat × ℚ :=
  if h : charAt expr index ≠ NUL ∧ charAt expr index ≠ '=' ∧
      (isxdigit (charAt expr index) = true ∨ charAt expr index = ' ') then
    if charAt expr index = ' ' then hexLoop expr (index + 1) value
    else hexLoop expr (index + 1) (value * 16 + (hexDigitValue (charAt expr index) : ℚ))
  else (index, value)
termination_by expr.length - index
decreasing_by
  all_goals
    have : index < expr.length := lt_length_of_charAt_ne_NUL h.1
    omega

/-- The integer-part loop of `parse_number` (lines 86-101); returns `*index`, `value` and
whether the loop ran to its end (`false`: it returned with `ERROR_INVALID_NUMBER`). -/
def intLoop (expr : List Char) (index : Nat) (value : ℚ) : Nat × ℚ × Bool :=
  if h : charAt expr index ≠ NUL ∧ charAt expr index ≠ '=' ∧ charAt expr index ≠ '+' ∧
      charAt expr index ≠ '-' ∧ charAt expr index ≠ '*' ∧ charAt expr index ≠ '/' ∧
      charAt expr index ≠ '.' then
    if charAt expr index = ' ' then intLoop expr (index + 1) value
    else if ¬ isdigit (charAt expr index) = true then (index, value, false)
    else intLoop expr (index + 1) (value * 10 + (((charAt expr index).toNat - 48 : Nat) : ℚ))
  else (index, value, true)
termination_by expr.length - index
decreasing_by
  all_goals
    have : index < expr.length := lt_length_of_charAt_ne_NUL h.1
    omega

/-- The fractional-part loop of `parse_number` (lines 109-124); returns `*index`, `value` and
whether the loop ran to its end (`false`: it returned with `ERROR_INVALID_NUMBER`). -/
def fracLoop (expr : List Char) (index : Nat) (value fraction : ℚ) : Nat × ℚ × Bool :=
  if h : charAt expr index ≠ NUL ∧ charAt expr index ≠ '=' ∧ charAt expr index ≠ '+' ∧
      charAt expr index ≠ '-' ∧ charAt expr index ≠ '*' ∧ charAt expr index ≠ '/' then
    if charAt expr index = ' ' then fracLoop expr (index + 1) value fraction
    else if ¬ isdigit (charAt expr index) = true then (index, value, false)
    else fracLoop expr (index + 1)
      (value + (((charAt expr index).toNat - 48 : Nat) : ℚ) * fraction) (fraction * (1 / 10))
  else (index, value, true)
termination_by expr.length - index
decreasing_by
  all_goals
    have : index < expr.length := lt_length_of_charAt_ne_NUL h.1
    omega

/-- The function `parse_number` (lines 33-139).  It takes the cursor `*index` and the current
`*error`, and returns the value together with the final `*index` and `*error`. -/
def parse_number (expr : List Char) (index : Nat) (error : ErrorType) : ℚ × Nat × ErrorType :=
  if charAt expr index = '0' ∧ (charAt expr (index + 1) = 'x' ∨ charAt expr (index + 1) = 'X') then
    if charAt expr (index + 2) = '.' then (0, index + 2, ERROR_INVALID_NUMBER)
    else
      let r := hexLoop expr (index + 2) 0
      if r.1 ≤ index + 2 then (0, r.1, ERROR_INVALID_NUMBER)
      else (r.2, r.1, error)
  else
    let index1 := if charAt expr index = '+' ∨ charAt expr index = '-' then index + 1 else index
    let r := intLoop expr index1 0
    if r.2.2 = false then (0, r.1, ERROR_INVALID_NUMBER)
    else
      let r2 := if charAt expr r.1 = '.' then fracLoop expr (r.1 + 1) r.2.1 (1 / 10)
                else (r.1, r.2.1, true)
      if r2.2.2 = false then (0, r2.1, ERROR_INVALID_NUMBER)
      else if r2.1 ≤ index ∨
          (r2.1 = index + 1 ∧ (charAt expr index = '+' ∨ charAt expr index = '-')) then
        (0, r2.1, ERROR_INVALID_NUMBER)
      else (if charAt expr index = '-' then -r2.2.1 else r2.2.1, r2.1, error)

/-- The `for` loop of `validate_expression` (lines 150-161): `.error e` is an early
`return e`, `.ok p` is the value of `equals_pos` when the loop ends. -/
def validateLoop (expr : List Char) (len i : Nat) (equals_pos : Int) : Except ErrorType Int :=
  if h : i < len then
    if charAt expr i = '=' then
      if equals_pos ≠ -1 then .error ERROR_INVALID_CHAR
      else validateLoop expr len (i + 1) (i : Int)
    else if ¬ isalnum (charAt expr i) = true ∧ charAt expr i ≠ '+' ∧ charAt expr i ≠ '-' ∧
        charAt expr i ≠ '*' ∧ charAt expr i ≠ '/' ∧ charAt expr i ≠ '.' ∧
        charAt expr i ≠ ' ' ∧ charAt expr i ≠ 'x' ∧ charAt expr i ≠ 'X' then
      .error ERROR_INVALID_CHAR
    else validateLoop expr len (i + 1) equals_pos
  else .ok equals_pos
termination_by len - i

/-- The function `validate_expression` (lines 142-172). -/
def validate_expression (expr : List Char) : ErrorType :=
  let len := strlen expr
  if len = 0 then ERROR_EMPTY_EXPRESSION
  else
    match validateLoop expr len 0 (-1) with
    | .error e => e
    | .ok equals_pos =>
      if equals_pos = -1 then ERROR_INVALID_CHAR
      else if equals_pos ≠ (len : Int) - 1 then ERROR_INVALID_CHAR
      else ERROR_NONE

theorem le_skipSpaces (expr : List Char) (index : Nat) : index ≤ skipSpaces expr index := by
  induction index using skipSpaces.induct expr with
  | case1 index h ih => rw [skipSpaces, dif_pos h]; omega
  | case2 index h => rw [skipSpaces, dif_neg h]

theorem le_hexLoop (expr : List Char) (index : Nat) (value : ℚ) :
    index ≤ (hexLoop expr index value).1 := by
  induction index, value using hexLoop.induct expr with
  | case1 index value h hs ih => rw [hexLoop, dif_pos h, if_pos hs]; omega
  | case2 index value h hs ih => rw [hexLoop, dif_pos h, if_neg hs]; omega
  | case3 index value h => rw [hexLoop, dif_neg h]

theorem le_intLoop (expr : List Char) (index : Nat) (value : ℚ) :
    index ≤ (intLoop expr index value).1 := by
  induction index, value using intLoop.induct expr with
  | case1 index value h hs ih => rw [intLoop, dif_pos h, if_pos hs]; omega
  | case2 index value h hs hd => rw [intLoop, dif_pos h, if_neg hs, if_pos hd]
  | case3 index value h hs hd ih => rw [intLoop, dif_pos h, if_neg hs, if_neg hd]; omega
  | case4 index value h => rw [intLoop, dif_neg h]

theorem le_fracLoop (expr : List Char) (index : Nat) (value fraction : ℚ) :
    index ≤ (fracLoop expr index value fraction).1 := by
  induction index, value, fraction using fracLoop.induct expr with
  | case1 index value fraction h hs ih => rw [fracLoop, dif_pos h, if_pos hs]; omega
  | case2 index value fraction h hs hd => rw [fracLoop, dif_pos h, if_neg hs, if_pos hd]
  | case3 index value fraction h hs hd ih =>
    rw [fracLoop, dif_pos h, if_neg hs, if_neg hd]; omega
  | case4 index value fraction h => rw [fracLoop, dif_neg h]

theorem le_parse_number (expr : List Char) (index : Nat) (error : ErrorType) :
    index ≤ (parse_number expr index error).2.1 := by
  unfold parse_number
  by_cases c1 : charAt expr index = '0' ∧
      (charAt expr (index + 1) = 'x' ∨ charAt expr (index + 1) = 'X')
  · rw [if_pos c1]
    have h1 := le_hexLoop expr (index + 2) 0
    by_cases c2 : charAt expr (index + 2) = '.'
    · rw [if_pos c2]; simp
    · rw [if_neg c2]
      simp only []
      by_cases c3 : (hexLoop expr (index + 2) 0).1 ≤ index + 2
      · rw [if_pos c3]; simp only []; omega
      · rw [if_neg c3]; simp only []; omega
  · rw [if_neg c1]
    simp only []
    generalize hi : (if charAt expr index = '+' ∨ charAt expr index = '-' then index + 1
      else index) = index1
    have hi1 : index ≤ index1 := by rw [← hi]; split_ifs <;> omega
    have h2 := le_intLoop expr index1 0
    have h3 := le_fracLoop expr ((intLoop expr index1 0).1 + 1) (intLoop expr index1 0).2.1
      (1 / 10)
    by_cases c4 : (intLoop expr index1 0).2.2 = false
    · rw [if_pos c4]; simp only []; omega
    · rw [if_neg c4]
      by_cases c5 : charAt expr (intLoop expr index1 0).1 = '.'
      · simp only [if_pos c5]
        split_ifs <;> simp only [] <;> omega
      · simp only [if_neg c5]
        split_ifs <;> simp only [] <;> omega

/-- The result of `calculate`: the returned `double` and the out-parameters `*error` and
`*error_pos`. -/
structure CalcResult where
  value : ℚ
  error : ErrorType
  error_pos : Nat
  deriving DecidableEq, Repr

/-- The `switch (current_op)` of `calculate` (lines 215-237): `.inl e` is the early return
with `*error = e`, `.inr r` the new value of `result`. -/
def applyOp (current_op : Char) (result num : ℚ) : ErrorType ⊕ ℚ :=
  if current_op = '+' then .inr (result + num)
  else if current_op = '-' then .inr (result - num)
  else if current_op = '*' then .inr (result * num)
  else if current_op = '/' then
    if |num| < 1 / 10 ^ 10 then .inl ERROR_DIVISION_BY_ZERO
    else .inr (result / num)
  else .inl ERROR_INVALID_OPERATOR

/-- How the main loop of `calculate` ends: by a `return` inside the loop, or by its condition
becoming false, with the values of the local variables at that point. -/
inductive LoopExit where
  | returned (r : CalcResult)
  | finished (index : Nat) (result : ℚ) (has_operand : Bool) (error_pos : Nat)
  deriving DecidableEq, Repr

/-- The main loop of `calculate` (lines 188-255), entered with the current values of `index`,
`result`, `current_op`, `has_operand` and `*error_pos`; `*error` is `ERROR_NONE` throughout.
When no operator is fetched at the end of the body (`index >= len - 1`), the loop condition
is false at the next test and the loop ends. -/
def calcLoop (expr : List Char) (len : Nat) (index : Nat) (result : ℚ) (current_op : Char)
    (has_operand : Bool) (error_pos : Nat) : LoopExit :=
  if index < len - 1 then
    let index1 := skipSpaces expr index
    if isOperator (charAt expr index1) = true ∧ ¬ (index1 = 0 ∧ charAt expr index1 = '-') then
      .returned ⟨0, ERROR_INVALID_OPERATOR, index1⟩
    else
      let p := parse_number expr index1 ERROR_NONE
      if p.2.2 ≠ ERROR_NONE then .returned ⟨0, p.2.2, index1⟩
      else
        match applyOp current_op result p.1 with
        | .inl e => .returned ⟨0, e, p.2.1⟩
        | .inr result1 =>
          let index3 := skipSpaces expr p.2.1
          if index3 < len - 1 then
            if isOperator (charAt expr index3) = true then
              calcLoop expr len (index3 + 1) result1 (charAt expr index3) true index1
            else .returned ⟨0, ERROR_INVALID_OPERATOR, index3⟩
          else .finished index3 result1 true index1
  else .finished index result has_operand error_pos
termination_by len - index
decreasing_by
  have h1 := le_skipSpaces expr index
  have h2 := le_parse_number expr (skipSpaces expr index) ERROR_NONE
  have h3 := le_skipSpaces expr (parse_number expr (skipSpaces expr index) ERROR_NONE).2.1
  omega

/-- The backward scan `while (last_op_pos >= 0 && expr[last_op_pos] == ' ') last_op_pos--;`
of `calculate` (lines 265-267). -/
def skipTrailingSpaces (expr : List Char) (last_op_pos : Int) : Int :=
  if 0 ≤ last_op_pos ∧ charAt expr last_op_pos.toNat = ' ' then
    skipTrailingSpaces expr (last_op_pos - 1)
  else last_op_pos
termination_by (last_op_pos + 1).toNat
decreasing_by omega

/-- The function `calculate` (lines 175-278). -/
def calculate (expr : List Char) : CalcResult :=
  if validate_expression expr ≠ ERROR_NONE then ⟨0, validate_expression expr, 0⟩
  else
    let len := strlen expr
    match calcLoop expr len 0 0 '+' false 0 with
    | .returned r => r
    | .finished _ result has_operand error_pos =>
      if has_operand = false then ⟨0, ERROR_EMPTY_EXPRESSION, 0⟩
      else
        let last_op_pos := skipTrailingSpaces expr ((len : Int) - 2)
        if 0 ≤ last_op_pos ∧ isOperator (charAt expr last_op_pos.toNat) = true then
          ⟨0, ERROR_TRAILING_OPERATOR, last_op_pos.toNat⟩
        else ⟨result, ERROR_NONE, error_pos⟩

/-- The local variables of `calculate` that its main loop reads and writes. -/
structure LoopState where
  index : Nat
  result : ℚ
  current_op : Char
  has_operand : Bool
  error_pos : Nat
  deriving DecidableEq, Repr

/-- One execution of the body of the main loop of `calculate` (lines 189-254) from the state
`s`: `.inl r` is a `return` inside the body, `.inr s1` the state at the end of the body. -/
def calcBody (expr : List Char) (len : Nat) (s : LoopState) : CalcResult ⊕ LoopState :=
  let index1 := skipSpaces expr s.index
  if isOperator (charAt expr index1) = true ∧ ¬ (index1 = 0 ∧ charAt expr index1 = '-') then
    .inl ⟨0, ERROR_INVALID_OPERATOR, index1⟩
  else
    let p := parse_number expr index1 ERROR_NONE
    if p.2.2 ≠ ERROR_NONE then .inl ⟨0, p.2.2, index1⟩
    else
      match applyOp s.current_op s.result p.1 with
      | .inl e => .inl ⟨0, e, p.2.1⟩
      | .inr result1 =>
        let index3 := skipSpaces expr p.2.1
        if index3 < len - 1 then
          if isOperator (charAt expr index3) = true then
            .inr ⟨index3 + 1, result1, charAt expr index3, true, index1⟩
          else .inl ⟨0, ERROR_INVALID_OPERATOR, index3⟩
        else .inr ⟨index3, result1, s.current_op, true, index1⟩

/-- The main loop of `calculate` run for at most `fuel` iterations from the state `s`:
`none` when the loop condition still holds after `fuel` executions of the body. -/
def calcLoopFuel (expr : List Char) (len : Nat) : Nat → LoopState → Option LoopExit
  | 0, s =>
    if s.index < len - 1 then none
    else some (.finished s.index s.result s.has_operand s.error_pos)
  | fuel + 1, s =>
    if s.index < len - 1 then
      match calcBody expr len s with
      | .inl r => some (.returned r)
      | .inr s1 => calcLoopFuel expr len fuel s1
    else some (.finished s.index s.result s.has_operand s.error_pos)

/-- The states in which the main loop of `calculate` tests its condition: the state set up
before the loop (lines 183-186), and the state at the end of every execution of the body. -/
inductive LoopReach (expr : List Char) (len : Nat) : LoopState → Prop
  | start : LoopReach expr len ⟨0, 0, '+', false, 0⟩
  | next {s s1 : LoopState} : LoopReach expr len s → s.index < len - 1 →
      calcBody expr len s = .inr s1 → LoopReach expr len s1

/-! ## The same functions with `double` as IEEE 754 binary64 -/

/-- A value of the C type `double` (IEEE 754 binary64): a finite number given by its sign bit
and its magnitude (so `-0.0` and `0.0` are distinct), an infinity, or a NaN. -/
inductive Dbl where
  | fin (neg : Bool) (mag : ℚ)
  | inf (neg : Bool)
  | nan
  deriving DecidableEq, Repr

/-- The natural number nearest to a non-negative rational, ties going to the even one. -/
def roundHalfEven (m : ℚ) : ℕ :=
  if m - ⌊m⌋₊ < 1 / 2 then ⌊m⌋₊
  else if 1 / 2 < m - ⌊m⌋₊ then ⌊m⌋₊ + 1
  else if ⌊m⌋₊ % 2 = 0 then ⌊m⌋₊ else ⌊m⌋₊ + 1

/-- The exponent `e` of the binade `2 ^ e ≤ a < 2 ^ (e + 1)` of a positive magnitude, not below
the least exponent `-1022` of the normal binary64 numbers. -/
def binade (a : ℚ) : ℤ := max (Int.log 2 a) (-1022)

/-- The spacing `2 ^ (e - 52)` of the binary64 numbers in the binade of `a` (53 significant
bits). -/
def quantum (a : ℚ) : ℚ := (2 : ℚ) ^ (binade a - 52)

/-- The binary64 value of the exact magnitude `a ≥ 0` with sign bit `neg`: rounded to nearest,
ties to even; a result of `2 ^ 1024` or more is an infinity. -/
def roundMag (neg : Bool) (a : ℚ) : Dbl :=
  if a = 0 then .fin neg 0
  else if (2 : ℚ) ^ 1024 ≤ (roundHalfEven (a / quantum a) : ℚ) * quantum a then .inf neg
  else .fin neg ((roundHalfEven (a / quantum a) : ℚ) * quantum a)

namespace Dbl

/-- The number a finite `double` holds (`0` for infinities and NaN). -/
def toRat : Dbl → ℚ
  | .fin neg a => if neg then -a else a
  | _ => 0

/-- The unary minus of C on `double`. -/
def neg : Dbl → Dbl
  | .fin s a => .fin (!s) a
  | .inf s => .inf (!s)
  | .nan => .nan

/-- The C library `fabs`. -/
def abs : Dbl → Dbl
  | .fin _ a => .fin false a
  | .inf _ => .inf false
  | .nan => .nan

/-- The sum of two `double` values: the exact sum rounded once; an exact zero sum is `-0.0`
only when both operands are negative. -/
def add : Dbl → Dbl → Dbl
  | .fin s a, .fin t b =>
    if (if s then -a else a) + (if t then -b else b) = 0 then .fin (s && t) 0
    else roundMag (decide ((if s then -a else a) + (if t then -b else b) < 0))
      |(if s then -a else a) + (if t then -b else b)|
  | .fin _ _, .inf t => .inf t
  | .inf s, .fin _ _ => .inf s
  | .inf s, .inf t => if s = t then .inf s else .nan
  | _, _ => .nan

/-- The difference of two `double` values. -/
def sub (x y : Dbl) : Dbl := add x (neg y)

/-- The product of two `double` values: the exact product rounded once. -/
def mul : Dbl → Dbl → Dbl
  | .fin s a, .fin t b => roundMag (xor s t) (a * b)
  | .fin s a, .inf t => if a = 0 then .nan else .inf (xor s t)
  | .inf s, .fin t b => if b = 0 then .nan else .inf (xor s t)
  | .inf s, .inf t => .inf (xor s t)
  | _, _ => .nan

/-- The quotient of two `double` values: the exact quotient rounded once. -/
def div : Dbl → Dbl → Dbl
  | .fin s a, .fin t b =>
    if b = 0 then (if a = 0 then .nan else .inf (xor s t)) else roundMag (xor s t) (a / b)
  | .fin s _, .inf t => .fin (xor s t) 0
  | .inf s, .fin t _ => .inf (xor s t)
  | _, _ => .nan

/-- The comparison `<` of C on `double` (false when an operand is NaN). -/
def lt : Dbl → Dbl → Bool
  | .fin s a, .fin t b => decide ((if s then -a else a) < (if t then -b else b))
  | .fin _ _, .inf t => !t
  | .inf s, .fin _ _ => s
  | .inf s, .inf t => s && !t
  | _, _ => false

/-- The conversion of a non-negative `int` to `double`. -/
def ofNat (n : Nat) : Dbl := roundMag false n

/-- The constant `0.0`. -/
def zero : Dbl := .fin false 0

/-- The constant `0.1`: the binary64 number nearest to one tenth. -/
def tenth : Dbl := roundMag false (1 / 10)

/-- The constant `1e-10`: the binary64 number nearest to `10 ^ (-10)`. -/
def tiny : Dbl := roundMag false (1 / 10 ^ 10)

end Dbl

/-- The hexadecimal digit loop of `parse_number` (lines 51-69) in binary64. -/
def hexLoopD (expr : List Char) (index : Nat) (value : Dbl) : Nat × Dbl :=
  if h : charAt expr index ≠ NUL ∧ charAt expr index ≠ '=' ∧
      (isxdigit (charAt expr index) = true ∨ charAt expr index = ' ') then
    if charAt expr index = ' ' then hexLoopD expr (index + 1) value
    else hexLoopD expr (index + 1)
      (Dbl.add (Dbl.mul value (Dbl.ofNat 16)) (Dbl.ofNat (hexDigitValue (charAt expr index))))
  else (index, value)
termination_by expr.length - index
decreasing_by
  all_goals
    have : index < expr.length := lt_length_of_charAt_ne_NUL h.1
    omega

/-- The integer-part loop of `parse_number` (lines 86-101) in binary64. -/
def intLoopD (expr : List Char) (index : Nat) (value : Dbl) : Nat × Dbl × Bool :=
  if h : charAt expr index ≠ NUL ∧ charAt expr index ≠ '=' ∧ charAt expr index ≠ '+' ∧
      charAt expr index ≠ '-' ∧ charAt expr index ≠ '*' ∧ charAt expr index ≠ '/' ∧
      charAt expr index ≠ '.' then
    if charAt expr index = ' ' then intLoopD expr (index + 1) value
    else if ¬ isdigit (charAt expr index) = true then (index, value, false)
    else intLoopD expr (index + 1)
      (Dbl.add (Dbl.mul value (Dbl.ofNat 10)) (Dbl.ofNat ((charAt expr index).toNat - 48)))
  else (index, value, true)
termination_by expr.length - index
decreasing_by
  all_goals
    have : index < expr.length := lt_length_of_charAt_ne_NUL h.1
    omega

/-- The fractional-part loop of `parse_number` (lines 109-124) in binary64. -/
def fracLoopD (expr : List Char) (index : Nat) (value fraction : Dbl) : Nat × Dbl × Bool :=
  if h : charAt expr index ≠ NUL ∧ charAt expr index ≠ '=' ∧ charAt expr index ≠ '+' ∧
      charAt expr index ≠ '-' ∧ charAt expr index ≠ '*' ∧ charAt expr index ≠ '/' then
    if charAt expr index = ' ' then fracLoopD expr (index + 1) value fraction
    else if ¬ isdigit (charAt expr index) = true then (index, value, false)
    else fracLoopD expr (index + 1)
      (Dbl.add value (Dbl.mul (Dbl.ofNat ((charAt expr index).toNat - 48)) fraction))
      (Dbl.mul fraction Dbl.tenth)
  else (index, value, true)
termination_by expr.length - index
decreasing_by
  all_goals
    have : index < expr.length := lt_length_of_charAt_ne_NUL h.1
    omega

/-- The function `parse_number` (lines 33-139) in binary64: the value it returns is the
`double` the source computes, each arithmetic operation rounded once. -/
def parse_numberD (expr : List Char) (index : Nat) (error : ErrorType) :
    Dbl × Nat × ErrorType :=
  if charAt expr index = '0' ∧ (charAt expr (index + 1) = 'x' ∨ charAt expr (index + 1) = 'X') then
    if charAt expr (index + 2) = '.' then (Dbl.zero, index + 2, ERROR_INVALID_NUMBER)
    else
      let r := hexLoopD expr (index + 2) Dbl.zero
      if r.1 ≤ index + 2 then (Dbl.zero, r.1, ERROR_INVALID_NUMBER)
      else (r.2, r.1, error)
  else
    let index1 := if charAt expr index = '+' ∨ charAt expr index = '-' then index + 1 else index
    let r := intLoopD expr index1 Dbl.zero
    if r.2.2 = false then (Dbl.zero, r.1, ERROR_INVALID_NUMBER)
    else
      let r2 := if charAt expr r.1 = '.' then fracLoopD expr (r.1 + 1) r.2.1 Dbl.tenth
                else (r.1, r.2.1, true)
      if r2.2.2 = false then (Dbl.zero, r2.1, ERROR_INVALID_NUMBER)
      else if r2.1 ≤ index ∨
          (r2.1 = index + 1 ∧ (charAt expr index = '+' ∨ charAt expr index = '-')) then
        (Dbl.zero, r2.1, ERROR_INVALID_NUMBER)
      else (if charAt expr index = '-' then Dbl.neg r2.2.1 else r2.2.1, r2.1, error)

theorem le_hexLoopD (expr : List Char) (index : Nat) (value : Dbl) :
    index ≤ (hexLoopD expr index value).1 := by
  induction index, value using hexLoopD.induct expr with
  | case1 index value h hs ih => rw [hexLoopD, dif_pos h, if_pos hs]; omega
  | case2 index value h hs ih => rw [hexLoopD, dif_pos h, if_neg hs]; omega
  | case3 index value h => rw [hexLoopD, dif_neg h]

theorem le_intLoopD (expr : List Char) (index : Nat) (value : Dbl) :
    index ≤ (intLoopD expr index value).1 := by
  induction index, value using intLoopD.induct expr with
  | case1 index value h hs ih => rw [intLoopD, dif_pos h, if_pos hs]; omega
  | case2 index value h hs hd => rw [intLoopD, dif_pos h, if_neg hs, if_pos hd]
  | case3 index value h hs hd ih => rw [intLoopD, dif_pos h, if_neg hs, if_neg hd]; omega
  | case4 index value h => rw [intLoopD, dif_neg h]

theorem le_fracLoopD (expr : List Char) (index : Nat) (value fraction : Dbl) :
    index ≤ (fracLoopD expr index value fraction).1 := by
  induction index, value, fraction using fracLoopD.induct expr with
  | case1 index value fraction h hs ih => rw [fracLoopD, dif_pos h, if_pos hs]; omega
  | case2 index value fraction h hs hd => rw [fracLoopD, dif_pos h, if_neg hs, if_pos hd]
  | case3 index value fraction h hs hd ih =>
    rw [fracLoopD, dif_pos h, if_neg hs, if_neg hd]; omega
  | case4 index value fraction h => rw [fracLoopD, dif_neg h]

theorem le_parse_numberD (expr : List Char) (index : Nat) (error : ErrorType) :
    index ≤ (parse_numberD expr index error).2.1 := by
  unfold parse_numberD
  by_cases c1 : charAt expr index = '0' ∧
      (charAt expr (index + 1) = 'x' ∨ charAt expr (index + 1) = 'X')
  · rw [if_pos c1]
    have h1 := le_hexLoopD expr (index + 2) Dbl.zero
    by_cases c2 : charAt expr (index + 2) = '.'
    · rw [if_pos c2]; simp
    · rw [if_neg c2]
      simp only []
      by_cases c3 : (hexLoopD expr (index + 2) Dbl.zero).1 ≤ index + 2
      · rw [if_pos c3]; simp only []; omega
      · rw [if_neg c3]; simp only []; omega
  · rw [if_neg c1]
    simp only []
    generalize hi : (if charAt expr index = '+' ∨ charAt expr index = '-' then index + 1
      else index) = index1
    have hi1 : index ≤ index1 := by rw [← hi]; split_ifs <;> omega
    have h2 := le_intLoopD expr index1 Dbl.zero
    have h3 := le_fracLoopD expr ((intLoopD expr index1 Dbl.zero).1 + 1)
      (intLoopD expr index1 Dbl.zero).2.1 Dbl.tenth
    by_cases c4 : (intLoopD expr index1 Dbl.zero).2.2 = false
    · rw [if_pos c4]; simp only []; omega
    · rw [if_neg c4]
      by_cases c5 : charAt expr (intLoopD expr index1 Dbl.zero).1 = '.'
      · simp only [if_pos c5]
        split_ifs <;> simp only [] <;> omega
      · simp only [if_neg c5]
        split_ifs <;> simp only [] <;> omega

/-- The result of `calculate` with the returned value as a `double`. -/
structure CalcResultD where
  value : Dbl
  error : ErrorType
  error_pos : Nat
  deriving DecidableEq, Repr

/-- The `switch (current_op)` of `calculate` (lines 215-237) in binary64: `.inl e` is the
early return with `*error = e`, `.inr r` the new value of `result`. -/
def applyOpD (current_op : Char) (result num : Dbl) : ErrorType ⊕ Dbl :=
  if current_op = '+' then .inr (Dbl.add result num)
  else if current_op = '-' then .inr (Dbl.sub result num)
  else if current_op = '*' then .inr (Dbl.mul result num)
  else if current_op = '/' then
    if Dbl.lt (Dbl.abs num) Dbl.tiny = true then .inl ERROR_DIVISION_BY_ZERO
    else .inr (Dbl.div result num)
  else .inl ERROR_INVALID_OPERATOR

/-- How the main loop of `calculate` ends, with `result` as a `double`. -/
inductive LoopExitD where
  | returned (r : CalcResultD)
  | finished (index : Nat) (result : Dbl) (has_operand : Bool) (error_pos : Nat)
  deriving DecidableEq, Repr

/-- The main loop of `calculate` (lines 188-255) in binary64. -/
def calcLoopD (expr : List Char) (len : Nat) (index : Nat) (result : Dbl) (current_op : Char)
    (has_operand : Bool) (error_pos : Nat) : LoopExitD :=
  if index < len - 1 then
    let index1 := skipSpaces expr index
    if isOperator (charAt expr index1) = true ∧ ¬ (index1 = 0 ∧ charAt expr index1 = '-') then
      .returned ⟨Dbl.zero, ERROR_INVALID_OPERATOR, index1⟩
    else
      let p := parse_numberD expr index1 ERROR_NONE
      if p.2.2 ≠ ERROR_NONE then .returned ⟨Dbl.zero, p.2.2, index1⟩
      else
        match applyOpD current_op result p.1 with
        | .inl e => .returned ⟨Dbl.zero, e, p.2.1⟩
        | .inr result1 =>
          let index3 := skipSpaces expr p.2.1
          if index3 < len - 1 then
            if isOperator (charAt expr index3) = true then
              calcLoopD expr len (index3 + 1) result1 (charAt expr index3) true index1
            else .returned ⟨Dbl.zero, ERROR_INVALID_OPERATOR, index3⟩
          else .finished index3 result1 true index1
  else .finished index result has_operand error_pos
termination_by len - index
decreasing_by
  have h1 := le_skipSpaces expr index
  have h2 := le_parse_numberD expr (skipSpaces expr index) ERROR_NONE
  have h3 := le_skipSpaces expr (parse_numberD expr (skipSpaces expr index) ERROR_NONE).2.1
  omega

/-- The function `calculate` (lines 175-278) in binary64. -/
def calculateD (expr : List Char) : CalcResultD :=
  if validate_expression expr ≠ ERROR_NONE then ⟨Dbl.zero, validate_expression expr, 0⟩
  else
    let len := strlen expr
    match calcLoopD expr len 0 Dbl.zero '+' false 0 with
    | .returned r => r
    | .finished _ result has_operand error_pos =>
      if has_operand = false then ⟨Dbl.zero, ERROR_EMPTY_EXPRESSION, 0⟩
      else
        let last_op_pos := skipTrailingSpaces expr ((len : Int) - 2)
        if 0 ≤ last_op_pos ∧ isOperator (charAt expr last_op_pos.toNat) = true then
          ⟨Dbl.zero, ERROR_TRAILING_OPERATOR, last_op_pos.toNat⟩
        else ⟨result, ERROR_NONE, error_pos⟩

/-! ## Reference definitions used in the statements -/

/-- The characters `validate_expression` lets through: alphanumeric, or one of
`+ - * / . space =`. -/
def validChar (c : Char) : Bool :=
  isalnum c || c = '+' || c = '-' || c = '*' || c = '/' || c = '.' || c = ' ' || c = '='

/-- The reference verdict of the validator on a string `s`: empty gives
`ERROR_EMPTY_EXPRESSION`; a character outside the permitted set, a number of `=` other than
one, or a final character other than `=` gives `ERROR_INVALID_CHAR`; otherwise `ERROR_NONE`. -/
def validateRef (s : List Char) : ErrorType :=
  if s.length = 0 then ERROR_EMPTY_EXPRESSION
  else if (∃ c ∈ s, validChar c = false) ∨ s.count '=' ≠ 1 ∨ s.getLast? ≠ some '=' then
    ERROR_INVALID_CHAR
  else ERROR_NONE

/-- The value of a decimal digit character, by table. -/
def decDigitRef : Char → Nat
  | '0' => 0 | '1' => 1 | '2' => 2 | '3' => 3 | '4' => 4
  | '5' => 5 | '6' => 6 | '7' => 7 | '8' => 8 | '9' => 9
  | _ => 0

/-- The value of a hexadecimal digit character, by table. -/
def hexDigitRef : Char → Nat
  | '0' => 0 | '1' => 1 | '2' => 2 | '3' => 3 | '4' => 4
  | '5' => 5 | '6' => 6 | '7' => 7 | '8' => 8 | '9' => 9
  | 'a' => 10 | 'b' => 11 | 'c' => 12 | 'd' => 13 | 'e' => 14 | 'f' => 15
  | 'A' => 10 | 'B' => 11 | 'C' => 12 | 'D' => 13 | 'E' => 14 | 'F' => 15
  | _ => 0

/-- The natural number a string of decimal digits denotes (most significant digit first). -/
def decimalValue (ds : List Char) : Nat := Nat.ofDigits 10 (ds.reverse.map decDigitRef)

/-- The natural number a string of hexadecimal digits denotes (most significant digit first). -/
def hexValue (hs : List Char) : Nat := Nat.ofDigits 16 (hs.reverse.map hexDigitRef)

/-- The arithmetic meaning of the operator symbols `+ - * /` on exact numbers. -/
def applyRef (op : Char) (a b : ℚ) : ℚ :=
  if op = '+' then a + b else if op = '-' then a - b else if op = '*' then a * b else a / b

/-- The left fold of a list of operator/operand pairs from the accumulator `a`. -/
def foldOps (ops : List (Char × ℚ)) (a : ℚ) : ℚ :=
  ops.foldl (fun acc p => applyRef p.1 acc p.2) a

/-- The value held in `result` when the main loop ends (`0` on an early return). -/
def exitValue : LoopExit → ℚ
  | .returned r => r.value
  | .finished _ result _ _ => result

/-- The main loop of `calculate` from line 239 of its first iteration onward, when that
iteration read its operand at offset 0 (so `*error_pos` is 0): the cursor stands where
`parse_number` stopped and `result` holds `a`. -/
def foldRest (e : List Char) (a : ℚ) : LoopExit :=
  let index3 := skipSpaces e (parse_number e 0 ERROR_NONE).2.1
  if index3 < strlen e - 1 then
    if isOperator (charAt e index3) = true then
      calcLoop e (strlen e) (index3 + 1) a (charAt e index3) true 0
    else .returned ⟨0, ERROR_INVALID_OPERATOR, index3⟩
  else .finished index3 a true 0

/-- The `double` that `value = value * 10 + digit` accumulates from `v` over the decimal digit
characters `ds`. -/
def lexFromD (v : Dbl) (ds : List Char) : Dbl :=
  ds.foldl (fun w d => Dbl.add (Dbl.mul w (Dbl.ofNat 10)) (Dbl.ofNat (decDigitRef d))) v

/-- The `double` that `value = value * 16 + digit` accumulates from `v` over the hexadecimal
digit characters `hs`. -/
def hexFromD (v : Dbl) (hs : List Char) : Dbl :=
  hs.foldl (fun w d => Dbl.add (Dbl.mul w (Dbl.ofNat 16)) (Dbl.ofNat (hexDigitRef d))) v

/-! ## Theorems -/

/-! ### Reading characters -/

theorem charAt_cons_zero (c : Char) (e : List Char) : charAt (c :: e) 0 = c := rfl
theorem charAt_cons_succ (c : Char) (e : List Char) (i : Nat) :
    charAt (c :: e) (i + 1) = charAt e i := rfl

theorem charAt_append_right (pre suf : List Char) (k : Nat) :
    charAt (pre ++ suf) (pre.length + k) = charAt suf k := by
  induction pre with
  | nil => simp
  | cons c cs ih => 
    have : (c :: cs).length + k = (cs.length + k) + 1 := by simp; omega
    rw [List.cons_append, this, charAt_cons_succ, ih]

theorem charAt_append_left (pre suf : List Char) (i : Nat) (h : i < pre.length) :
    charAt (pre ++ suf) i = charAt pre i := by
  unfold charAt
  rw [List.getD_eq_getElem?_getD, List.getD_eq_getElem?_getD, List.getElem?_append_left h]

/-! ### The validator -/

theorem strlen_le_length (e : List Char) : strlen e ≤ e.length := by
  induction e with
  | nil => simp [strlen]
  | cons c cs ih => simp only [strlen]; split_ifs <;> simp; omega

theorem validChar_iff (c : Char) : validChar c = false ↔ (c ≠ '=' ∧ ¬ isalnum c = true ∧ c ≠ '+' ∧ c ≠ '-' ∧
        c ≠ '*' ∧ c ≠ '/' ∧ c ≠ '.' ∧ c ≠ ' ' ∧ c ≠ 'x' ∧ c ≠ 'X') := by
  constructor
  · intro h
    simp only [validChar, Bool.or_eq_false_iff, decide_eq_false_iff_not] at h
    obtain ⟨⟨⟨⟨⟨⟨⟨h1, h2⟩, h3⟩, h4⟩, h5⟩, h6⟩, h7⟩, h8⟩ := h
    refine ⟨h8, by simp [h1], h2, h3, h4, h5, h6, h7, ?_, ?_⟩
    · rintro rfl; exact absurd h1 (by decide)
    · rintro rfl; exact absurd h1 (by decide)
  · rintro ⟨h1, h2, h3, h4, h5, h6, h7, h8, -, -⟩
    simp [validChar, *]

theorem drop_take_cons {e : List Char} {len i : Nat} {c : Char} {t : List Char}
    (hlen : len ≤ e.length) (h : (e.take len).drop i = c :: t) :
    i < len ∧ charAt e i = c ∧ (e.take len).drop (i + 1) = t := by
  have hi : i < (e.take len).length := by
    by_contra hc
    rw [List.drop_eq_nil_of_le (by omega)] at h
    cases h
  have hi2 : i < len := by simpa [hlen] using hi
  refine ⟨hi2, ?_, ?_⟩
  · have := List.drop_eq_getElem_cons hi
    rw [this] at h
    injection h with h1 h2
    rw [← h1]
    unfold charAt
    rw [List.getD_eq_getElem?_getD, List.getElem_take, List.getElem?_eq_getElem (by omega)]
    rfl
  · have := List.drop_eq_getElem_cons hi
    rw [this] at h
    injection h with h1 h2

theorem validateLoop_ok_iff (e : List Char) (len : Nat) (hlen : len ≤ e.length) :
    ∀ (t : List Char) (i : Nat) (q p : Int), (e.take len).drop i = t →
      (validateLoop e len i q = .ok p ↔
        (∀ c ∈ t, validChar c = true) ∧
          ((q = -1 ∧ t.count '=' = 0 ∧ p = -1) ∨
           (q = -1 ∧ t.count '=' = 1 ∧ p = (i : Int) + (t.indexOf '=' : Nat)) ∨
           (q ≠ -1 ∧ t.count '=' = 0 ∧ p = q))) := by
  intro t
  induction t with
  | nil =>
    intro i q p h
    have hi : ¬ i < len := by
      intro hc
      have : ((e.take len).drop i).length = 0 := by rw [h]; rfl
      simp at this
      omega
    rw [validateLoop, dif_neg hi]
    simp only [Except.ok.injEq, List.not_mem_nil, false_implies, implies_true, List.count_nil,
      true_and, zero_ne_one, false_and, or_false]
    constructor
    · intro h; subst h; by_cases hq : q = -1 <;> simp [hq]
    · rintro (⟨h1, h2⟩ | h2 | ⟨-, h2⟩)
      · rw [h1, h2]
      · exact h2.2.elim
      · rw [h2]
  | cons c t ih =>
    intro i q p h
    obtain ⟨hi, hc, hd⟩ := drop_take_cons hlen h
    rw [validateLoop, dif_pos hi, hc]
    by_cases hceq : c = '='
    · subst hceq
      rw [if_pos rfl]
      by_cases hq : q = -1
      · rw [if_neg (by simpa using hq), ih (i + 1) i p hd]
        have hv : validChar '=' = true := by decide
        simp only [List.mem_cons, forall_eq_or_imp, hv, true_and, List.count_cons_self,
          List.indexOf_cons_self, hq]
        have : (i : Int) ≠ -1 := by omega
        simp [this]
      · rw [if_pos hq]
        simp [hq]
    · rw [if_neg hceq]
      by_cases hbad : validChar c = false
      · have hb := (validChar_iff c).1 hbad
        rw [if_pos hb.2]
        simp [hbad]
      · have hb : ¬ (¬ isalnum c = true ∧ c ≠ '+' ∧ c ≠ '-' ∧
          c ≠ '*' ∧ c ≠ '/' ∧ c ≠ '.' ∧ c ≠ ' ' ∧ c ≠ 'x' ∧ c ≠ 'X') := by
          intro hh
          exact hbad ((validChar_iff c).2 ⟨hceq, hh⟩)
        rw [if_neg hb, ih (i + 1) q p hd]
        have hv : validChar c = true := by simpa using hbad
        have hcount : List.count '=' (c :: t) = List.count '=' t := by
          rw [List.count_cons]; simp [hceq]
        have hidx : List.indexOf '=' (c :: t) = List.indexOf '=' t + 1 := by
          rw [List.indexOf_cons, beq_eq_false_iff_ne.2 hceq, cond_false]
        rw [hcount, hidx]
        simp only [List.mem_cons, forall_eq_or_imp, hv, true_and]
        have : ((i + 1 : Nat) : Int) + (List.indexOf '=' t : Nat) =
            (i : Int) + ((List.indexOf '=' t + 1 : Nat) : Int) := by
          push_cast; ring
        rw [this]

theorem validateLoop_error (e : List Char) (len : Nat) :
    ∀ (i : Nat) (q : Int) (E : ErrorType), validateLoop e len i q = .error E → 
      E = ERROR_INVALID_CHAR := by
  intro i q
  induction i, q using validateLoop.induct e len with
  | case1 i q h h1 h2 => 
    intro E hE
    rw [validateLoop, dif_pos h, if_pos h1, if_pos h2] at hE
    injection hE with hE; exact hE.symm
  | case2 i q h h1 h2 ih =>
    intro E hE
    rw [validateLoop, dif_pos h, if_pos h1, if_neg h2] at hE
    exact ih E hE
  | case3 i q h h1 h2 => 
    intro E hE
    rw [validateLoop, dif_pos h, if_neg h1, if_pos h2] at hE
    injection hE with hE; exact hE.symm
  | case4 i q h h1 h2 ih =>
    intro E hE
    rw [validateLoop, dif_pos h, if_neg h1, if_neg h2] at hE
    exact ih E hE
  | case5 i q h =>
    intro E hE
    rw [validateLoop, dif_neg h] at hE
    cases hE


theorem indexOf_last_iff (s : List Char) (h : s.count '=' = 1) :
    s.indexOf '=' + 1 = s.length ↔ s.getLast? = some '=' := by
  induction s with
  | nil => simp at h
  | cons c t ih =>
    by_cases hc : c = '='
    · subst hc
      rw [List.count_cons_self] at h
      have h0 : t.count '=' = 0 := by omega
      have hnot : '=' ∉ t := List.count_eq_zero.1 h0
      rw [List.indexOf_cons_self]
      cases t with
      | nil => simp
      | cons d t' =>
        simp only [List.length_cons, List.getLast?_cons_cons]
        constructor
        · intro h; omega
        · intro h
          exact absurd (List.mem_of_getLast?_eq_some h) hnot
    · have hcount : List.count '=' (c :: t) = List.count '=' t := by
        rw [List.count_cons]; simp [hc]
      rw [hcount] at h
      have hidx : List.indexOf '=' (c :: t) = List.indexOf '=' t + 1 := by
        rw [List.indexOf_cons, beq_eq_false_iff_ne.2 hc, cond_false]
      rw [hidx]
      cases t with
      | nil => simp at h
      | cons d t' =>
        rw [List.getLast?_cons_cons, ← ih h]
        simp

theorem validate_expression_eq_ref (expr : List Char) :
    validate_expression expr = validateRef (expr.take (strlen expr)) := by
  have hlen := strlen_le_length expr
  have hl : (expr.take (strlen expr)).length = strlen expr := by simp [hlen]
  unfold validate_expression validateRef
  simp only [hl]
  by_cases h0 : strlen expr = 0
  · rw [if_pos h0, if_pos h0]
  · rw [if_neg h0, if_neg h0]
    have key := validateLoop_ok_iff expr (strlen expr) hlen (expr.take (strlen expr)) 0 (-1)
    cases hL : validateLoop expr (strlen expr) 0 (-1) with
    | error E =>
      simp only []
      rw [validateLoop_error _ _ _ _ _ hL]
      by_cases hgood : (∃ c ∈ expr.take (strlen expr), validChar c = false) ∨
          (expr.take (strlen expr)).count '=' ≠ 1 ∨
          (expr.take (strlen expr)).getLast? ≠ some '='
      · rw [if_pos hgood]
      · exfalso
        push_neg at hgood
        obtain ⟨g1, g2, g3⟩ := hgood
        have := (key ((List.indexOf '=' (expr.take (strlen expr)) : Nat) : Int) rfl).2
          ⟨fun c hc => by simpa using g1 c hc, Or.inr (Or.inl ⟨rfl, g2, by simp⟩)⟩
        rw [hL] at this
        cases this
    | ok p =>
      simp only []
      obtain ⟨g1, g2⟩ := (key p rfl).1 hL
      have hnb : ¬ ∃ c ∈ expr.take (strlen expr), validChar c = false := by
        rintro ⟨c, hc, hb⟩
        rw [g1 c hc] at hb
        cases hb
      rcases g2 with ⟨-, g2, g3⟩ | ⟨-, g2, g3⟩ | ⟨g2, -⟩
      · rw [if_pos g3, if_pos (Or.inr (Or.inl (by omega)))]
      · have hp : p ≠ -1 := by omega
        rw [if_neg hp]
        have hb := indexOf_last_iff _ g2
        by_cases hlast : (expr.take (strlen expr)).getLast? = some '='
        · have := hb.2 hlast
          rw [if_neg (by rw [g3]; simp only [ne_eq, not_not]; omega), if_neg]
          push_neg
          exact ⟨fun c hc => by simpa using fun h => hnb ⟨c, hc, h⟩, g2, hlast⟩
        · have : ¬ (List.indexOf '=' (expr.take (strlen expr)) + 1 =
              (expr.take (strlen expr)).length) := fun h => hlast (hb.1 h)
          rw [if_pos (by rw [g3]; omega), if_pos (Or.inr (Or.inr hlast))]
      · exact absurd rfl g2


/-! ### Two buffers that agree up to a stopping character -/

theorem stop_facts {c : Char} (h : c = '=' ∨ isOperator c = true) :
    c ≠ ' ' ∧ c ≠ '.' ∧ c ≠ '0' ∧ c ≠ 'x' ∧ c ≠ 'X' ∧ isdigit c = false ∧ isxdigit c = false ∧
      c ≠ NUL ∧ (c = '=' ∨ c = '+' ∨ c = '-' ∨ c = '*' ∨ c = '/') := by
  have h5 : c = '=' ∨ c = '+' ∨ c = '-' ∨ c = '*' ∨ c = '/' := by
    rcases h with h | h
    · exact Or.inl h
    · simp only [isOperator, Bool.or_eq_true, decide_eq_true_eq] at h
      tauto
  rcases h5 with h | h | h | h | h <;> subst h <;> decide

theorem skipSpaces_agree {e1 e2 : List Char} {n : Nat}
    (hag : ∀ i < n, charAt e1 i = charAt e2 i)
    (h1 : charAt e1 n = '=' ∨ isOperator (charAt e1 n) = true)
    (h2 : charAt e2 n = '=' ∨ isOperator (charAt e2 n) = true) :
    ∀ k i, n - i = k → i ≤ n → skipSpaces e1 i = skipSpaces e2 i ∧ skipSpaces e1 i ≤ n := by
  intro k
  induction k with
  | zero =>
    intro i hk hi
    have : i = n := by omega
    subst this
    rw [skipSpaces, dif_neg (stop_facts h1).1, skipSpaces, dif_neg (stop_facts h2).1]
    exact ⟨rfl, le_refl _⟩
  | succ k ih =>
    intro i hk hi
    have hlt : i < n := by omega
    rw [skipSpaces, skipSpaces.eq_def e2 i, hag i hlt]
    by_cases hs : charAt e2 i = ' '
    · rw [dif_pos hs, dif_pos hs]
      exact ih (i + 1) (by omega) (by omega)
    · rw [dif_neg hs, dif_neg hs]
      exact ⟨rfl, hi⟩

theorem hexLoop_agree {e1 e2 : List Char} {n : Nat}
    (hag : ∀ i < n, charAt e1 i = charAt e2 i)
    (h1 : charAt e1 n = '=' ∨ isOperator (charAt e1 n) = true)
    (h2 : charAt e2 n = '=' ∨ isOperator (charAt e2 n) = true) :
    ∀ k i v, n - i = k → i ≤ n → hexLoop e1 i v = hexLoop e2 i v ∧ (hexLoop e1 i v).1 ≤ n := by
  intro k
  induction k with
  | zero =>
    intro i v hk hi
    have : i = n := by omega
    subst this
    have s1 := stop_facts h1
    have s2 := stop_facts h2
    rw [hexLoop, dif_neg (by simp [s1.1, s1.2.2.2.2.2.2.1]), hexLoop,
      dif_neg (by simp [s2.1, s2.2.2.2.2.2.2.1])]
    exact ⟨rfl, le_refl _⟩
  | succ k ih =>
    intro i v hk hi
    have hlt : i < n := by omega
    rw [hexLoop, hexLoop.eq_def e2 i, hag i hlt]
    split_ifs
    · exact ih (i + 1) _ (by omega) (by omega)
    · exact ih (i + 1) _ (by omega) (by omega)
    · exact ⟨rfl, hi⟩

theorem intLoop_agree {e1 e2 : List Char} {n : Nat}
    (hag : ∀ i < n, charAt e1 i = charAt e2 i)
    (h1 : charAt e1 n = '=' ∨ isOperator (charAt e1 n) = true)
    (h2 : charAt e2 n = '=' ∨ isOperator (charAt e2 n) = true) :
    ∀ k i v, n - i = k → i ≤ n → intLoop e1 i v = intLoop e2 i v ∧ (intLoop e1 i v).1 ≤ n := by
  intro k
  induction k with
  | zero =>
    intro i v hk hi
    have : i = n := by omega
    subst this
    have s1 := (stop_facts h1).2.2.2.2.2.2.2.2
    have s2 := (stop_facts h2).2.2.2.2.2.2.2.2
    rw [intLoop, dif_neg (by tauto), intLoop, dif_neg (by tauto)]
    exact ⟨rfl, le_refl _⟩
  | succ k ih =>
    intro i v hk hi
    have hlt : i < n := by omega
    rw [intLoop, intLoop.eq_def e2 i, hag i hlt]
    split_ifs <;>
      first
        | exact ih (i + 1) _ (by omega) (by omega)
        | exact ⟨rfl, by simp only []; omega⟩

theorem fracLoop_agree {e1 e2 : List Char} {n : Nat}
    (hag : ∀ i < n, charAt e1 i = charAt e2 i)
    (h1 : charAt e1 n = '=' ∨ isOperator (charAt e1 n) = true)
    (h2 : charAt e2 n = '=' ∨ isOperator (charAt e2 n) = true) :
    ∀ k i v f, n - i = k → i ≤ n →
      fracLoop e1 i v f = fracLoop e2 i v f ∧ (fracLoop e1 i v f).1 ≤ n := by
  intro k
  induction k with
  | zero =>
    intro i v f hk hi
    have : i = n := by omega
    subst this
    have s1 := (stop_facts h1).2.2.2.2.2.2.2.2
    have s2 := (stop_facts h2).2.2.2.2.2.2.2.2
    rw [fracLoop, dif_neg (by tauto), fracLoop, dif_neg (by tauto)]
    exact ⟨rfl, le_refl _⟩
  | succ k ih =>
    intro i v f hk hi
    have hlt : i < n := by omega
    rw [fracLoop, fracLoop.eq_def e2 i, hag i hlt]
    split_ifs <;>
      first
        | exact ih (i + 1) _ _ (by omega) (by omega)
        | exact ⟨rfl, by simp only []; omega⟩

theorem charAt_eq_agree {e1 e2 : List Char} {n : Nat}
    (hag : ∀ i < n, charAt e1 i = charAt e2 i)
    (h1 : charAt e1 n = '=' ∨ isOperator (charAt e1 n) = true)
    (h2 : charAt e2 n = '=' ∨ isOperator (charAt e2 n) = true)
    {j : Nat} (hj : j ≤ n) {c : Char} (hc0 : ¬ (c = '=' ∨ isOperator c = true)) :
    (charAt e1 j = c ↔ charAt e2 j = c) ∧ (charAt e2 j = c → j < n) := by
  rcases Nat.lt_or_ge j n with hlt | hge
  · rw [hag j hlt]
    exact ⟨Iff.rfl, fun _ => hlt⟩
  · have : j = n := by omega
    subst this
    have a1 : charAt e1 j ≠ c := fun h => hc0 (h ▸ h1)
    have a2 : charAt e2 j ≠ c := fun h => hc0 (h ▸ h2)
    exact ⟨⟨fun h => absurd h a1, fun h => absurd h a2⟩, fun h => absurd h a2⟩

theorem parse_number_agree {e1 e2 : List Char} {n : Nat}
    (hag : ∀ i < n, charAt e1 i = charAt e2 i)
    (h1 : charAt e1 n = '=' ∨ isOperator (charAt e1 n) = true)
    (h2 : charAt e2 n = '=' ∨ isOperator (charAt e2 n) = true)
    {i : Nat} (hi : i < n) (err : ErrorType) :
    parse_number e1 i err = parse_number e2 i err ∧ (parse_number e1 i err).2.1 ≤ n := by
  have hc0 := hag i hi
  have hx := charAt_eq_agree hag h1 h2 (show i + 1 ≤ n by omega) (c := 'x') (by decide)
  have hX := charAt_eq_agree hag h1 h2 (show i + 1 ≤ n by omega) (c := 'X') (by decide)
  unfold parse_number
  rw [hc0]
  simp only [hx.1, hX.1]
  by_cases hhex : charAt e2 i = '0' ∧ (charAt e2 (i + 1) = 'x' ∨ charAt e2 (i + 1) = 'X')
  · rw [if_pos hhex, if_pos hhex]
    have hi1 : i + 1 < n := hhex.2.elim hx.2 hX.2
    have hdot := charAt_eq_agree hag h1 h2 (show i + 2 ≤ n by omega) (c := '.') (by decide)
    simp only [hdot.1]
    obtain ⟨hl1, hl2⟩ := hexLoop_agree hag h1 h2 _ (i + 2) 0 rfl (by omega)
    rw [hl1] at hl2 ⊢
    refine ⟨rfl, ?_⟩
    split_ifs <;> simp only [] <;> omega
  · rw [if_neg hhex, if_neg hhex]
    generalize hidx : (if charAt e2 i = '+' ∨ charAt e2 i = '-' then i + 1 else i) = index1
    have hidx1 : index1 ≤ n := by rw [← hidx]; split_ifs <;> omega
    have hidx2 : i ≤ index1 := by rw [← hidx]; split_ifs <;> omega
    obtain ⟨hl1, hl2⟩ := intLoop_agree hag h1 h2 _ index1 0 rfl hidx1
    rw [hl1] at hl2 ⊢
    have hdot := charAt_eq_agree hag h1 h2 hl2 (c := '.') (by decide)
    simp only [hdot.1]
    by_cases hd : charAt e2 (intLoop e2 index1 0).1 = '.'
    · obtain ⟨hf1, hf2⟩ := fracLoop_agree hag h1 h2 _ ((intLoop e2 index1 0).1 + 1)
        (intLoop e2 index1 0).2.1 (1 / 10) rfl (hdot.2 hd)
      simp only [if_pos hd]
      rw [hf1] at hf2 ⊢
      refine ⟨rfl, ?_⟩
      split_ifs <;> simp only [] <;> omega
    · simp only [if_neg hd]
      refine ⟨trivial, ?_⟩
      split_ifs <;> simp only [] <;> omega

theorem intLoop_stop {e : List Char} {i : Nat} (v : ℚ)
    (h : charAt e i = NUL ∨ charAt e i = '=' ∨ charAt e i = '+' ∨ charAt e i = '-' ∨
      charAt e i = '*' ∨ charAt e i = '/' ∨ charAt e i = '.') :
    intLoop e i v = (i, v, true) := by
  rw [intLoop, dif_neg (by tauto)]

theorem parse_number_at_eq {e : List Char} {i : Nat} (h : charAt e i = '=') (err : ErrorType) :
    (parse_number e i err).2.2 = ERROR_INVALID_NUMBER := by
  unfold parse_number
  have hne : ¬ (charAt e i = '0' ∧ (charAt e (i + 1) = 'x' ∨ charAt e (i + 1) = 'X')) := by
    intro hh; rw [h] at hh; exact absurd hh.1 (by decide)
  have hs : ¬ (charAt e i = '+' ∨ charAt e i = '-') := by rw [h]; decide
  have hd : ¬ (charAt e i = '.') := by rw [h]; decide
  rw [if_neg hne]
  simp only [if_neg hs]
  rw [intLoop_stop 0 (Or.inr (Or.inl h))]
  simp [hd]

theorem calcLoop_extend {e1 e2 : List Char} {n len2 : Nat}
    (hag : ∀ i < n, charAt e1 i = charAt e2 i)
    (h1 : charAt e1 n = '=') (h2 : isOperator (charAt e2 n) = true) (hlen : n + 1 < len2)
    (hlast : ∀ m, m + 1 = n → isOperator (charAt e1 m) = false) :
    ∀ (k index : Nat) (result : ℚ) (op : Char) (ho : Bool) (ep j : Nat) (r : ℚ) (ho' : Bool)
      (ep' : Nat), n - index ≤ k → index < n →
      calcLoop e1 (n + 1) index result op ho ep = .finished j r ho' ep' →
      j = n ∧ ho' = true ∧
        calcLoop e2 len2 index result op ho ep =
          calcLoop e2 len2 (n + 1) r (charAt e2 n) true ep' := by
  intro k
  induction k with
  | zero => intro index _ _ _ _ _ _ _ _ hk hi; omega
  | succ k ih =>
    intro index result op ho ep j r ho' ep' hk hi h
    have g1 : charAt e1 n = '=' ∨ isOperator (charAt e1 n) = true := Or.inl h1
    have g2 : charAt e2 n = '=' ∨ isOperator (charAt e2 n) = true := Or.inr h2
    obtain ⟨hs1, hs2⟩ := skipSpaces_agree hag g1 g2 _ index rfl (le_of_lt hi)
    rw [calcLoop, if_pos (by omega)] at h
    rw [calcLoop, if_pos (by omega)]
    simp only [] at h ⊢
    rw [hs1] at h hs2
    by_cases hin : skipSpaces e2 index = n
    · exfalso
      rw [hin, h1, if_neg (fun hh => absurd hh.1 (by decide)),
        if_pos (by rw [parse_number_at_eq h1]; decide)] at h
      cases h
    · have hi1 : skipSpaces e2 index < n := by omega
      obtain ⟨hp1, hp2⟩ := parse_number_agree hag g1 g2 hi1 ERROR_NONE
      rw [hag _ hi1, hp1] at h
      rw [hp1] at hp2
      obtain ⟨ht1, ht2⟩ := skipSpaces_agree hag g1 g2 _
        (parse_number e2 (skipSpaces e2 index) ERROR_NONE).2.1 rfl hp2
      rw [ht1] at h ht2
      have m1 := le_skipSpaces e2 index
      have m2 := le_parse_number e2 (skipSpaces e2 index) ERROR_NONE
      have m3 := le_skipSpaces e2 (parse_number e2 (skipSpaces e2 index) ERROR_NONE).2.1
      by_cases c1 : isOperator (charAt e2 (skipSpaces e2 index)) = true ∧
          ¬ (skipSpaces e2 index = 0 ∧ charAt e2 (skipSpaces e2 index) = '-')
      · rw [if_pos c1] at h; cases h
      rw [if_neg c1] at h ⊢
      by_cases c2 : (parse_number e2 (skipSpaces e2 index) ERROR_NONE).2.2 ≠ ERROR_NONE
      · rw [if_pos c2] at h; cases h
      rw [if_neg c2] at h ⊢
      cases happ : applyOp op result (parse_number e2 (skipSpaces e2 index) ERROR_NONE).1 with
      | inl e => rw [happ] at h; cases h
      | inr result1 =>
        rw [happ] at h
        simp only [] at h ⊢
        by_cases c3 : skipSpaces e2 (parse_number e2 (skipSpaces e2 index) ERROR_NONE).2.1 < n
        · rw [if_pos (by omega)] at h
          rw [if_pos (by omega)]
          rw [hag _ c3] at h
          by_cases c4 : isOperator (charAt e2
              (skipSpaces e2 (parse_number e2 (skipSpaces e2 index) ERROR_NONE).2.1)) = true
          · rw [if_pos c4] at h ⊢
            have hn : skipSpaces e2 (parse_number e2 (skipSpaces e2 index) ERROR_NONE).2.1 + 1
                < n := by
              by_contra hc
              have := hlast _ (show skipSpaces e2
                (parse_number e2 (skipSpaces e2 index) ERROR_NONE).2.1 + 1 = n by omega)
              rw [hag _ c3, c4] at this
              cases this
            exact ih _ _ _ _ _ _ _ _ _ (by omega) hn h
          · rw [if_neg c4] at h; cases h
        · have hn : skipSpaces e2 (parse_number e2 (skipSpaces e2 index) ERROR_NONE).2.1 = n := by
            omega
          rw [if_neg (by omega)] at h
          rw [if_pos (by omega), hn, if_pos h2]
          rw [hn] at h
          injection h with a1 a2 a3 a4
          subst a1 a2 a3 a4
          exact ⟨rfl, rfl, rfl⟩


/-! ### Digits and the literal loops -/

theorem isdigit_cases {c : Char} (h : isdigit c = true) :
    c = '0' ∨ c = '1' ∨ c = '2' ∨ c = '3' ∨ c = '4' ∨ c = '5' ∨ c = '6' ∨ c = '7' ∨ c = '8' ∨
      c = '9' := by
  simp only [isdigit, decide_eq_true_eq] at h
  obtain ⟨h1, h2⟩ := h
  have : c = Char.ofNat c.toNat := (Char.ofNat_toNat c).symm
  generalize c.toNat = k at *
  subst this
  interval_cases k <;> decide


theorem isxdigit_cases {c : Char} (h : isxdigit c = true) :
    isdigit c = true ∨ c = 'a' ∨ c = 'b' ∨ c = 'c' ∨ c = 'd' ∨ c = 'e' ∨ c = 'f' ∨ c = 'A' ∨
      c = 'B' ∨ c = 'C' ∨ c = 'D' ∨ c = 'E' ∨ c = 'F' := by
  by_cases hd : isdigit c = true
  · exact Or.inl hd
  · right
    simp only [isxdigit, hd, Bool.false_or, Bool.or_eq_true, decide_eq_true_eq] at h
    have : c = Char.ofNat c.toNat := (Char.ofNat_toNat c).symm
    generalize c.toNat = k at *
    subst this
    rcases h with ⟨h1, h2⟩ | ⟨h1, h2⟩ <;> interval_cases k <;> decide

theorem isdigit_facts {c : Char} (h : isdigit c = true) :
    c ≠ NUL ∧ c ≠ '=' ∧ c ≠ '+' ∧ c ≠ '-' ∧ c ≠ '*' ∧ c ≠ '/' ∧ c ≠ '.' ∧ c ≠ ' ' ∧
      isOperator c = false ∧ isxdigit c = true ∧ c ≠ 'x' ∧ c ≠ 'X' ∧ validChar c = true ∧
      c.toNat - 48 = decDigitRef c ∧ hexDigitValue c = hexDigitRef c := by
  rcases isdigit_cases h with h | h | h | h | h | h | h | h | h | h <;> subst h <;> decide

theorem isxdigit_facts {c : Char} (h : isxdigit c = true) :
    c ≠ NUL ∧ c ≠ '=' ∧ c ≠ '+' ∧ c ≠ '-' ∧ c ≠ '*' ∧ c ≠ '/' ∧ c ≠ '.' ∧ c ≠ ' ' ∧
      isOperator c = false ∧ validChar c = true ∧ hexDigitValue c = hexDigitRef c := by
  rcases isxdigit_cases h with h | h | h | h | h | h | h | h | h | h | h | h | h
  · have := isdigit_facts h
    tauto
  all_goals subst h; decide

theorem skipSpaces_of_ne {e : List Char} {i : Nat} (h : charAt e i ≠ ' ') :
    skipSpaces e i = i := by
  rw [skipSpaces, dif_neg h]

theorem skipSpaces_of_eq {e : List Char} {i : Nat} (h : charAt e i = ' ') :
    skipSpaces e i = skipSpaces e (i + 1) := by
  rw [skipSpaces, dif_pos h]

theorem intLoop_digit {e : List Char} {i : Nat} (v : ℚ) (h : isdigit (charAt e i) = true) :
    intLoop e i v = intLoop e (i + 1) (v * 10 + (decDigitRef (charAt e i) : ℚ)) := by
  have f := isdigit_facts h
  rw [intLoop, dif_pos (by tauto), if_neg (by tauto), if_neg (by simp [h])]
  rw [f.2.2.2.2.2.2.2.2.2.2.2.2.2.1]

theorem decimalValue_nil : decimalValue [] = 0 := rfl

theorem decimalValue_cons (d : Char) (ds : List Char) :
    decimalValue (d :: ds) = decDigitRef d * 10 ^ ds.length + decimalValue ds := by
  unfold decimalValue
  rw [List.reverse_cons, List.map_append, Nat.ofDigits_append]
  simp [Nat.ofDigits_singleton]
  ring

theorem hexValue_cons (d : Char) (ds : List Char) :
    hexValue (d :: ds) = hexDigitRef d * 16 ^ ds.length + hexValue ds := by
  unfold hexValue
  rw [List.reverse_cons, List.map_append, Nat.ofDigits_append]
  simp [Nat.ofDigits_singleton]
  ring

theorem charAt_middle (pre : List Char) (c : Char) (rest : List Char) :
    charAt (pre ++ c :: rest) pre.length = c := by
  have := charAt_append_right pre (c :: rest) 0
  simpa using this

theorem intLoop_digits (ds : List Char) (hds : ∀ c ∈ ds, isdigit c = true) :
    ∀ (pre rest : List Char) (v : ℚ),
      intLoop (pre ++ ds ++ rest) pre.length v =
        intLoop (pre ++ ds ++ rest) (pre.length + ds.length)
          (v * 10 ^ ds.length + (decimalValue ds : ℚ)) := by
  induction ds with
  | nil => intro pre rest v; simp [decimalValue_nil]
  | cons d ds ih =>
    intro pre rest v
    have hd : isdigit d = true := hds d (List.mem_cons_self _ _)
    have hc : charAt (pre ++ (d :: ds) ++ rest) pre.length = d := by
      rw [List.append_assoc, List.cons_append, charAt_middle]
    rw [intLoop_digit v (by rw [hc]; exact hd), hc]
    have he : pre ++ (d :: ds) ++ rest = (pre ++ [d]) ++ ds ++ rest := by simp
    have hl : pre.length + 1 = (pre ++ [d]).length := by simp
    rw [he, hl, ih (fun c hc => hds c (List.mem_cons_of_mem _ hc))]
    rw [decimalValue_cons]
    simp only [List.length_append, List.length_singleton, List.length_cons, List.length_nil]
    congr 1
    · omega
    · push_cast; ring

theorem charAt_after (pre ds : List Char) (t : Char) (rest : List Char) :
    charAt (pre ++ ds ++ t :: rest) (pre.length + ds.length) = t := by
  rw [← List.length_append]; exact charAt_middle _ _ _

theorem charAt_second (pre : List Char) (d : Char) (ds : List Char) (t : Char)
    (rest : List Char) :
    charAt (pre ++ (d :: ds) ++ t :: rest) (pre.length + 1) = t ∨
      charAt (pre ++ (d :: ds) ++ t :: rest) (pre.length + 1) ∈ ds := by
  cases ds with
  | nil => left; exact charAt_after pre [d] t rest
  | cons d2 ds2 =>
    right
    have : pre ++ (d :: d2 :: ds2) ++ t :: rest = (pre ++ [d]) ++ d2 :: (ds2 ++ t :: rest) := by
      simp
    rw [this]
    have h := charAt_middle (pre ++ [d]) d2 (ds2 ++ t :: rest)
    rw [List.length_append] at h
    rw [show [d].length = 1 from rfl] at h
    rw [h]
    exact List.mem_cons_self _ _

theorem stop_terminates {c : Char} (h : c = '=' ∨ isOperator c = true) :
    (c = NUL ∨ c = '=' ∨ c = '+' ∨ c = '-' ∨ c = '*' ∨ c = '/' ∨ c = '.') ∧
      (c = NUL ∨ c = '=' ∨ c = '+' ∨ c = '-' ∨ c = '*' ∨ c = '/') := by
  have := (stop_facts h).2.2.2.2.2.2.2.2
  constructor <;> tauto

theorem parse_number_uint_literal (pre ds : List Char) (hne : ds ≠ [])
    (hds : ∀ c ∈ ds, isdigit c = true) (t : Char) (ht : t = '=' ∨ isOperator t = true)
    (rest : List Char) (err : ErrorType) :
    parse_number (pre ++ ds ++ t :: rest) pre.length err =
      ((decimalValue ds : ℚ), pre.length + ds.length, err) := by
  obtain ⟨d, ds', rfl⟩ := List.exists_cons_of_ne_nil hne
  have hd : isdigit d = true := hds d (List.mem_cons_self _ _)
  have fd := isdigit_facts hd
  have st := stop_facts ht
  have c0 : charAt (pre ++ (d :: ds') ++ t :: rest) pre.length = d := by
    rw [List.append_assoc, List.cons_append, charAt_middle]
  have c1 : ¬ (charAt (pre ++ (d :: ds') ++ t :: rest) (pre.length + 1) = 'x' ∨
      charAt (pre ++ (d :: ds') ++ t :: rest) (pre.length + 1) = 'X') := by
    rcases charAt_second pre d ds' t rest with h | h
    · rw [h]; intro hh; rcases hh with hh | hh
      · exact st.2.2.2.1 hh
      · exact st.2.2.2.2.1 hh
    · have f2 := isdigit_facts (hds _ (List.mem_cons_of_mem _ h))
      intro hh; rcases hh with hh | hh
      · exact f2.2.2.2.2.2.2.2.2.2.2.1 hh
      · exact f2.2.2.2.2.2.2.2.2.2.2.2.1 hh
  have ct := charAt_after pre (d :: ds') t rest
  have hff := intLoop_digits (d :: ds') hds pre (t :: rest) 0
  have hstop : intLoop (pre ++ (d :: ds') ++ t :: rest) (pre.length + (d :: ds').length)
      (0 * 10 ^ (d :: ds').length + (decimalValue (d :: ds') : ℚ)) =
      (pre.length + (d :: ds').length, 0 * 10 ^ (d :: ds').length + (decimalValue (d :: ds') : ℚ),
        true) :=
    intLoop_stop _ (by rw [ct]; exact (stop_terminates ht).1)
  rw [hstop] at hff
  have hsign : ¬ (d = '+' ∨ d = '-') := fun h => h.elim fd.2.2.1 fd.2.2.2.1
  unfold parse_number
  rw [if_neg (fun hh => c1 hh.2), c0]
  simp only [if_neg hsign, hff, ct]
  rw [if_neg (by simp), if_neg st.2.1]
  simp only []
  rw [if_neg (by simp), if_neg (by rintro (h | ⟨-, h⟩) <;> first | exact hsign h | simp at h),
    if_neg fd.2.2.2.1]
  simp

theorem parse_number_decimal_core {e : List Char} {s k j : Nat} {vi v : ℚ}
    (err : ErrorType)
    (hnothex : ¬ (charAt e s = '0' ∧
      (charAt e (s + 1) = 'x' ∨ charAt e (s + 1) = 'X')))
    (hint : intLoop e (if charAt e s = '+' ∨ charAt e s = '-' then s + 1 else s)
      0 = (k, vi, true))
    (hfrac : (if charAt e k = '.' then fracLoop e (k + 1) vi (1 / 10) else (k, vi, true)) =
      (j, v, true))
    (hj : ¬ (j ≤ s ∨ (j = s + 1 ∧ (charAt e s = '+' ∨ charAt e s = '-')))) :
    parse_number e s err = (if charAt e s = '-' then -v else v, j, err) := by
  unfold parse_number
  rw [if_neg hnothex]
  simp only [hint, hfrac]
  rw [if_neg (by simp), if_neg (by simp), if_neg hj]

theorem strlen_eq_length {e : List Char} (h : ∀ c ∈ e, c ≠ NUL) : strlen e = e.length := by
  induction e with
  | nil => rfl
  | cons c cs ih =>
    simp only [strlen]
    rw [if_neg (h c (List.mem_cons_self _ _)), ih (fun d hd => h d (List.mem_cons_of_mem _ hd))]
    rfl

theorem take_strlen_of_nulfree {e : List Char} (h : ∀ c ∈ e, c ≠ NUL) :
    e.take (strlen e) = e := by
  rw [strlen_eq_length h, List.take_length]

theorem validate_expression_none_iff (e : List Char) :
    validate_expression e = ERROR_NONE ↔
      (e.take (strlen e) ≠ [] ∧ (∀ c ∈ e.take (strlen e), validChar c = true) ∧
        (e.take (strlen e)).count '=' = 1 ∧ (e.take (strlen e)).getLast? = some '=') := by
  rw [validate_expression_eq_ref]
  unfold validateRef
  by_cases h0 : (e.take (strlen e)).length = 0
  · rw [if_pos h0]
    have : e.take (strlen e) = [] := List.length_eq_zero.1 h0
    simp [this]
  · rw [if_neg h0]
    have hne : e.take (strlen e) ≠ [] := fun h => h0 (by rw [h]; rfl)
    by_cases hb : (∃ c ∈ e.take (strlen e), validChar c = false) ∨
        (e.take (strlen e)).count '=' ≠ 1 ∨ (e.take (strlen e)).getLast? ≠ some '='
    · rw [if_pos hb]
      simp only [false_iff, reduceCtorEq]
      rintro ⟨-, g1, g2, g3⟩
      rcases hb with ⟨c, hc, hv⟩ | hb | hb
      · rw [g1 c hc] at hv; cases hv
      · exact hb g2
      · exact hb g3
    · rw [if_neg hb]
      push_neg at hb
      simp only [true_iff]
      exact ⟨hne, fun c hc => by simpa using hb.1 c hc, hb.2.1, hb.2.2⟩

/-- A validated string made of a NUL-free body followed by `=`. -/
theorem validate_body_iff {E : List Char} (hE : ∀ c ∈ E, c ≠ NUL) :
    validate_expression (E ++ ['=']) = ERROR_NONE ↔
      ∀ c ∈ E, validChar c = true ∧ c ≠ '=' := by
  have hnf : ∀ c ∈ E ++ ['='], c ≠ NUL := by
    intro c hc
    rcases List.mem_append.1 hc with h | h
    · exact hE c h
    · simp at h; subst h; decide
  rw [validate_expression_none_iff, take_strlen_of_nulfree hnf]
  constructor
  · rintro ⟨-, g1, g2, -⟩ c hc
    refine ⟨g1 c (List.mem_append_left _ hc), ?_⟩
    rintro rfl
    have : List.count '=' (E ++ ['=']) = List.count '=' E + 1 := by simp
    rw [this] at g2
    have : 0 < List.count '=' E := List.count_pos_iff.2 hc
    omega
  · intro h
    refine ⟨by simp, ?_, ?_, by simp⟩
    · intro c hc
      rcases List.mem_append.1 hc with h' | h'
      · exact (h c h').1
      · simp at h'; subst h'; decide
    · have : List.count '=' E = 0 := List.count_eq_zero.2 (fun hc => (h _ hc).2 rfl)
      simp [this]

theorem skipTrailingSpaces_of_ne {e : List Char} {p : Int}
    (h : charAt e p.toNat ≠ ' ') : skipTrailingSpaces e p = p := by
  rw [skipTrailingSpaces, if_neg (fun hh => h hh.2)]

theorem applyOp_inl {op : Char} {r v : ℚ} {e : ErrorType} (h : applyOp op r v = .inl e) :
    e ≠ ERROR_NONE := by
  unfold applyOp at h
  split_ifs at h <;> cases h <;> decide

theorem calcLoop_returned (e : List Char) (len : Nat) :
    ∀ (k index : Nat) (result : ℚ) (op : Char) (ho : Bool) (ep : Nat) (x : CalcResult),
      len - index ≤ k → calcLoop e len index result op ho ep = .returned x →
      x.error ≠ ERROR_NONE ∧ x.value = 0 := by
  intro k
  induction k with
  | zero =>
    intro index result op ho ep x hk h
    rw [calcLoop, if_neg (by omega)] at h
    cases h
  | succ k ih =>
    intro index result op ho ep x hk h
    rw [calcLoop] at h
    by_cases c0 : index < len - 1
    · rw [if_pos c0] at h
      simp only [] at h
      have m1 := le_skipSpaces e index
      have m2 := le_parse_number e (skipSpaces e index) ERROR_NONE
      have m3 := le_skipSpaces e (parse_number e (skipSpaces e index) ERROR_NONE).2.1
      by_cases c1 : isOperator (charAt e (skipSpaces e index)) = true ∧
          ¬ (skipSpaces e index = 0 ∧ charAt e (skipSpaces e index) = '-')
      · rw [if_pos c1] at h
        injection h with h; subst h
        exact ⟨by simp, rfl⟩
      rw [if_neg c1] at h
      by_cases c2 : (parse_number e (skipSpaces e index) ERROR_NONE).2.2 ≠ ERROR_NONE
      · rw [if_pos c2] at h
        injection h with h; subst h
        exact ⟨c2, rfl⟩
      rw [if_neg c2] at h
      cases happ : applyOp op result (parse_number e (skipSpaces e index) ERROR_NONE).1 with
      | inl er =>
        rw [happ] at h
        injection h with h; subst h
        exact ⟨applyOp_inl happ, rfl⟩
      | inr result1 =>
        rw [happ] at h
        simp only [] at h
        by_cases c3 : skipSpaces e (parse_number e (skipSpaces e index) ERROR_NONE).2.1 < len - 1
        · rw [if_pos c3] at h
          by_cases c4 : isOperator (charAt e
              (skipSpaces e (parse_number e (skipSpaces e index) ERROR_NONE).2.1)) = true
          · rw [if_pos c4] at h
            exact ih _ _ _ _ _ _ (by omega) h
          · rw [if_neg c4] at h
            injection h with h; subst h
            exact ⟨by simp, rfl⟩
        · rw [if_neg c3] at h; cases h
    · rw [if_neg c0] at h; cases h

theorem calcLoop_finished_operand (e : List Char) (len : Nat) :
    ∀ (k index : Nat) (result : ℚ) (op : Char) (ho : Bool) (ep j : Nat) (r : ℚ) (ho' : Bool)
      (ep' : Nat), len - index ≤ k → index < len - 1 →
      calcLoop e len index result op ho ep = .finished j r ho' ep' → ho' = true := by
  intro k
  induction k with
  | zero => intro index result op ho ep j r ho' ep' hk hi; omega
  | succ k ih =>
    intro index result op ho ep j r ho' ep' hk hi h
    rw [calcLoop, if_pos hi] at h
    simp only [] at h
    have m1 := le_skipSpaces e index
    have m2 := le_parse_number e (skipSpaces e index) ERROR_NONE
    have m3 := le_skipSpaces e (parse_number e (skipSpaces e index) ERROR_NONE).2.1
    by_cases c1 : isOperator (charAt e (skipSpaces e index)) = true ∧
        ¬ (skipSpaces e index = 0 ∧ charAt e (skipSpaces e index) = '-')
    · rw [if_pos c1] at h; cases h
    rw [if_neg c1] at h
    by_cases c2 : (parse_number e (skipSpaces e index) ERROR_NONE).2.2 ≠ ERROR_NONE
    · rw [if_pos c2] at h; cases h
    rw [if_neg c2] at h
    cases happ : applyOp op result (parse_number e (skipSpaces e index) ERROR_NONE).1 with
    | inl er => rw [happ] at h; cases h
    | inr result1 =>
      rw [happ] at h
      simp only [] at h
      by_cases c3 : skipSpaces e (parse_number e (skipSpaces e index) ERROR_NONE).2.1 < len - 1
      · rw [if_pos c3] at h
        by_cases c4 : isOperator (charAt e
            (skipSpaces e (parse_number e (skipSpaces e index) ERROR_NONE).2.1)) = true
        · rw [if_pos c4] at h
          by_cases c5 : skipSpaces e (parse_number e (skipSpaces e index) ERROR_NONE).2.1 + 1
              < len - 1
          · exact ih _ _ _ _ _ _ _ _ _ (by omega) c5 h
          · rw [calcLoop, if_neg c5] at h
            injection h with a1 a2 a3 a4
            exact a3.symm
        · rw [if_neg c4] at h; cases h
      · rw [if_neg c3] at h
        injection h with a1 a2 a3 a4
        exact a3.symm

/-- What an error-free `calculate` went through. -/
theorem calculate_ok_elim {e : List Char} (h : (calculate e).error = ERROR_NONE) :
    validate_expression e = ERROR_NONE ∧
      ∃ j r ho ep, calcLoop e (strlen e) 0 0 '+' false 0 = .finished j r ho ep ∧ ho = true ∧
        calculate e = ⟨r, ERROR_NONE, ep⟩ ∧
        ¬ (0 ≤ skipTrailingSpaces e ((strlen e : Int) - 2) ∧
          isOperator (charAt e (skipTrailingSpaces e ((strlen e : Int) - 2)).toNat) = true) := by
  unfold calculate at h ⊢
  by_cases hv : validate_expression e ≠ ERROR_NONE
  · rw [if_pos hv] at h
    exact absurd h hv
  · rw [if_neg hv] at h ⊢
    refine ⟨by simpa using hv, ?_⟩
    simp only [] at h ⊢
    cases hL : calcLoop e (strlen e) 0 0 '+' false 0 with
    | returned x =>
      rw [hL] at h
      exact absurd h (calcLoop_returned e _ _ _ _ _ _ _ _ (le_refl _) hL).1
    | finished j r ho ep =>
      rw [hL] at h
      simp only [] at h ⊢
      by_cases c1 : ho = false
      · rw [if_pos c1] at h; cases h
      · rw [if_neg c1] at h ⊢
        by_cases c2 : 0 ≤ skipTrailingSpaces e ((strlen e : Int) - 2) ∧
            isOperator (charAt e (skipTrailingSpaces e ((strlen e : Int) - 2)).toNat) = true
        · rw [if_pos c2] at h; cases h
        · rw [if_neg c2]
          exact ⟨j, r, ho, ep, rfl, by simpa using c1, rfl, c2⟩

/-- How `calculate` ends once the validator and the main loop have passed. -/
theorem calculate_of_finished {e : List Char} {j : Nat} {r : ℚ} {ep : Nat}
    (hv : validate_expression e = ERROR_NONE)
    (hL : calcLoop e (strlen e) 0 0 '+' false 0 = .finished j r true ep) :
    calculate e =
      if 0 ≤ skipTrailingSpaces e ((strlen e : Int) - 2) ∧
          isOperator (charAt e (skipTrailingSpaces e ((strlen e : Int) - 2)).toNat) = true then
        ⟨0, ERROR_TRAILING_OPERATOR, (skipTrailingSpaces e ((strlen e : Int) - 2)).toNat⟩
      else ⟨r, ERROR_NONE, ep⟩ := by
  unfold calculate
  rw [if_neg (by rw [hv]; decide)]
  simp only [hL]
  rw [if_neg (by decide)]


/-! ### Extending an expression that evaluates without error -/

theorem isOperator_facts {c : Char} (h : isOperator c = true) :
    c ≠ ' ' ∧ c ≠ NUL ∧ c ≠ '=' ∧ validChar c = true := by
  simp only [isOperator, Bool.or_eq_true, decide_eq_true_eq] at h
  rcases h with ((h | h) | h) | h <;> subst h <;> decide

theorem calculate_extend {E : List Char} (hE : ∀ c ∈ E, c ≠ NUL)
    (hok : (calculate (E ++ ['='])).error = ERROR_NONE) :
    E ≠ [] ∧ (∀ c ∈ E, validChar c = true ∧ c ≠ '=') ∧
      ∃ r ep, calculate (E ++ ['=']) = ⟨r, ERROR_NONE, ep⟩ ∧
        ∀ (e2 : List Char) (len2 : Nat), (∀ i < E.length, charAt e2 i = charAt E i) →
          isOperator (charAt e2 E.length) = true → E.length + 1 < len2 →
          calcLoop e2 len2 0 0 '+' false 0 =
            calcLoop e2 len2 (E.length + 1) r (charAt e2 E.length) true ep := by
  obtain ⟨hv, j, r, ho, ep, hL, hho, hcalc, htrail⟩ := calculate_ok_elim hok
  have hnf : ∀ c ∈ E ++ ['='], c ≠ NUL := by
    intro c hc
    rcases List.mem_append.1 hc with h | h
    · exact hE c h
    · simp at h; subst h; decide
  have hlen : strlen (E ++ ['=']) = E.length + 1 := by
    rw [strlen_eq_length hnf]; simp
  rw [hlen] at hL htrail
  subst hho
  have hne : E ≠ [] := by
    rintro rfl
    rw [calcLoop, if_neg (by simp)] at hL
    injection hL with a1 a2 a3 a4
    cases a3
  have hpos : 0 < E.length := List.length_pos.2 hne
  refine ⟨hne, (validate_body_iff hE).1 hv, r, ep, hcalc, ?_⟩
  intro e2 len2 hag hop hl2
  have h1 : charAt (E ++ ['=']) E.length = '=' := charAt_middle E '=' []
  have hlast : ∀ m, m + 1 = E.length → isOperator (charAt (E ++ ['=']) m) = false := by
    intro m hm
    by_contra hc
    have hc' : isOperator (charAt (E ++ ['=']) m) = true := by simpa using hc
    apply htrail
    have hcast : ((E.length + 1 : Nat) : Int) - 2 = (m : Int) := by omega
    rw [hcast, skipTrailingSpaces_of_ne (by simpa using (isOperator_facts hc').1)]
    exact ⟨by omega, by simpa using hc'⟩
  have hag' : ∀ i < E.length, charAt (E ++ ['=']) i = charAt e2 i := by
    intro i hi
    rw [charAt_append_left _ _ _ hi, hag i hi]
  exact (calcLoop_extend hag' h1 hop hl2 hlast _ 0 0 '+' false 0 j r true ep (le_refl _) hpos
    hL).2.2


/-- Claim C7. Trailing operator before the end marker: if `calculate` evaluates `E =` without
error (`E` a string, so free of NUL) and `c` is one of `+ - * /`, then `calculate` on `E c =`
fails with `ERROR_TRAILING_OPERATOR` and the reported position is the offset of `c`, that
is `length(E)`; the returned value is `0`. -/
theorem calculate_trailing_operator (E : List Char) (c : Char) (hE : ∀ x ∈ E, x ≠ NUL)
    (hok : (calculate (E ++ ['='])).error = ERROR_NONE) (hc : isOperator c = true) :
    calculate (E ++ [c, '=']) = ⟨0, ERROR_TRAILING_OPERATOR, E.length⟩ := by
  obtain ⟨hne, hvalid, r, ep, -, hpre⟩ := calculate_extend hE hok
  have fc := isOperator_facts hc
  have hshape : E ++ [c, '='] = (E ++ [c]) ++ ['='] := by simp
  have hbody : ∀ x ∈ E ++ [c], x ≠ NUL := by
    intro x hx
    rcases List.mem_append.1 hx with h | h
    · exact hE x h
    · simp at h; subst h; exact fc.2.1
  have hnf : ∀ x ∈ E ++ [c, '='], x ≠ NUL := by
    intro x hx
    rw [hshape] at hx
    rcases List.mem_append.1 hx with h | h
    · exact hbody x h
    · simp at h; subst h; decide
  have hlen : strlen (E ++ [c, '=']) = E.length + 2 := by
    rw [strlen_eq_length hnf]; simp
  have hv : validate_expression (E ++ [c, '=']) = ERROR_NONE := by
    rw [hshape, validate_body_iff hbody]
    intro x hx
    rcases List.mem_append.1 hx with h | h
    · exact hvalid x h
    · simp at h; subst h; exact ⟨fc.2.2.2, fc.2.2.1⟩
  have hcn : charAt (E ++ [c, '=']) E.length = c := charAt_middle E c ['=']
  have hL : calcLoop (E ++ [c, '=']) (strlen (E ++ [c, '='])) 0 0 '+' false 0 =
      .finished (E.length + 1) r true ep := by
    rw [hlen, hpre _ _ (fun i hi => charAt_append_left _ _ _ hi) (by rw [hcn]; exact hc)
      (by omega), calcLoop, if_neg (by omega)]
  rw [calculate_of_finished hv hL, hlen]
  have hcast : ((E.length + 2 : Nat) : Int) - 2 = (E.length : Int) := by omega
  rw [hcast, skipTrailingSpaces_of_ne (by simpa [hcn] using fc.1)]
  rw [if_pos ⟨by omega, by simpa [hcn] using hc⟩]
  simp

theorem calculate_one_plus_two : calculate ['1', '+', '2', '='] = ⟨3, ERROR_NONE, 2⟩ := by
  simp [calculate, validate_expression, validateLoop, strlen, charAt, NUL, calcLoop,
    skipSpaces, parse_number, intLoop, fracLoop, hexLoop, isOperator, isalnum, isalpha,
    isdigit, applyOp, skipTrailingSpaces]
  norm_num

theorem calculate_trailing_operator_witness :
    calculate (['1', '+', '2'] ++ ['+', '=']) = ⟨0, ERROR_TRAILING_OPERATOR, 3⟩ :=
  calculate_trailing_operator ['1', '+', '2'] '+' (by decide)
    (by rw [show ['1', '+', '2'] ++ ['='] = ['1', '+', '2', '='] from rfl,
      calculate_one_plus_two]) (by decide)

/-- Claim C2. `validate_expression` equals the reference verdict on the string held in the
buffer (its characters before the first NUL): `ERROR_EMPTY_EXPRESSION` if it has length zero;
otherwise `ERROR_INVALID_CHAR` if some character is neither alphanumeric nor one of
`+ - * / . space =`, or the string does not contain exactly one `=`, or its final character
is not `=`; otherwise `ERROR_NONE`.  In particular the empty string gives
`ERROR_EMPTY_EXPRESSION`, and a non-empty string without `=` gives `ERROR_INVALID_CHAR`, as
`1+2` does. -/
theorem validate_expression_reference :
    (∀ expr : List Char, validate_expression expr = validateRef (expr.take (strlen expr))) ∧
      validate_expression [] = ERROR_EMPTY_EXPRESSION ∧
      (∀ expr : List Char, expr.take (strlen expr) ≠ [] → '=' ∉ expr.take (strlen expr) →
        validate_expression expr = ERROR_INVALID_CHAR) ∧
      validate_expression ['1', '+', '2'] = ERROR_INVALID_CHAR := by
  have key : ∀ expr : List Char, expr.take (strlen expr) ≠ [] →
      '=' ∉ expr.take (strlen expr) → validate_expression expr = ERROR_INVALID_CHAR := by
    intro expr hne hno
    rw [validate_expression_eq_ref]
    unfold validateRef
    rw [if_neg (by simpa using hne), if_pos (Or.inr (Or.inl (by
      rw [List.count_eq_zero.2 hno]; decide)))]
  refine ⟨validate_expression_eq_ref, ?_, key, ?_⟩
  · rw [validate_expression_eq_ref]; rfl
  · exact key _ (by decide) (by decide)

theorem charAt_mem_take {e : List Char} {i k : Nat} (hi : i < k) (hk : k ≤ e.length) :
    charAt e i ∈ e.take k := by
  have h1 : i < (e.take k).length := by simp; omega
  have h2 : (e.take k)[i] = charAt e i := by
    unfold charAt
    rw [List.getElem_take, List.getD_eq_getElem?_getD, List.getElem?_eq_getElem (by omega)]
    rfl
  rw [← h2]
  exact List.getElem_mem h1

/-- Claim C8, amended. Invalid character: if the expression contains, before its end, a
character that is neither alphanumeric nor one of `+ - * / . space =`, then `calculate`
fails with `ERROR_INVALID_CHAR`, returns `0`, and the reported position is `0`. -/
theorem calculate_invalid_char (expr : List Char) (i : Nat) (hi : i < strlen expr)
    (hbad : validChar (charAt expr i) = false) :
    calculate expr = ⟨0, ERROR_INVALID_CHAR, 0⟩ := by
  have hmem := charAt_mem_take hi (strlen_le_length expr)
  have hv : validate_expression expr = ERROR_INVALID_CHAR := by
    rw [validate_expression_eq_ref]
    unfold validateRef
    rw [if_neg (by
      intro h0
      rw [List.length_eq_zero.1 h0] at hmem
      cases hmem), if_pos (Or.inl ⟨_, hmem, hbad⟩)]
  unfold calculate
  rw [if_pos (by rw [hv]; decide), hv]

theorem calculate_invalid_char_witness :
    calculate ['1', '+', '2', '&', '='] = ⟨0, ERROR_INVALID_CHAR, 0⟩ :=
  calculate_invalid_char ['1', '+', '2', '&', '='] 3 (by decide) (by decide)

/-- Claim C8 as stated fails. On `1+2&=` the first invalid character `&` is at offset 3, and
`calculate` reports `ERROR_INVALID_CHAR` at position 0, not 3. -/
theorem calculate_invalid_char_position :
    validChar (charAt ['1', '+', '2', '&', '='] 3) = false ∧
      (calculate ['1', '+', '2', '&', '=']).error = ERROR_INVALID_CHAR ∧
      (calculate ['1', '+', '2', '&', '=']).error_pos = 0 ∧
      (calculate ['1', '+', '2', '&', '=']).error_pos ≠ 3 := by
  have h : calculate ['1', '+', '2', '&', '='] = ⟨0, ERROR_INVALID_CHAR, 0⟩ := by
    simp [calculate, validate_expression, validateLoop, strlen, charAt, NUL, isalnum, isalpha,
      isdigit]
  rw [h]
  exact ⟨by decide, rfl, rfl, by decide⟩

/-- Claim C9 fails on the code. On `0x1.5=` the lexer `parse_number` accepts the literal `0x1`
without error (value 1, cursor 3, on the point), and `calculate` then reports
`ERROR_INVALID_OPERATOR` at offset 3, not `ERROR_INVALID_NUMBER`.  The point is only rejected
with `ERROR_INVALID_NUMBER` when it directly follows the prefix, as in `0x.5=`. -/
theorem calculate_fractional_hex :
    parse_number ['0', 'x', '1', '.', '5', '='] 0 ERROR_NONE = (1, 3, ERROR_NONE) ∧
      calculate ['0', 'x', '1', '.', '5', '='] = ⟨0, ERROR_INVALID_OPERATOR, 3⟩ ∧
      calculate ['0', 'x', '.', '5', '='] = ⟨0, ERROR_INVALID_NUMBER, 0⟩ := by
  refine ⟨?_, ?_, ?_⟩ <;>
  simp [calculate, validate_expression, validateLoop, strlen, charAt, NUL, calcLoop,
    skipSpaces, parse_number, intLoop, fracLoop, hexLoop, isOperator, isalnum, isalpha,
    isdigit, isxdigit, hexDigitValue, applyOp, skipTrailingSpaces]

/-- Claim C10. No partial result accompanies an error: on every input `calculate` either
reports an error kind other than `ERROR_NONE` together with the value `0`, or reports
`ERROR_NONE` together with the accumulator `result` with which its main loop ended. -/
theorem calculate_value_or_error (expr : List Char) :
    ((calculate expr).error ≠ ERROR_NONE ∧ (calculate expr).value = 0) ∨
      ((calculate expr).error = ERROR_NONE ∧
        ∃ index result error_pos,
          calcLoop expr (strlen expr) 0 0 '+' false 0 =
            .finished index result true error_pos ∧
          (calculate expr).value = result) := by
  by_cases h : (calculate expr).error = ERROR_NONE
  · right
    obtain ⟨-, j, r, ho, ep, hL, hho, hcalc, -⟩ := calculate_ok_elim h
    subst hho
    exact ⟨h, j, r, ep, hL, by rw [hcalc]⟩
  · left
    refine ⟨h, ?_⟩
    unfold calculate at h ⊢
    by_cases hv : validate_expression expr ≠ ERROR_NONE
    · rw [if_pos hv]
    · rw [if_neg hv] at h ⊢
      simp only [] at h ⊢
      cases hL : calcLoop expr (strlen expr) 0 0 '+' false 0 with
      | returned x =>
        simp only []
        exact (calcLoop_returned expr _ _ _ _ _ _ _ _ (le_refl _) hL).2
      | finished j r ho ep =>
        rw [hL] at h
        simp only [] at h ⊢
        by_cases c1 : ho = false
        · rw [if_pos c1]
        · rw [if_neg c1] at h ⊢
          by_cases c2 : 0 ≤ skipTrailingSpaces expr ((strlen expr : Int) - 2) ∧
              isOperator (charAt expr
                (skipTrailingSpaces expr ((strlen expr : Int) - 2)).toNat) = true
          · rw [if_pos c2]
          · rw [if_neg c2] at h
            exact absurd rfl h

/-! ### A leading minus sign -/

theorem skipSpaces_cons (c : Char) (e : List Char) (i : Nat) :
    skipSpaces (c :: e) (i + 1) = skipSpaces e i + 1 := by
  induction i using skipSpaces.induct e with
  | case1 i h ih =>
    rw [skipSpaces.eq_1 (c :: e) (i + 1), dif_pos (by rw [charAt_cons_succ]; exact h), ih,
      skipSpaces.eq_1 e i, dif_pos h]
  | case2 i h =>
    rw [skipSpaces.eq_1 (c :: e) (i + 1), dif_neg (by rw [charAt_cons_succ]; exact h),
      skipSpaces.eq_1 e i, dif_neg h]

theorem hexLoop_cons (c : Char) (e : List Char) (i : Nat) (v : ℚ) :
    hexLoop (c :: e) (i + 1) v = ((hexLoop e i v).1 + 1, (hexLoop e i v).2) := by
  induction i, v using hexLoop.induct e with
  | case1 i v h hs ih =>
    rw [hexLoop.eq_1 (c :: e) (i + 1), dif_pos (by simpa only [charAt_cons_succ] using h),
      if_pos (by rw [charAt_cons_succ]; exact hs), ih, hexLoop.eq_1 e i, dif_pos h, if_pos hs]
  | case2 i v h hs ih =>
    rw [hexLoop.eq_1 (c :: e) (i + 1), dif_pos (by simpa only [charAt_cons_succ] using h),
      if_neg (by rw [charAt_cons_succ]; exact hs), charAt_cons_succ, ih, hexLoop.eq_1 e i,
      dif_pos h, if_neg hs]
  | case3 i v h =>
    rw [hexLoop.eq_1 (c :: e) (i + 1), dif_neg (by simpa only [charAt_cons_succ] using h),
      hexLoop.eq_1 e i, dif_neg h]

theorem intLoop_cons (c : Char) (e : List Char) (i : Nat) (v : ℚ) :
    intLoop (c :: e) (i + 1) v =
      ((intLoop e i v).1 + 1, (intLoop e i v).2.1, (intLoop e i v).2.2) := by
  induction i, v using intLoop.induct e with
  | case1 i v h hs ih =>
    rw [intLoop.eq_1 (c :: e) (i + 1), dif_pos (by simpa only [charAt_cons_succ] using h),
      if_pos (by rw [charAt_cons_succ]; exact hs), ih, intLoop.eq_1 e i, dif_pos h, if_pos hs]
  | case2 i v h hs hd =>
    rw [intLoop.eq_1 (c :: e) (i + 1), dif_pos (by simpa only [charAt_cons_succ] using h),
      if_neg (by rw [charAt_cons_succ]; exact hs), if_pos (by rw [charAt_cons_succ]; exact hd),
      intLoop.eq_1 e i, dif_pos h, if_neg hs, if_pos hd]
  | case3 i v h hs hd ih =>
    rw [intLoop.eq_1 (c :: e) (i + 1), dif_pos (by simpa only [charAt_cons_succ] using h),
      if_neg (by rw [charAt_cons_succ]; exact hs), if_neg (by rw [charAt_cons_succ]; exact hd),
      charAt_cons_succ, ih, intLoop.eq_1 e i, dif_pos h, if_neg hs, if_neg hd]
  | case4 i v h =>
    rw [intLoop.eq_1 (c :: e) (i + 1), dif_neg (by simpa only [charAt_cons_succ] using h),
      intLoop.eq_1 e i, dif_neg h]

theorem fracLoop_cons (c : Char) (e : List Char) (i : Nat) (v f : ℚ) :
    fracLoop (c :: e) (i + 1) v f =
      ((fracLoop e i v f).1 + 1, (fracLoop e i v f).2.1, (fracLoop e i v f).2.2) := by
  induction i, v, f using fracLoop.induct e with
  | case1 i v f h hs ih =>
    rw [fracLoop.eq_1 (c :: e) (i + 1), dif_pos (by simpa only [charAt_cons_succ] using h),
      if_pos (by rw [charAt_cons_succ]; exact hs), ih, fracLoop.eq_1 e i, dif_pos h, if_pos hs]
  | case2 i v f h hs hd =>
    rw [fracLoop.eq_1 (c :: e) (i + 1), dif_pos (by simpa only [charAt_cons_succ] using h),
      if_neg (by rw [charAt_cons_succ]; exact hs), if_pos (by rw [charAt_cons_succ]; exact hd),
      fracLoop.eq_1 e i, dif_pos h, if_neg hs, if_pos hd]
  | case3 i v f h hs hd ih =>
    rw [fracLoop.eq_1 (c :: e) (i + 1), dif_pos (by simpa only [charAt_cons_succ] using h),
      if_neg (by rw [charAt_cons_succ]; exact hs), if_neg (by rw [charAt_cons_succ]; exact hd),
      charAt_cons_succ, ih, fracLoop.eq_1 e i, dif_pos h, if_neg hs, if_neg hd]
  | case4 i v f h =>
    rw [fracLoop.eq_1 (c :: e) (i + 1), dif_neg (by simpa only [charAt_cons_succ] using h),
      fracLoop.eq_1 e i, dif_neg h]

theorem final_check_shift (a i : Nat) (P : Prop) :
    (a + 1 ≤ i + 1 ∨ (a + 1 = i + 1 + 1 ∧ P)) ↔ (a ≤ i ∨ (a = i + 1 ∧ P)) := by
  constructor <;> rintro (h | ⟨h, hp⟩) <;>
    first | exact Or.inl (by omega) | exact Or.inr ⟨by omega, hp⟩

theorem parse_number_cons (c : Char) (e : List Char) (i : Nat) (err : ErrorType) :
    parse_number (c :: e) (i + 1) err =
      ((parse_number e i err).1, (parse_number e i err).2.1 + 1, (parse_number e i err).2.2) := by
  have e2 : i + 1 + 2 = (i + 2) + 1 := by omega
  unfold parse_number
  rw [e2]
  simp only [charAt_cons_succ, hexLoop_cons]
  by_cases c1 : charAt e i = '0' ∧ (charAt e (i + 1) = 'x' ∨ charAt e (i + 1) = 'X')
  · rw [if_pos c1, if_pos c1]
    by_cases c2 : charAt e (i + 2) = '.'
    · rw [if_pos c2, if_pos c2]
    · rw [if_neg c2, if_neg c2]
      by_cases c3 : (hexLoop e (i + 2) 0).1 ≤ i + 2
      · rw [if_pos c3, if_pos (by omega)]
      · rw [if_neg c3, if_neg (by omega)]
  · rw [if_neg c1, if_neg c1]
    have hi : (if charAt e i = '+' ∨ charAt e i = '-' then i + 1 + 1 else i + 1) =
        (if charAt e i = '+' ∨ charAt e i = '-' then i + 1 else i) + 1 := by
      split_ifs <;> rfl
    simp only [hi]
    generalize (if charAt e i = '+' ∨ charAt e i = '-' then i + 1 else i) = i1
    simp only [intLoop_cons, charAt_cons_succ]
    by_cases c4 : (intLoop e i1 0).2.2 = false
    · rw [if_pos c4, if_pos c4]
    · rw [if_neg c4, if_neg c4]
      have hr2 : (if charAt e (intLoop e i1 0).1 = '.' then
            fracLoop (c :: e) ((intLoop e i1 0).1 + 1 + 1) (intLoop e i1 0).2.1 (1 / 10)
          else ((intLoop e i1 0).1 + 1, (intLoop e i1 0).2.1, true)) =
          ((if charAt e (intLoop e i1 0).1 = '.' then
              fracLoop e ((intLoop e i1 0).1 + 1) (intLoop e i1 0).2.1 (1 / 10)
            else ((intLoop e i1 0).1, (intLoop e i1 0).2.1, true)).1 + 1,
           (if charAt e (intLoop e i1 0).1 = '.' then
              fracLoop e ((intLoop e i1 0).1 + 1) (intLoop e i1 0).2.1 (1 / 10)
            else ((intLoop e i1 0).1, (intLoop e i1 0).2.1, true)).2.1,
           (if charAt e (intLoop e i1 0).1 = '.' then
              fracLoop e ((intLoop e i1 0).1 + 1) (intLoop e i1 0).2.1 (1 / 10)
            else ((intLoop e i1 0).1, (intLoop e i1 0).2.1, true)).2.2) := by
        split_ifs
        · rw [fracLoop_cons]
        · rfl
      simp only [hr2]
      generalize (if charAt e (intLoop e i1 0).1 = '.' then
              fracLoop e ((intLoop e i1 0).1 + 1) (intLoop e i1 0).2.1 (1 / 10)
            else ((intLoop e i1 0).1, (intLoop e i1 0).2.1, true)) = r2
      by_cases c6 : r2.2.2 = false
      · rw [if_pos c6, if_pos c6]
      · rw [if_neg c6, if_neg c6]
        simp only [final_check_shift]
        by_cases c7 : r2.1 ≤ i ∨ (r2.1 = i + 1 ∧ (charAt e i = '+' ∨ charAt e i = '-'))
        · rw [if_pos c7, if_pos c7]
        · rw [if_neg c7, if_neg c7]

theorem parse_number_unsigned {e : List Char} (hs : ¬ (charAt e 0 = '+' ∨ charAt e 0 = '-'))
    (hhex : ¬ (charAt e 0 = '0' ∧ (charAt e 1 = 'x' ∨ charAt e 1 = 'X')))
    (hp : (parse_number e 0 ERROR_NONE).2.2 = ERROR_NONE) :
    (intLoop e 0 0).2.2 = true ∧
      (if charAt e (intLoop e 0 0).1 = '.' then
          fracLoop e ((intLoop e 0 0).1 + 1) (intLoop e 0 0).2.1 (1 / 10)
        else ((intLoop e 0 0).1, (intLoop e 0 0).2.1, true)).2.2 = true ∧
      1 ≤ (if charAt e (intLoop e 0 0).1 = '.' then
          fracLoop e ((intLoop e 0 0).1 + 1) (intLoop e 0 0).2.1 (1 / 10)
        else ((intLoop e 0 0).1, (intLoop e 0 0).2.1, true)).1 ∧
      parse_number e 0 ERROR_NONE =
        ((if charAt e (intLoop e 0 0).1 = '.' then
            fracLoop e ((intLoop e 0 0).1 + 1) (intLoop e 0 0).2.1 (1 / 10)
          else ((intLoop e 0 0).1, (intLoop e 0 0).2.1, true)).2.1,
         (if charAt e (intLoop e 0 0).1 = '.' then
            fracLoop e ((intLoop e 0 0).1 + 1) (intLoop e 0 0).2.1 (1 / 10)
          else ((intLoop e 0 0).1, (intLoop e 0 0).2.1, true)).1, ERROR_NONE) := by
  have hm : charAt e 0 ≠ '-' := fun h => hs (Or.inr h)
  unfold parse_number at hp ⊢
  simp only [Nat.zero_add] at hp ⊢
  rw [if_neg hhex] at hp ⊢
  simp only [if_neg hs] at hp ⊢
  by_cases c4 : (intLoop e 0 0).2.2 = false
  · rw [if_pos c4] at hp; cases hp
  · rw [if_neg c4] at hp ⊢
    generalize (if charAt e (intLoop e 0 0).1 = '.' then
            fracLoop e ((intLoop e 0 0).1 + 1) (intLoop e 0 0).2.1 (1 / 10)
          else ((intLoop e 0 0).1, (intLoop e 0 0).2.1, true)) = r2 at hp ⊢
    by_cases c6 : r2.2.2 = false
    · rw [if_pos c6] at hp; cases hp
    · rw [if_neg c6] at hp ⊢
      by_cases c7 : r2.1 ≤ 0 ∨ (r2.1 = 1 ∧ (charAt e 0 = '+' ∨ charAt e 0 = '-'))
      · rw [if_pos c7] at hp; cases hp
      · rw [if_neg c7, if_neg hm]
        refine ⟨by simpa using c4, by simpa using c6, ?_, rfl⟩
        by_contra hlt
        exact c7 (Or.inl (by omega))

theorem parse_number_minus {e : List Char} (hs : ¬ (charAt e 0 = '+' ∨ charAt e 0 = '-'))
    (hhex : ¬ (charAt e 0 = '0' ∧ (charAt e 1 = 'x' ∨ charAt e 1 = 'X')))
    (hp : (parse_number e 0 ERROR_NONE).2.2 = ERROR_NONE) :
    parse_number ('-' :: e) 0 ERROR_NONE =
      (-(parse_number e 0 ERROR_NONE).1, (parse_number e 0 ERROR_NONE).2.1 + 1, ERROR_NONE) := by
  obtain ⟨k1, k2, k3, k4⟩ := parse_number_unsigned hs hhex hp
  rw [k4]
  unfold parse_number
  have h0 : charAt ('-' :: e) 0 = '-' := rfl
  rw [if_neg (by rw [h0]; exact fun hh => absurd hh.1 (by decide))]
  simp only [Nat.zero_add, h0, or_true, if_true]
  have i0 : intLoop ('-' :: e) 1 0 = ((intLoop e 0 0).1 + 1, (intLoop e 0 0).2.1,
      (intLoop e 0 0).2.2) := intLoop_cons '-' e 0 0
  rw [i0]
  simp only [charAt_cons_succ]
  rw [if_neg (by rw [k1]; decide)]
  have hr2 : (if charAt e (intLoop e 0 0).1 = '.' then
        fracLoop ('-' :: e) ((intLoop e 0 0).1 + 1 + 1) (intLoop e 0 0).2.1 (1 / 10)
      else ((intLoop e 0 0).1 + 1, (intLoop e 0 0).2.1, true)) =
      ((if charAt e (intLoop e 0 0).1 = '.' then
          fracLoop e ((intLoop e 0 0).1 + 1) (intLoop e 0 0).2.1 (1 / 10)
        else ((intLoop e 0 0).1, (intLoop e 0 0).2.1, true)).1 + 1,
       (if charAt e (intLoop e 0 0).1 = '.' then
          fracLoop e ((intLoop e 0 0).1 + 1) (intLoop e 0 0).2.1 (1 / 10)
        else ((intLoop e 0 0).1, (intLoop e 0 0).2.1, true)).2.1,
       (if charAt e (intLoop e 0 0).1 = '.' then
          fracLoop e ((intLoop e 0 0).1 + 1) (intLoop e 0 0).2.1 (1 / 10)
        else ((intLoop e 0 0).1, (intLoop e 0 0).2.1, true)).2.2) := by
    split_ifs
    · rw [fracLoop_cons]
    · rfl
  simp only [hr2]
  generalize (if charAt e (intLoop e 0 0).1 = '.' then
          fracLoop e ((intLoop e 0 0).1 + 1) (intLoop e 0 0).2.1 (1 / 10)
        else ((intLoop e 0 0).1, (intLoop e 0 0).2.1, true)) = r2 at k2 k3 ⊢
  rw [if_neg (by rw [k2]; decide), if_neg (by
    rintro (h | ⟨h, -⟩) <;> omega)]


theorem calcLoop_step {e : List Char} {len index : Nat} {result : ℚ} {op : Char} {ho : Bool}
    {ep : Nat} {r1 : ℚ} (hi : index < len - 1)
    (h1 : ¬ (isOperator (charAt e (skipSpaces e index)) = true ∧
      ¬ (skipSpaces e index = 0 ∧ charAt e (skipSpaces e index) = '-')))
    (h2 : (parse_number e (skipSpaces e index) ERROR_NONE).2.2 = ERROR_NONE)
    (h3 : applyOp op result (parse_number e (skipSpaces e index) ERROR_NONE).1 = .inr r1) :
    calcLoop e len index result op ho ep =
      if skipSpaces e (parse_number e (skipSpaces e index) ERROR_NONE).2.1 < len - 1 then
        if isOperator (charAt e
            (skipSpaces e (parse_number e (skipSpaces e index) ERROR_NONE).2.1)) = true then
          calcLoop e len
            (skipSpaces e (parse_number e (skipSpaces e index) ERROR_NONE).2.1 + 1) r1
            (charAt e (skipSpaces e (parse_number e (skipSpaces e index) ERROR_NONE).2.1))
            true (skipSpaces e index)
        else .returned ⟨0, ERROR_INVALID_OPERATOR,
          skipSpaces e (parse_number e (skipSpaces e index) ERROR_NONE).2.1⟩
      else .finished (skipSpaces e (parse_number e (skipSpaces e index) ERROR_NONE).2.1) r1
        true (skipSpaces e index) := by
  rw [calcLoop, if_pos hi]
  simp only []
  rw [if_neg h1, if_neg (by rw [h2]; exact fun h => h rfl), h3]

theorem calcLoop_finished_inv {e : List Char} {len index : Nat} {result : ℚ} {op : Char}
    {ho : Bool} {ep j : Nat} {r : ℚ} {ho' : Bool} {ep' : Nat} (hi : index < len - 1)
    (h : calcLoop e len index result op ho ep = .finished j r ho' ep') :
    ¬ (isOperator (charAt e (skipSpaces e index)) = true ∧
        ¬ (skipSpaces e index = 0 ∧ charAt e (skipSpaces e index) = '-')) ∧
      (parse_number e (skipSpaces e index) ERROR_NONE).2.2 = ERROR_NONE ∧
      ∃ r1, applyOp op result (parse_number e (skipSpaces e index) ERROR_NONE).1 = .inr r1 := by
  rw [calcLoop, if_pos hi] at h
  simp only [] at h
  by_cases c1 : isOperator (charAt e (skipSpaces e index)) = true ∧
      ¬ (skipSpaces e index = 0 ∧ charAt e (skipSpaces e index) = '-')
  · rw [if_pos c1] at h; cases h
  rw [if_neg c1] at h
  by_cases c2 : (parse_number e (skipSpaces e index) ERROR_NONE).2.2 ≠ ERROR_NONE
  · rw [if_pos c2] at h; cases h
  rw [if_neg c2] at h
  cases happ : applyOp op result (parse_number e (skipSpaces e index) ERROR_NONE).1 with
  | inl er => rw [happ] at h; cases h
  | inr result1 => exact ⟨c1, not_not.1 c2, result1, rfl⟩

theorem applyOp_inr_any {op : Char} {r v r1 : ℚ} (h : applyOp op r v = .inr r1) (a : ℚ) :
    applyOp op a v = .inr (applyRef op a v) := by
  unfold applyOp at h ⊢
  unfold applyRef
  by_cases c1 : op = '+'
  · rw [if_pos c1, if_pos c1]
  rw [if_neg c1] at h ⊢
  rw [if_neg c1]
  by_cases c2 : op = '-'
  · rw [if_pos c2, if_pos c2]
  rw [if_neg c2] at h ⊢
  rw [if_neg c2]
  by_cases c3 : op = '*'
  · rw [if_pos c3, if_pos c3]
  rw [if_neg c3] at h ⊢
  rw [if_neg c3]
  by_cases c4 : op = '/'
  · rw [if_pos c4] at h ⊢
    by_cases c5 : |v| < 1 / 10 ^ 10
    · rw [if_pos c5] at h; cases h
    · rw [if_neg c5]
  · rw [if_neg c4] at h; cases h

/-- The control flow of the main loop does not depend on the accumulator: when it runs to
its end from one value of `result`, it does so from every value, reading the same
operator/operand pairs. -/
theorem calcLoop_fold (e : List Char) (len : Nat) :
    ∀ (k index : Nat) (result : ℚ) (op : Char) (ho : Bool) (ep j : Nat) (r : ℚ) (ho' : Bool)
      (ep' : Nat), len - index ≤ k →
      calcLoop e len index result op ho ep = .finished j r ho' ep' →
      ∃ ops : List (Char × ℚ), ∀ a : ℚ,
        calcLoop e len index a op ho ep = .finished j (foldOps ops a) ho' ep' := by
  intro k
  induction k with
  | zero =>
    intro index result op ho ep j r ho' ep' hk h
    rw [calcLoop, if_neg (by omega)] at h
    injection h with a1 a2 a3 a4
    refine ⟨[], fun a => ?_⟩
    rw [calcLoop, if_neg (by omega), a1, a3, a4]
    rfl
  | succ k ih =>
    intro index result op ho ep j r ho' ep' hk h
    by_cases c0 : index < len - 1
    · obtain ⟨h1, h2, r1, h3⟩ := calcLoop_finished_inv c0 h
      have m1 := le_skipSpaces e index
      have m2 := le_parse_number e (skipSpaces e index) ERROR_NONE
      have m3 := le_skipSpaces e (parse_number e (skipSpaces e index) ERROR_NONE).2.1
      rw [calcLoop_step c0 h1 h2 h3] at h
      by_cases c3 : skipSpaces e (parse_number e (skipSpaces e index) ERROR_NONE).2.1 < len - 1
      · rw [if_pos c3] at h
        by_cases c4 : isOperator (charAt e
            (skipSpaces e (parse_number e (skipSpaces e index) ERROR_NONE).2.1)) = true
        · rw [if_pos c4] at h
          obtain ⟨ops, hops⟩ := ih _ _ _ _ _ _ _ _ _ (by omega) h
          refine ⟨(op, (parse_number e (skipSpaces e index) ERROR_NONE).1) :: ops, fun a => ?_⟩
          rw [calcLoop_step c0 h1 h2 (applyOp_inr_any h3 a), if_pos c3, if_pos c4, hops]
          rfl
        · rw [if_neg c4] at h; cases h
      · rw [if_neg c3] at h
        injection h with a1 a2 a3 a4
        refine ⟨[(op, (parse_number e (skipSpaces e index) ERROR_NONE).1)], fun a => ?_⟩
        rw [calcLoop_step c0 h1 h2 (applyOp_inr_any h3 a), if_neg c3, a1, a3, a4]
        rfl
    · rw [calcLoop, if_neg c0] at h
      injection h with a1 a2 a3 a4
      refine ⟨[], fun a => ?_⟩
      rw [calcLoop, if_neg c0, a1, a3, a4]
      rfl

/-- Prepending a character moves a run of the main loop that starts past offset 0 one place
to the right. -/
theorem calcLoop_cons (c : Char) (e : List Char) (len : Nat) :
    ∀ (k index : Nat) (result : ℚ) (op : Char) (ho : Bool) (ep ep2 j : Nat) (r : ℚ)
      (ho' : Bool) (ep' : Nat), len - index ≤ k → 1 ≤ index →
      calcLoop e len index result op ho ep = .finished j r ho' ep' →
      ∃ ep3, calcLoop (c :: e) (len + 1) (index + 1) result op ho ep2 =
        .finished (j + 1) r ho' ep3 := by
  intro k
  induction k with
  | zero =>
    intro index result op ho ep ep2 j r ho' ep' hk h1 h
    rw [calcLoop, if_neg (by omega)] at h
    injection h with a1 a2 a3 a4
    refine ⟨ep2, ?_⟩
    rw [calcLoop, if_neg (by omega), a1, a2, a3]
  | succ k ih =>
    intro index result op ho ep ep2 j r ho' ep' hk hidx h
    by_cases c0 : index < len - 1
    · obtain ⟨h1, h2, r1, h3⟩ := calcLoop_finished_inv c0 h
      have m1 := le_skipSpaces e index
      have m2 := le_parse_number e (skipSpaces e index) ERROR_NONE
      have m3 := le_skipSpaces e (parse_number e (skipSpaces e index) ERROR_NONE).2.1
      rw [calcLoop_step c0 h1 h2 h3] at h
      have s1 : skipSpaces (c :: e) (index + 1) = skipSpaces e index + 1 := skipSpaces_cons c e _
      have p1 := parse_number_cons c e (skipSpaces e index) ERROR_NONE
      have s3 := skipSpaces_cons c e (parse_number e (skipSpaces e index) ERROR_NONE).2.1
      have g1 : ¬ (isOperator (charAt (c :: e) (skipSpaces (c :: e) (index + 1))) = true ∧
          ¬ (skipSpaces (c :: e) (index + 1) = 0 ∧
            charAt (c :: e) (skipSpaces (c :: e) (index + 1)) = '-')) := by
        rw [s1, charAt_cons_succ]
        intro hh
        exact h1 ⟨hh.1, fun h0 => by omega⟩
      have g2 : (parse_number (c :: e) (skipSpaces (c :: e) (index + 1)) ERROR_NONE).2.2 =
          ERROR_NONE := by rw [s1, p1]; exact h2
      have g3 : applyOp op result
          (parse_number (c :: e) (skipSpaces (c :: e) (index + 1)) ERROR_NONE).1 = .inr r1 := by
        rw [s1, p1]; exact h3
      have g4 : skipSpaces (c :: e)
          (parse_number (c :: e) (skipSpaces (c :: e) (index + 1)) ERROR_NONE).2.1 =
          skipSpaces e (parse_number e (skipSpaces e index) ERROR_NONE).2.1 + 1 := by
        rw [s1, p1]; exact s3
      rw [calcLoop_step (by omega) g1 g2 g3, g4, charAt_cons_succ]
      by_cases c3 : skipSpaces e (parse_number e (skipSpaces e index) ERROR_NONE).2.1 < len - 1
      · rw [if_pos c3] at h
        rw [if_pos (by omega)]
        by_cases c4 : isOperator (charAt e
            (skipSpaces e (parse_number e (skipSpaces e index) ERROR_NONE).2.1)) = true
        · rw [if_pos c4] at h
          rw [if_pos c4]
          exact ih _ _ _ _ _ _ _ _ _ _ (by omega) (by omega) h
        · rw [if_neg c4] at h; cases h
      · rw [if_neg c3] at h
        rw [if_neg (by omega)]
        injection h with a1 a2 a3 a4
        exact ⟨_, by rw [a1, a2, a3]⟩
    · rw [calcLoop, if_neg c0] at h
      injection h with a1 a2 a3 a4
      refine ⟨ep2, ?_⟩
      rw [calcLoop, if_neg (by omega), a1, a2, a3]


theorem strlen_cons {c : Char} (hc : c ≠ NUL) (e : List Char) :
    strlen (c :: e) = strlen e + 1 := by
  rw [strlen, if_neg hc]

theorem validate_expression_cons {c : Char} {e : List Char} (hc : c ≠ NUL)
    (hvc : validChar c = true) (heq : c ≠ '=') (hv : validate_expression e = ERROR_NONE) :
    validate_expression (c :: e) = ERROR_NONE := by
  rw [validate_expression_none_iff] at hv ⊢
  rw [strlen_cons hc, List.take_succ_cons]
  obtain ⟨g0, g1, g2, g3⟩ := hv
  refine ⟨by simp, ?_, ?_, ?_⟩
  · intro x hx
    rcases List.mem_cons.1 hx with h | h
    · rw [h]; exact hvc
    · exact g1 x h
  · rw [List.count_cons, g2]
    simp [heq]
  · obtain ⟨x, xs, hs⟩ := List.exists_cons_of_ne_nil g0
    rw [hs] at g3 ⊢
    rw [List.getLast?_cons_cons]
    exact g3

theorem skipTrailingSpaces_nonneg {e : List Char} (h0 : charAt e 0 ≠ ' ') (p : Int)
    (hp : 0 ≤ p) : 0 ≤ skipTrailingSpaces e p := by
  induction p using skipTrailingSpaces.induct e with
  | case1 p h ih =>
    rw [skipTrailingSpaces, if_pos h]
    apply ih
    by_contra hlt
    have hz : p = 0 := by omega
    rw [hz] at h
    exact h0 h.2
  | case2 p h => rw [skipTrailingSpaces, if_neg h]; exact hp

theorem skipTrailingSpaces_cons {c : Char} (hc : c ≠ ' ') (e : List Char) (p : Int)
    (hp : -1 ≤ p) :
    skipTrailingSpaces (c :: e) (p + 1) = skipTrailingSpaces e p + 1 := by
  induction p using skipTrailingSpaces.induct e with
  | case1 p h ih =>
    have ht : (p + 1).toNat = p.toNat + 1 := by omega
    rw [skipTrailingSpaces.eq_1 (c :: e) (p + 1),
      if_pos ⟨by omega, by rw [ht, charAt_cons_succ]; exact h.2⟩,
      skipTrailingSpaces.eq_1 e p, if_pos h]
    have hq : p + 1 - 1 = p - 1 + 1 := by ring
    rw [hq]
    exact ih (by omega)
  | case2 p h =>
    rw [skipTrailingSpaces.eq_1 (c :: e) (p + 1), skipTrailingSpaces.eq_1 e p, if_neg h,
      if_neg]
    rintro ⟨-, h2⟩
    by_cases hp0 : 0 ≤ p
    · have ht : (p + 1).toNat = p.toNat + 1 := by omega
      rw [ht, charAt_cons_succ] at h2
      exact h ⟨hp0, h2⟩
    · have hm : p = -1 := by omega
      subst hm
      exact hc h2

/-- Claim C6. Leading negative literal: let `e` be an expression that begins with a digit, not
with a hexadecimal prefix `0x`, on which `calculate` reports `ERROR_NONE`, and let `v` be the
value of its first literal.  Then there is a list `ops` of operator/operand pairs, the ones the
main loop reads after the first literal (entered with any accumulator `a`, the rest of the
loop runs to its end with `result` the left fold of `ops` from `a`), such that `calculate e`
returns the left fold of `ops` from `0 + v`, while `calculate` on the same expression with `-` put in front reports
`ERROR_NONE` and returns the left fold of the same `ops` from `0 + -v`. -/
theorem calculate_leading_minus (e : List Char) (hd : isdigit (charAt e 0) = true)
    (hhex : ¬ (charAt e 0 = '0' ∧ (charAt e 1 = 'x' ∨ charAt e 1 = 'X')))
    (hok : (calculate e).error = ERROR_NONE) :
    ∃ (ops : List (Char × ℚ)) (j ep : Nat),
      (∀ a, foldRest e a = .finished j (foldOps ops a) true ep) ∧
      (calculate e).value = foldOps ops (0 + (parse_number e 0 ERROR_NONE).1) ∧
      (calculate ('-' :: e)).error = ERROR_NONE ∧
      (calculate ('-' :: e)).value = foldOps ops (0 + -(parse_number e 0 ERROR_NONE).1) := by
  obtain ⟨hv, j, r, ho, ep, hL, hho, hcalc, htrail⟩ := calculate_ok_elim hok
  subst hho
  have hf := isdigit_facts hd
  have hsp : charAt e 0 ≠ ' ' := hf.2.2.2.2.2.2.2.1
  have hs : ¬ (charAt e 0 = '+' ∨ charAt e 0 = '-') := fun h => h.elim hf.2.2.1 hf.2.2.2.1
  have hlen : 0 < strlen e - 1 := by
    by_contra hc
    rw [calcLoop, if_neg hc] at hL
    injection hL with a1 a2 a3 a4
    cases a3
  have s0 : skipSpaces e 0 = 0 := skipSpaces_of_ne hsp
  obtain ⟨h1, h2, r1, -⟩ := calcLoop_finished_inv hlen hL
  rw [s0] at h2
  have hplus : ∀ x : ℚ, applyOp '+' 0 x = .inr (0 + x) := fun x => by
    unfold applyOp; rw [if_pos rfl]
  rw [calcLoop_step hlen h1 (by rw [s0]; exact h2) (hplus _), s0] at hL
  -- the rest of the loop reads a list of operator/operand pairs
  have hrest : ∃ ops : List (Char × ℚ), ∀ a : ℚ,
      foldRest e a = .finished j (foldOps ops a) true ep := by
    unfold foldRest
    simp only []
    by_cases c3 : skipSpaces e (parse_number e 0 ERROR_NONE).2.1 < strlen e - 1
    · rw [if_pos c3] at hL
      by_cases c4 : isOperator (charAt e (skipSpaces e (parse_number e 0 ERROR_NONE).2.1)) = true
      · rw [if_pos c4] at hL
        obtain ⟨ops, hops⟩ := calcLoop_fold e (strlen e) _ _ _ _ _ _ _ _ _ _ (le_refl _) hL
        refine ⟨ops, fun a => ?_⟩
        rw [if_pos c3, if_pos c4]
        exact hops a
      · rw [if_neg c4] at hL; cases hL
    · rw [if_neg c3] at hL
      injection hL with a1 a2 a3 a4
      refine ⟨[], fun a => ?_⟩
      rw [if_neg c3, a1, a4]
      rfl
  obtain ⟨ops, hops⟩ := hrest
  have hr : r = foldOps ops (0 + (parse_number e 0 ERROR_NONE).1) := by
    have hR : foldRest e (0 + (parse_number e 0 ERROR_NONE).1) = .finished j r true ep := by
      unfold foldRest
      exact hL
    rw [hops] at hR
    injection hR with a1 a2 a3 a4
    exact a2.symm
  -- the same run on the expression with a leading minus
  have sm : skipSpaces ('-' :: e) 0 = 0 := skipSpaces_of_ne (by rw [charAt_cons_zero]; decide)
  have pm := parse_number_minus hs hhex h2
  have g1 : ¬ (isOperator (charAt ('-' :: e) (skipSpaces ('-' :: e) 0)) = true ∧
      ¬ (skipSpaces ('-' :: e) 0 = 0 ∧ charAt ('-' :: e) (skipSpaces ('-' :: e) 0) = '-')) := by
    rw [sm]
    exact fun hh => hh.2 ⟨rfl, rfl⟩
  have g2 : (parse_number ('-' :: e) (skipSpaces ('-' :: e) 0) ERROR_NONE).2.2 = ERROR_NONE := by
    rw [sm, pm]
  have step := @calcLoop_step ('-' :: e) (strlen e + 1) 0 0 '+' false 0 _ (by omega) g1 g2
    (hplus _)
  rw [sm, pm] at step
  simp only [] at step
  rw [skipSpaces_cons, charAt_cons_succ] at step
  have hA := hops (0 + -(parse_number e 0 ERROR_NONE).1)
  unfold foldRest at hA
  simp only [] at hA
  have hLm : ∃ ep3, calcLoop ('-' :: e) (strlen e + 1) 0 0 '+' false 0 =
      .finished (j + 1) (foldOps ops (0 + -(parse_number e 0 ERROR_NONE).1)) true ep3 := by
    by_cases c3 : skipSpaces e (parse_number e 0 ERROR_NONE).2.1 < strlen e - 1
    · rw [if_pos c3] at hA
      rw [if_pos (by omega)] at step
      by_cases c4 : isOperator (charAt e (skipSpaces e (parse_number e 0 ERROR_NONE).2.1)) = true
      · rw [if_pos c4] at hA step
        obtain ⟨ep3, h3⟩ := calcLoop_cons '-' e (strlen e) _ _ _ _ _ _ 0 _ _ _ _ (le_refl _)
          (by omega) hA
        exact ⟨ep3, by rw [step, h3]⟩
      · rw [if_neg c4] at hA; cases hA
    · rw [if_neg c3] at hA
      rw [if_neg (by omega)] at step
      injection hA with a1 a2 a3 a4
      exact ⟨0, by rw [step, a1, ← a2]⟩
  obtain ⟨ep3, hLm⟩ := hLm
  have hvm : validate_expression ('-' :: e) = ERROR_NONE :=
    validate_expression_cons (by decide) (by decide) (by decide) hv
  have hsl : strlen ('-' :: e) = strlen e + 1 := strlen_cons (by decide) e
  have hfin := calculate_of_finished hvm (by rw [hsl]; exact hLm)
  have hcast : ((strlen ('-' :: e) : Nat) : Int) - 2 = ((strlen e : Int) - 2) + 1 := by
    rw [hsl]; push_cast; ring
  have hnn := skipTrailingSpaces_nonneg hsp ((strlen e : Int) - 2) (by omega)
  have ht : (skipTrailingSpaces e ((strlen e : Int) - 2) + 1).toNat =
      (skipTrailingSpaces e ((strlen e : Int) - 2)).toNat + 1 := by omega
  rw [hcast, skipTrailingSpaces_cons (by decide) e _ (by omega), ht, charAt_cons_succ,
    if_neg (fun hh => htrail ⟨hnn, hh.2⟩)] at hfin
  exact ⟨ops, j, ep, hops, by rw [hcalc, hr], by rw [hfin], by rw [hfin]⟩


theorem calculate_five_plus_three : calculate ['5', '+', '3', '='] = ⟨8, ERROR_NONE, 2⟩ := by
  simp [calculate, validate_expression, validateLoop, strlen, charAt, NUL, calcLoop,
    skipSpaces, parse_number, intLoop, fracLoop, isOperator, isalnum, isalpha, isdigit, applyOp,
    skipTrailingSpaces]
  norm_num

theorem calculate_leading_minus_witness :
    (calculate ['5', '+', '3', '=']).error = ERROR_NONE ∧
      (calculate ['-', '5', '+', '3', '=']).error = ERROR_NONE ∧
      (calculate ['-', '5', '+', '3', '=']).value = -2 := by
  have hok : (calculate ['5', '+', '3', '=']).error = ERROR_NONE := by
    rw [calculate_five_plus_three]
  obtain ⟨ops, j, ep, h1, -, h3, h4⟩ :=
    calculate_leading_minus ['5', '+', '3', '='] (by decide) (by decide) hok
  refine ⟨hok, h3, ?_⟩
  have h5 : exitValue (foldRest ['5', '+', '3', '=']
      (0 + -(parse_number ['5', '+', '3', '='] 0 ERROR_NONE).1)) =
      foldOps ops (0 + -(parse_number ['5', '+', '3', '='] 0 ERROR_NONE).1) := by
    rw [h1]; rfl
  rw [h4, ← h5]
  simp [exitValue, foldRest, strlen, charAt, NUL, calcLoop, skipSpaces, parse_number, intLoop,
    fracLoop, isOperator, isdigit, applyOp]
  norm_num

/-! ### The main loop, one iteration at a time -/

theorem parse_number_error_kind (e : List Char) (i : Nat) (err : ErrorType) :
    (parse_number e i err).2.2 = err ∨ (parse_number e i err).2.2 = ERROR_INVALID_NUMBER := by
  unfold parse_number
  simp only []
  split_ifs <;> simp

theorem lt_parse_number {e : List Char} {i : Nat}
    (h : (parse_number e i ERROR_NONE).2.2 = ERROR_NONE) :
    i < (parse_number e i ERROR_NONE).2.1 := by
  unfold parse_number at h ⊢
  by_cases c1 : charAt e i = '0' ∧ (charAt e (i + 1) = 'x' ∨ charAt e (i + 1) = 'X')
  · rw [if_pos c1] at h ⊢
    by_cases c2 : charAt e (i + 2) = '.'
    · rw [if_pos c2] at h; cases h
    · rw [if_neg c2] at h ⊢
      simp only [] at h ⊢
      by_cases c3 : (hexLoop e (i + 2) 0).1 ≤ i + 2
      · rw [if_pos c3] at h; cases h
      · rw [if_neg c3]; simp only []; omega
  · rw [if_neg c1] at h ⊢
    simp only [] at h ⊢
    generalize (if charAt e i = '+' ∨ charAt e i = '-' then i + 1 else i) = i1 at h ⊢
    by_cases c4 : (intLoop e i1 0).2.2 = false
    · rw [if_pos c4] at h; cases h
    · rw [if_neg c4] at h ⊢
      generalize (if charAt e (intLoop e i1 0).1 = '.' then
          fracLoop e ((intLoop e i1 0).1 + 1) (intLoop e i1 0).2.1 (1 / 10)
        else ((intLoop e i1 0).1, (intLoop e i1 0).2.1, true)) = r2 at h ⊢
      by_cases c6 : r2.2.2 = false
      · rw [if_pos c6] at h; cases h
      · rw [if_neg c6] at h ⊢
        by_cases c7 : r2.1 ≤ i ∨ (r2.1 = i + 1 ∧ (charAt e i = '+' ∨ charAt e i = '-'))
        · rw [if_pos c7] at h; cases h
        · rw [if_neg c7]
          simp only []
          by_contra hlt
          exact c7 (Or.inl (by omega))

theorem calcLoop_eq_body (e : List Char) (len : Nat) (s : LoopState) :
    calcLoop e len s.index s.result s.current_op s.has_operand s.error_pos =
      if s.index < len - 1 then
        match calcBody e len s with
        | .inl x => .returned x
        | .inr s1 => calcLoop e len s1.index s1.result s1.current_op s1.has_operand s1.error_pos
      else .finished s.index s.result s.has_operand s.error_pos := by
  rw [calcLoop]
  by_cases c0 : s.index < len - 1
  · rw [if_pos c0, if_pos c0]
    unfold calcBody
    simp only []
    by_cases c1 : isOperator (charAt e (skipSpaces e s.index)) = true ∧
        ¬ (skipSpaces e s.index = 0 ∧ charAt e (skipSpaces e s.index) = '-')
    · rw [if_pos c1, if_pos c1]
    rw [if_neg c1, if_neg c1]
    by_cases c2 : (parse_number e (skipSpaces e s.index) ERROR_NONE).2.2 ≠ ERROR_NONE
    · rw [if_pos c2, if_pos c2]
    rw [if_neg c2, if_neg c2]
    cases happ : applyOp s.current_op s.result
        (parse_number e (skipSpaces e s.index) ERROR_NONE).1 with
    | inl er => rfl
    | inr result1 =>
      simp only []
      by_cases c3 : skipSpaces e (parse_number e (skipSpaces e s.index) ERROR_NONE).2.1 < len - 1
      · rw [if_pos c3, if_pos c3]
        by_cases c4 : isOperator (charAt e
            (skipSpaces e (parse_number e (skipSpaces e s.index) ERROR_NONE).2.1)) = true
        · rw [if_pos c4, if_pos c4]
        · rw [if_neg c4, if_neg c4]
      · rw [if_neg c3, if_neg c3]
        simp only []
        rw [calcLoop, if_neg c3]
  · rw [if_neg c0, if_neg c0]

theorem calcBody_index_lt {e : List Char} {len : Nat} {s s1 : LoopState}
    (h : calcBody e len s = .inr s1) : s.index < s1.index := by
  unfold calcBody at h
  simp only [] at h
  have m1 := le_skipSpaces e s.index
  by_cases c1 : isOperator (charAt e (skipSpaces e s.index)) = true ∧
      ¬ (skipSpaces e s.index = 0 ∧ charAt e (skipSpaces e s.index) = '-')
  · rw [if_pos c1] at h; cases h
  rw [if_neg c1] at h
  by_cases c2 : (parse_number e (skipSpaces e s.index) ERROR_NONE).2.2 ≠ ERROR_NONE
  · rw [if_pos c2] at h; cases h
  rw [if_neg c2] at h
  have m2 := lt_parse_number (not_not.1 c2)
  have m3 := le_skipSpaces e (parse_number e (skipSpaces e s.index) ERROR_NONE).2.1
  cases happ : applyOp s.current_op s.result
      (parse_number e (skipSpaces e s.index) ERROR_NONE).1 with
  | inl er => rw [happ] at h; cases h
  | inr result1 =>
    rw [happ] at h
    simp only [] at h
    by_cases c3 : skipSpaces e (parse_number e (skipSpaces e s.index) ERROR_NONE).2.1 < len - 1
    · rw [if_pos c3] at h
      by_cases c4 : isOperator (charAt e
          (skipSpaces e (parse_number e (skipSpaces e s.index) ERROR_NONE).2.1)) = true
      · rw [if_pos c4] at h
        injection h with h; subst h
        simp only []
        omega
      · rw [if_neg c4] at h; cases h
    · rw [if_neg c3] at h
      injection h with h; subst h
      simp only []
      omega

theorem calcLoop_of_reach {e : List Char} {len : Nat} {s : LoopState}
    (h : LoopReach e len s) :
    calcLoop e len 0 0 '+' false 0 =
      calcLoop e len s.index s.result s.current_op s.has_operand s.error_pos := by
  induction h with
  | start => rfl
  | next hs hi hb ih =>
    rw [ih, calcLoop_eq_body, if_pos hi, hb]

theorem calcLoop_exit (e : List Char) (len : Nat) :
    ∀ (k : Nat) (s : LoopState), LoopReach e len s → len - s.index ≤ k →
      (∀ x, calcLoop e len s.index s.result s.current_op s.has_operand s.error_pos =
          .returned x →
        ∃ s1, LoopReach e len s1 ∧ s1.index < len - 1 ∧ calcBody e len s1 = .inl x) ∧
      (∀ j r ho ep, calcLoop e len s.index s.result s.current_op s.has_operand s.error_pos =
          .finished j r ho ep →
        ∃ s1, LoopReach e len s1 ∧ ¬ s1.index < len - 1 ∧ s1.index = j ∧ s1.result = r ∧
          s1.has_operand = ho ∧ s1.error_pos = ep) := by
  intro k
  induction k with
  | zero =>
    intro s hs hk
    rw [calcLoop_eq_body, if_neg (by omega)]
    refine ⟨fun x h => (by cases h), fun j r ho ep h => ?_⟩
    injection h with a1 a2 a3 a4
    exact ⟨s, hs, by omega, a1, a2, a3, a4⟩
  | succ k ih =>
    intro s hs hk
    rw [calcLoop_eq_body]
    by_cases c0 : s.index < len - 1
    · rw [if_pos c0]
      cases hb : calcBody e len s with
      | inl x =>
        refine ⟨fun y h => ?_, fun j r ho ep h => (by cases h)⟩
        injection h with h
        subst h
        exact ⟨s, hs, c0, hb⟩
      | inr s1 =>
        have hlt := calcBody_index_lt hb
        exact ih s1 (LoopReach.next hs c0 hb) (by omega)
    · rw [if_neg c0]
      refine ⟨fun x h => (by cases h), fun j r ho ep h => ?_⟩
      injection h with a1 a2 a3 a4
      exact ⟨s, hs, c0, a1, a2, a3, a4⟩

/-- What the main loop of `calculate` ends with, in terms of the states it goes through. -/
theorem calcLoop_start_exit (e : List Char) (len : Nat) :
    (∀ x, calcLoop e len 0 0 '+' false 0 = .returned x →
        ∃ s1, LoopReach e len s1 ∧ s1.index < len - 1 ∧ calcBody e len s1 = .inl x) ∧
      (∀ j r ho ep, calcLoop e len 0 0 '+' false 0 = .finished j r ho ep →
        ∃ s1, LoopReach e len s1 ∧ ¬ s1.index < len - 1 ∧ s1.index = j ∧ s1.result = r ∧
          s1.has_operand = ho ∧ s1.error_pos = ep) :=
  calcLoop_exit e len len ⟨0, 0, '+', false, 0⟩ LoopReach.start (by simp)

theorem calcLoopFuel_eq (e : List Char) (len : Nat) :
    ∀ (fuel : Nat) (s : LoopState), len - 1 - s.index ≤ fuel →
      calcLoopFuel e len fuel s =
        some (calcLoop e len s.index s.result s.current_op s.has_operand s.error_pos) := by
  intro fuel
  induction fuel with
  | zero =>
    intro s hk
    rw [calcLoopFuel, if_neg (by omega), calcLoop_eq_body, if_neg (by omega)]
  | succ k ih =>
    intro s hk
    rw [calcLoopFuel, calcLoop_eq_body]
    by_cases c0 : s.index < len - 1
    · rw [if_pos c0, if_pos c0]
      cases hb : calcBody e len s with
      | inl x => rfl
      | inr s1 =>
        have hlt := calcBody_index_lt hb
        exact ih s1 (by omega)
    · rw [if_neg c0, if_neg c0]

/-- Claim C17. `calculate` terminates on every input: a `parse_number` call that reports no
error leaves the cursor strictly greater than it found it; an execution of the body of the
main loop that does not return leaves `index` strictly greater than it was at its start; and
on every string the main loop ends within as many iterations as the string has characters
(run with that bound it ends, with the result of the loop). -/
theorem calculate_terminates :
    (∀ (e : List Char) (i : Nat), (parse_number e i ERROR_NONE).2.2 = ERROR_NONE →
        i < (parse_number e i ERROR_NONE).2.1) ∧
      (∀ (e : List Char) (len : Nat) (s s1 : LoopState), calcBody e len s = .inr s1 →
        s.index < s1.index) ∧
      (∀ e : List Char, calcLoopFuel e (strlen e) (strlen e) ⟨0, 0, '+', false, 0⟩ =
        some (calcLoop e (strlen e) 0 0 '+' false 0)) :=
  ⟨fun _ _ h => lt_parse_number h, fun _ _ _ _ h => calcBody_index_lt h,
    fun e => calcLoopFuel_eq e (strlen e) (strlen e) ⟨0, 0, '+', false, 0⟩ (by simp)⟩

theorem applyOp_operator {op : Char} (hop : isOperator op = true) (r v : ℚ) :
    applyOp op r v ≠ .inl ERROR_INVALID_OPERATOR := by
  unfold applyOp
  simp only [isOperator, Bool.or_eq_true, decide_eq_true_eq] at hop
  rcases hop with ((h | h) | h) | h <;> subst h
  · rw [if_pos rfl]; exact fun h => by cases h
  · rw [if_neg (by decide), if_pos rfl]; exact fun h => by cases h
  · rw [if_neg (by decide), if_neg (by decide), if_pos rfl]; exact fun h => by cases h
  · rw [if_neg (by decide), if_neg (by decide), if_neg (by decide), if_pos rfl]
    split_ifs <;> exact fun h => by cases h

theorem calcBody_operator {e : List Char} {len : Nat} {s s1 : LoopState}
    (hop : isOperator s.current_op = true) (h : calcBody e len s = .inr s1) :
    isOperator s1.current_op = true := by
  unfold calcBody at h
  simp only [] at h
  by_cases c1 : isOperator (charAt e (skipSpaces e s.index)) = true ∧
      ¬ (skipSpaces e s.index = 0 ∧ charAt e (skipSpaces e s.index) = '-')
  · rw [if_pos c1] at h; cases h
  rw [if_neg c1] at h
  by_cases c2 : (parse_number e (skipSpaces e s.index) ERROR_NONE).2.2 ≠ ERROR_NONE
  · rw [if_pos c2] at h; cases h
  rw [if_neg c2] at h
  cases happ : applyOp s.current_op s.result
      (parse_number e (skipSpaces e s.index) ERROR_NONE).1 with
  | inl er => rw [happ] at h; cases h
  | inr result1 =>
    rw [happ] at h
    simp only [] at h
    by_cases c3 : skipSpaces e (parse_number e (skipSpaces e s.index) ERROR_NONE).2.1 < len - 1
    · rw [if_pos c3] at h
      by_cases c4 : isOperator (charAt e
          (skipSpaces e (parse_number e (skipSpaces e s.index) ERROR_NONE).2.1)) = true
      · rw [if_pos c4] at h
        injection h with h; subst h
        exact c4
      · rw [if_neg c4] at h; cases h
    · rw [if_neg c3] at h
      injection h with h; subst h
      exact hop

/-- Claim C18. The pending operator is always one of `+ - * /`: in every state in which the
main loop of `calculate` tests its condition, on any input, `current_op` is an operator
symbol, so the `switch` on it never takes its `default` branch (it never reports
`ERROR_INVALID_OPERATOR`), whatever the accumulator and the operand. -/
theorem pending_operator_valid (e : List Char) (len : Nat) (s : LoopState)
    (h : LoopReach e len s) :
    isOperator s.current_op = true ∧
      ∀ r v : ℚ, applyOp s.current_op r v ≠ .inl ERROR_INVALID_OPERATOR := by
  have key : isOperator s.current_op = true := by
    induction h with
    | start => decide
    | next hs hi hb ih => exact calcBody_operator ih hb
  exact ⟨key, applyOp_operator key⟩

theorem pending_operator_valid_witness :
    LoopReach ['1', '*', '2', '='] 4 ⟨2, 0 + 1, '*', true, 0⟩ ∧
      isOperator '*' = true ∧
      ∀ r v : ℚ, applyOp '*' r v ≠ .inl ERROR_INVALID_OPERATOR := by
  have hr : LoopReach ['1', '*', '2', '='] 4 ⟨2, 0 + 1, '*', true, 0⟩ :=
    LoopReach.next LoopReach.start (by decide) (by
      simp [calcBody, charAt, NUL, skipSpaces, parse_number, intLoop, fracLoop, isOperator,
        isdigit, applyOp])
  exact ⟨hr, pending_operator_valid _ _ _ hr⟩

/-! ### The error kinds and positions `calculate` can report -/

theorem applyOp_inl_kind {op : Char} {r v : ℚ} {er : ErrorType} (h : applyOp op r v = .inl er) :
    er = ERROR_DIVISION_BY_ZERO ∨ er = ERROR_INVALID_OPERATOR := by
  unfold applyOp at h
  split_ifs at h <;> cases h <;> simp

theorem calcBody_inl {e : List Char} {len : Nat} {s : LoopState} {x : CalcResult}
    (h : calcBody e len s = .inl x) :
    x.value = 0 ∧
      (x.error = ERROR_INVALID_OPERATOR ∨ x.error = ERROR_INVALID_NUMBER ∨
        x.error = ERROR_DIVISION_BY_ZERO) ∧
      (x.error_pos = skipSpaces e s.index ∨
        x.error_pos = (parse_number e (skipSpaces e s.index) ERROR_NONE).2.1 ∨
        (x.error_pos = skipSpaces e (parse_number e (skipSpaces e s.index) ERROR_NONE).2.1 ∧
          x.error_pos < len - 1)) := by
  unfold calcBody at h
  simp only [] at h
  by_cases c1 : isOperator (charAt e (skipSpaces e s.index)) = true ∧
      ¬ (skipSpaces e s.index = 0 ∧ charAt e (skipSpaces e s.index) = '-')
  · rw [if_pos c1] at h
    injection h with h; subst h
    exact ⟨rfl, Or.inl rfl, Or.inl rfl⟩
  rw [if_neg c1] at h
  by_cases c2 : (parse_number e (skipSpaces e s.index) ERROR_NONE).2.2 ≠ ERROR_NONE
  · rw [if_pos c2] at h
    injection h with h; subst h
    refine ⟨rfl, Or.inr (Or.inl ?_), Or.inl rfl⟩
    exact (parse_number_error_kind e _ ERROR_NONE).resolve_left c2
  rw [if_neg c2] at h
  cases happ : applyOp s.current_op s.result
      (parse_number e (skipSpaces e s.index) ERROR_NONE).1 with
  | inl er =>
    rw [happ] at h
    injection h with h; subst h
    refine ⟨rfl, ?_, Or.inr (Or.inl rfl)⟩
    rcases applyOp_inl_kind happ with h | h
    · exact Or.inr (Or.inr h)
    · exact Or.inl h
  | inr result1 =>
    rw [happ] at h
    simp only [] at h
    by_cases c3 : skipSpaces e (parse_number e (skipSpaces e s.index) ERROR_NONE).2.1 < len - 1
    · rw [if_pos c3] at h
      by_cases c4 : isOperator (charAt e
          (skipSpaces e (parse_number e (skipSpaces e s.index) ERROR_NONE).2.1)) = true
      · rw [if_pos c4] at h; cases h
      · rw [if_neg c4] at h
        injection h with h; subst h
        exact ⟨rfl, Or.inl rfl, Or.inr (Or.inr ⟨rfl, c3⟩)⟩
    · rw [if_neg c3] at h; cases h

theorem validate_expression_kind (e : List Char) :
    validate_expression e = ERROR_NONE ∨ validate_expression e = ERROR_INVALID_CHAR ∨
      validate_expression e = ERROR_EMPTY_EXPRESSION := by
  rw [validate_expression_eq_ref]
  unfold validateRef
  split_ifs <;> simp

/-- The ways `calculate` ends. -/
theorem calculate_cases (e : List Char) :
    (validate_expression e ≠ ERROR_NONE ∧ calculate e = ⟨0, validate_expression e, 0⟩) ∨
      (validate_expression e = ERROR_NONE ∧
        ((∃ x, calcLoop e (strlen e) 0 0 '+' false 0 = .returned x ∧ calculate e = x) ∨
          ∃ j r ho ep, calcLoop e (strlen e) 0 0 '+' false 0 = .finished j r ho ep ∧
            ((ho = false ∧ calculate e = ⟨0, ERROR_EMPTY_EXPRESSION, 0⟩) ∨
              (ho = true ∧ 0 ≤ skipTrailingSpaces e ((strlen e : Int) - 2) ∧
                calculate e = ⟨0, ERROR_TRAILING_OPERATOR,
                  (skipTrailingSpaces e ((strlen e : Int) - 2)).toNat⟩) ∨
              (ho = true ∧ calculate e = ⟨r, ERROR_NONE, ep⟩)))) := by
  unfold calculate
  by_cases hv : validate_expression e ≠ ERROR_NONE
  · rw [if_pos hv]; exact Or.inl ⟨hv, rfl⟩
  · rw [if_neg hv]
    refine Or.inr ⟨not_not.1 hv, ?_⟩
    simp only []
    cases hL : calcLoop e (strlen e) 0 0 '+' false 0 with
    | returned x => exact Or.inl ⟨x, rfl, rfl⟩
    | finished j r ho ep =>
      refine Or.inr ⟨j, r, ho, ep, rfl, ?_⟩
      simp only []
      by_cases c1 : ho = false
      · rw [if_pos c1]; exact Or.inl ⟨c1, rfl⟩
      · rw [if_neg c1]
        have c1' : ho = true := by simpa using c1
        by_cases c2 : 0 ≤ skipTrailingSpaces e ((strlen e : Int) - 2) ∧
            isOperator (charAt e (skipTrailingSpaces e ((strlen e : Int) - 2)).toNat) = true
        · rw [if_pos c2]; exact Or.inr (Or.inl ⟨c1', c2.1, rfl⟩)
        · rw [if_neg c2]; exact Or.inr (Or.inr ⟨c1', rfl⟩)

/-- Claim C12. `ERROR_MISSING_OPERAND` is never produced: on every input string the error kind
reported by `calculate` is not `ERROR_MISSING_OPERAND`, nor is the verdict of
`validate_expression`, nor the error `parse_number` leaves at any cursor (it leaves the error
it was given, or `ERROR_INVALID_NUMBER`). -/
theorem missing_operand_unused (e : List Char) :
    (calculate e).error ≠ ERROR_MISSING_OPERAND ∧
      validate_expression e ≠ ERROR_MISSING_OPERAND ∧
      (∀ i : Nat, (parse_number e i ERROR_NONE).2.2 ≠ ERROR_MISSING_OPERAND) ∧
      ∀ (i : Nat) (err : ErrorType), (parse_number e i err).2.2 = err ∨
        (parse_number e i err).2.2 = ERROR_INVALID_NUMBER := by
  have hval : validate_expression e ≠ ERROR_MISSING_OPERAND := by
    rcases validate_expression_kind e with h | h | h <;> rw [h] <;> decide
  refine ⟨?_, hval, fun i => ?_, fun i err => parse_number_error_kind e i err⟩
  · rcases calculate_cases e with ⟨-, h⟩ | ⟨-, ⟨x, hL, h⟩ | ⟨j, r, ho, ep, -, h⟩⟩
    · rw [h]; exact hval
    · obtain ⟨s1, -, -, hb⟩ := (calcLoop_start_exit e (strlen e)).1 x hL
      rw [h]
      rcases (calcBody_inl hb).2.1 with k | k | k <;> rw [k] <;> decide
    · rcases h with ⟨-, h⟩ | ⟨-, -, h⟩ | ⟨-, h⟩ <;> rw [h] <;> exact fun hh => by cases hh
  · rcases parse_number_error_kind e i ERROR_NONE with h | h <;> rw [h] <;> decide


theorem length_take_strlen (e : List Char) : (e.take (strlen e)).length = strlen e := by
  rw [List.length_take]
  exact Nat.min_eq_left (strlen_le_length e)

theorem calculate_empty_elim {e : List Char}
    (h : (calculate e).error = ERROR_EMPTY_EXPRESSION) :
    calculate e = ⟨0, ERROR_EMPTY_EXPRESSION, 0⟩ ∧
      (e.take (strlen e) = [] ∨ e.take (strlen e) = ['=']) := by
  rcases calculate_cases e with ⟨-, hc⟩ | ⟨hv, ⟨x, hL, hc⟩ | ⟨j, r, ho, ep, hL, hc⟩⟩
  · rw [hc] at h
    simp only [] at h
    refine ⟨by rw [hc, h], Or.inl ?_⟩
    rw [validate_expression_eq_ref] at h
    unfold validateRef at h
    by_cases c0 : (e.take (strlen e)).length = 0
    · exact List.length_eq_zero.1 c0
    · rw [if_neg c0] at h
      split_ifs at h
  · obtain ⟨s1, -, -, hb⟩ := (calcLoop_start_exit e (strlen e)).1 x hL
    rw [hc] at h
    rcases (calcBody_inl hb).2.1 with k | k | k <;> rw [k] at h <;> cases h
  · rcases hc with ⟨hho, hc⟩ | ⟨-, -, hc⟩ | ⟨-, hc⟩
    · refine ⟨hc, Or.inr ?_⟩
      have hlen : ¬ 0 < strlen e - 1 := by
        intro hi
        have := calcLoop_finished_operand e (strlen e) _ _ _ _ _ _ _ _ _ _ (le_refl _) hi hL
        rw [this] at hho
        cases hho
      obtain ⟨g0, -, -, g3⟩ := (validate_expression_none_iff e).1 hv
      have hl := length_take_strlen e
      obtain ⟨c, cs, hcs⟩ := List.exists_cons_of_ne_nil g0
      rw [hcs] at hl g3 ⊢
      have hnil : cs = [] := by
        apply List.length_eq_zero.1
        simp only [List.length_cons] at hl
        omega
      subst hnil
      simp only [List.getLast?_singleton, Option.some.injEq] at g3
      rw [g3]
    · rw [hc] at h; cases h
    · rw [hc] at h; cases h

/-- Claim C20. `calculate` reports `ERROR_EMPTY_EXPRESSION` if and only if the input string
(the characters before the first NUL) is empty or is the single character `=`; whenever it
reports that kind the position is `0`; an operand-free expression such as a space followed by
`=` is reported with another kind (`ERROR_INVALID_NUMBER`). -/
theorem calculate_empty_iff (e : List Char) :
    ((calculate e).error = ERROR_EMPTY_EXPRESSION ↔
        (e.take (strlen e) = [] ∨ e.take (strlen e) = ['='])) ∧
      ((calculate e).error = ERROR_EMPTY_EXPRESSION → (calculate e).error_pos = 0) ∧
      calculate [' ', '='] = ⟨0, ERROR_INVALID_NUMBER, 1⟩ := by
  refine ⟨⟨fun h => (calculate_empty_elim h).2, ?_⟩, fun h => ?_, ?_⟩
  · rintro (h | h)
    · have hl := length_take_strlen e
      rw [h] at hl
      have hl0 : strlen e = 0 := hl.symm
      have hv : validate_expression e = ERROR_EMPTY_EXPRESSION := by
        unfold validate_expression
        simp only []
        rw [if_pos hl0]
      unfold calculate
      rw [if_pos (by rw [hv]; decide), hv]
    · have hl := length_take_strlen e
      rw [h] at hl
      have hl1 : strlen e = 1 := hl.symm
      have hv : validate_expression e = ERROR_NONE := by
        rw [validate_expression_eq_ref, h]; decide
      have hL : calcLoop e (strlen e) 0 0 '+' false 0 = .finished 0 0 false 0 := by
        rw [calcLoop, if_neg (by omega)]
      unfold calculate
      rw [if_neg (by rw [hv]; decide)]
      simp only [hL]
      rfl
  · rw [(calculate_empty_elim h).1]
  · simp [calculate, validate_expression, validateLoop, strlen, charAt, NUL, calcLoop,
      skipSpaces, parse_number, intLoop, isOperator, isalnum, isalpha, isdigit]


theorem validated_end {e : List Char} (hv : validate_expression e = ERROR_NONE) :
    1 ≤ strlen e ∧ charAt e (strlen e - 1) = '=' := by
  obtain ⟨g0, -, -, g3⟩ := (validate_expression_none_iff e).1 hv
  have hl := length_take_strlen e
  have hpos : 1 ≤ strlen e := by
    rw [← hl]
    exact List.length_pos.2 g0
  refine ⟨hpos, ?_⟩
  rw [List.getLast?_eq_getElem?, hl, List.getElem?_take] at g3
  unfold charAt
  rw [List.getD_eq_getElem?_getD]
  split_ifs at g3 with hlt
  rw [g3]; rfl

theorem skipSpaces_le_end {e : List Char} {n i : Nat} (hn : charAt e n = '=') (hi : i ≤ n) :
    skipSpaces e i ≤ n :=
  (skipSpaces_agree (fun _ _ => rfl) (Or.inl hn) (Or.inl hn) (n - i) i rfl hi).2

theorem parse_number_eq_at_eq {e : List Char} {i : Nat} (h : charAt e i = '=')
    (err : ErrorType) : parse_number e i err = (0, i, ERROR_INVALID_NUMBER) := by
  unfold parse_number
  have hne : ¬ (charAt e i = '0' ∧ (charAt e (i + 1) = 'x' ∨ charAt e (i + 1) = 'X')) := by
    intro hh; rw [h] at hh; exact absurd hh.1 (by decide)
  have hs : ¬ (charAt e i = '+' ∨ charAt e i = '-') := by rw [h]; decide
  have hd : ¬ (charAt e i = '.') := by rw [h]; decide
  rw [if_neg hne]
  simp only [if_neg hs]
  rw [intLoop_stop 0 (Or.inr (Or.inl h))]
  simp [hd]

theorem parse_number_le_end {e : List Char} {n i : Nat} (hn : charAt e n = '=') (hi : i ≤ n)
    (err : ErrorType) : (parse_number e i err).2.1 ≤ n := by
  rcases Nat.lt_or_ge i n with h | h
  · exact (parse_number_agree (fun _ _ => rfl) (Or.inl hn) (Or.inl hn) h err).2
  · have : i = n := by omega
    subst this
    rw [parse_number_eq_at_eq hn]

theorem calcBody_bounds {e : List Char} {len : Nat} {s : LoopState}
    (hn : charAt e (len - 1) = '=') (hs : s.index ≤ len - 1) :
    (∀ x, calcBody e len s = .inl x → x.error_pos ≤ len - 1) ∧
      ∀ s1, calcBody e len s = .inr s1 → s1.index ≤ len - 1 ∧ s1.error_pos ≤ len - 1 := by
  have b1 := skipSpaces_le_end hn hs
  have b2 := parse_number_le_end hn b1 ERROR_NONE
  have b3 := skipSpaces_le_end hn b2
  refine ⟨fun x h => ?_, fun s1 h => ?_⟩
  · rcases (calcBody_inl h).2.2 with k | k | ⟨k, -⟩ <;> rw [k] <;> assumption
  · unfold calcBody at h
    simp only [] at h
    by_cases c1 : isOperator (charAt e (skipSpaces e s.index)) = true ∧
        ¬ (skipSpaces e s.index = 0 ∧ charAt e (skipSpaces e s.index) = '-')
    · rw [if_pos c1] at h; cases h
    rw [if_neg c1] at h
    by_cases c2 : (parse_number e (skipSpaces e s.index) ERROR_NONE).2.2 ≠ ERROR_NONE
    · rw [if_pos c2] at h; cases h
    rw [if_neg c2] at h
    cases happ : applyOp s.current_op s.result
        (parse_number e (skipSpaces e s.index) ERROR_NONE).1 with
    | inl er => rw [happ] at h; cases h
    | inr result1 =>
      rw [happ] at h
      simp only [] at h
      by_cases c3 : skipSpaces e (parse_number e (skipSpaces e s.index) ERROR_NONE).2.1 < len - 1
      · rw [if_pos c3] at h
        by_cases c4 : isOperator (charAt e
            (skipSpaces e (parse_number e (skipSpaces e s.index) ERROR_NONE).2.1)) = true
        · rw [if_pos c4] at h
          injection h with h; subst h
          exact ⟨by simp only []; omega, b1⟩
        · rw [if_neg c4] at h; cases h
      · rw [if_neg c3] at h
        injection h with h; subst h
        exact ⟨b3, b1⟩

theorem loopReach_bounds {e : List Char} {len : Nat} (hn : charAt e (len - 1) = '=')
    {s : LoopState} (h : LoopReach e len s) : s.index ≤ len - 1 ∧ s.error_pos ≤ len - 1 := by
  induction h with
  | start => exact ⟨Nat.zero_le _, Nat.zero_le _⟩
  | next hs hi hb ih => exact (calcBody_bounds hn ih.1).2 _ hb

theorem skipTrailingSpaces_le (e : List Char) (p : Int) : skipTrailingSpaces e p ≤ p := by
  induction p using skipTrailingSpaces.induct e with
  | case1 p h ih => rw [skipTrailingSpaces, if_pos h]; omega
  | case2 p h => rw [skipTrailingSpaces, if_neg h]

theorem calculate_error_pos_le (e : List Char) : (calculate e).error_pos ≤ strlen e - 1 := by
  rcases calculate_cases e with ⟨-, hc⟩ | ⟨hv, ⟨x, hL, hc⟩ | ⟨j, r, ho, ep, hL, hc⟩⟩
  · rw [hc]; exact Nat.zero_le _
  · obtain ⟨s1, hr, -, hb⟩ := (calcLoop_start_exit e (strlen e)).1 x hL
    have hn := (validated_end hv).2
    rw [hc]
    exact (calcBody_bounds hn (loopReach_bounds hn hr).1).1 x hb
  · have hn := validated_end hv
    rcases hc with ⟨-, hc⟩ | ⟨-, h0, hc⟩ | ⟨-, hc⟩
    · rw [hc]; exact Nat.zero_le _
    · rw [hc]
      have := skipTrailingSpaces_le e ((strlen e : Int) - 2)
      simp only []
      omega
    · rw [hc]
      obtain ⟨s1, hr, -, -, -, -, hep⟩ := (calcLoop_start_exit e (strlen e)).2 j r ho ep hL
      rw [← hep]
      exact (loopReach_bounds hn.2 hr).2

/-- Claim C19. The reported position lies inside the expression: on every input string, of
length `len`, the position `calculate` reports satisfies `0 ≤ error_pos ≤ max(len - 1, 0)`
(whether or not an error is reported); and on a validated expression the scan cursor never
moves past the offset `len - 1` of the end marker: not in the states of the main loop of
`calculate`, not in its space skipping, and not in `parse_number` started at or before the
end marker. -/
theorem error_pos_in_range (e : List Char) :
    ((0 : Int) ≤ ((calculate e).error_pos : Int) ∧
        ((calculate e).error_pos : Int) ≤ max ((strlen e : Int) - 1) 0) ∧
      (validate_expression e = ERROR_NONE →
        charAt e (strlen e - 1) = '=' ∧
        (∀ s, LoopReach e (strlen e) s → s.index ≤ strlen e - 1) ∧
        (∀ i, i ≤ strlen e - 1 → skipSpaces e i ≤ strlen e - 1) ∧
        ∀ i err, i ≤ strlen e - 1 → (parse_number e i err).2.1 ≤ strlen e - 1) := by
  refine ⟨⟨by omega, ?_⟩, fun hv => ?_⟩
  · have := calculate_error_pos_le e
    omega
  · have hn := (validated_end hv).2
    exact ⟨hn, fun s hs => (loopReach_bounds hn hs).1, fun i hi => skipSpaces_le_end hn hi,
      fun i err hi => parse_number_le_end hn hi err⟩


/-! ### Errors met at an operand position -/

theorem calculate_of_body_return {e : List Char} {s : LoopState} {x : CalcResult}
    (hv : validate_expression e = ERROR_NONE) (hr : LoopReach e (strlen e) s)
    (hi : s.index < strlen e - 1) (hb : calcBody e (strlen e) s = .inl x) :
    calculate e = x := by
  have hL : calcLoop e (strlen e) 0 0 '+' false 0 = .returned x := by
    rw [calcLoop_of_reach hr, calcLoop_eq_body, if_pos hi, hb]
  unfold calculate
  rw [if_neg (by rw [hv]; decide)]
  simp only [hL]

theorem loopReach_index_zero {e : List Char} {len : Nat} {s : LoopState}
    (h : LoopReach e len s) (h0 : s.index = 0) : s = ⟨0, 0, '+', false, 0⟩ := by
  cases h with
  | start => rfl
  | next hs hi hb =>
    have := calcBody_index_lt hb
    omega

theorem operand_position_in_loop {e : List Char} {s : LoopState}
    (hv : validate_expression e = ERROR_NONE) (hr : LoopReach e (strlen e) s)
    (hne : charAt e (skipSpaces e s.index) ≠ '=') : s.index < strlen e - 1 := by
  have hn := (validated_end hv).2
  have hb := (loopReach_bounds hn hr).1
  by_contra hlt
  have heq : s.index = strlen e - 1 := by omega
  have hsp : skipSpaces e s.index = s.index := skipSpaces_of_ne (by rw [heq, hn]; decide)
  rw [hsp, heq] at hne
  exact hne hn

/-- Claim C13. Operator where an operand is expected: on a validated expression, when the
main loop is in a state `s` at which it tests its condition (everything before evaluated
without error) and the first non-space character from the cursor, at offset `p`, is one of
`+ - * /`, then `calculate` fails with `ERROR_INVALID_OPERATOR` at position `p` and returns
`0`, unless that character is `-` and `p = 0`.  In that case the `-` is handed to
`parse_number`, called at offset `0`: if it rejects the literal, `calculate` fails with
`ERROR_INVALID_NUMBER` at `0`, and otherwise the loop goes on with `result = 0 + value`. -/
theorem calculate_operator_at_operand (e : List Char) (s : LoopState)
    (hv : validate_expression e = ERROR_NONE) (hr : LoopReach e (strlen e) s)
    (hop : isOperator (charAt e (skipSpaces e s.index)) = true) :
    (¬ (skipSpaces e s.index = 0 ∧ charAt e (skipSpaces e s.index) = '-') →
        calculate e = ⟨0, ERROR_INVALID_OPERATOR, skipSpaces e s.index⟩) ∧
      (skipSpaces e s.index = 0 ∧ charAt e (skipSpaces e s.index) = '-' →
        ((parse_number e 0 ERROR_NONE).2.2 ≠ ERROR_NONE →
          calculate e = ⟨0, ERROR_INVALID_NUMBER, 0⟩) ∧
        ((parse_number e 0 ERROR_NONE).2.2 = ERROR_NONE →
          calcLoop e (strlen e) 0 0 '+' false 0 =
            foldRest e (0 + (parse_number e 0 ERROR_NONE).1))) := by
  have hi : s.index < strlen e - 1 :=
    operand_position_in_loop hv hr (fun h => (isOperator_facts hop).2.2.1 h)
  refine ⟨fun hex => ?_, fun hex => ?_⟩
  · apply calculate_of_body_return hv hr hi
    unfold calcBody
    simp only []
    rw [if_pos ⟨hop, hex⟩]
  · have h0 : s.index = 0 := by
      have := le_skipSpaces e s.index
      omega
    have hs := loopReach_index_zero hr h0
    subst hs
    have hsk : skipSpaces e 0 = 0 := hex.1
    have hg : ¬ (isOperator (charAt e (skipSpaces e 0)) = true ∧
        ¬ (skipSpaces e 0 = 0 ∧ charAt e (skipSpaces e 0) = '-')) := fun hh => hh.2 hex
    refine ⟨fun hrej => ?_, fun hacc => ?_⟩
    · apply calculate_of_body_return hv hr hi
      unfold calcBody
      simp only []
      rw [if_neg hg, hsk, if_pos hrej,
        (parse_number_error_kind e 0 ERROR_NONE).resolve_left hrej]
    · have hplus : applyOp '+' 0 (parse_number e (skipSpaces e 0) ERROR_NONE).1 =
          .inr (0 + (parse_number e (skipSpaces e 0) ERROR_NONE).1) := by
        unfold applyOp; rw [if_pos rfl]
      rw [calcLoop_step hi hg (by rw [hsk]; exact hacc) hplus, hsk]
      rfl

theorem calculate_operator_at_operand_witness :
    calculate ['1', '+', '-', '2', '='] = ⟨0, ERROR_INVALID_OPERATOR, 2⟩ ∧
      calculate ['+', '5', '='] = ⟨0, ERROR_INVALID_OPERATOR, 0⟩ ∧
      calculate [' ', '-', '5', '='] = ⟨0, ERROR_INVALID_OPERATOR, 1⟩ ∧
      calculate ['-', '5', '='] = ⟨-5, ERROR_NONE, 0⟩ := by
  have hr : LoopReach ['1', '+', '-', '2', '='] (strlen ['1', '+', '-', '2', '='])
      ⟨2, 0 + 1, '+', true, 0⟩ :=
    LoopReach.next LoopReach.start (by decide) (by
      simp [calcBody, strlen, charAt, NUL, skipSpaces, parse_number, intLoop, fracLoop,
        isOperator, isdigit, applyOp])
  have h := (calculate_operator_at_operand ['1', '+', '-', '2', '='] ⟨2, 0 + 1, '+', true, 0⟩
    (by simp [validate_expression, validateLoop, strlen, charAt, NUL, isalnum, isalpha,
      isdigit])
    hr (by simp [charAt, skipSpaces, isOperator])).1
    (by simp [charAt, skipSpaces])
  have hsk : skipSpaces ['1', '+', '-', '2', '='] 2 = 2 := by simp [charAt, skipSpaces]
  rw [hsk] at h
  refine ⟨h, ?_, ?_, ?_⟩ <;>
  simp [calculate, validate_expression, validateLoop, strlen, charAt, NUL, calcLoop,
    skipSpaces, parse_number, intLoop, fracLoop, isOperator, isalnum, isalpha, isdigit,
    applyOp, skipTrailingSpaces]

/-- Claim C11, amended. Lexing errors point at the start of the rejected literal: on a
validated expression, when the main loop is in a state `s` with `index < len - 1`, the first
non-space character from the cursor, at offset `p`, is not an operator symbol (or is a `-` at
offset `0`), and `parse_number` started at `p` rejects the literal, then `calculate` fails
with `ERROR_INVALID_NUMBER`, returns `0`, and the reported position is `p`, the offset at
which the literal starts. -/
theorem calculate_invalid_number (e : List Char) (s : LoopState)
    (hv : validate_expression e = ERROR_NONE) (hr : LoopReach e (strlen e) s)
    (hi : s.index < strlen e - 1)
    (hguard : ¬ (isOperator (charAt e (skipSpaces e s.index)) = true ∧
      ¬ (skipSpaces e s.index = 0 ∧ charAt e (skipSpaces e s.index) = '-')))
    (hrej : (parse_number e (skipSpaces e s.index) ERROR_NONE).2.2 ≠ ERROR_NONE) :
    calculate e = ⟨0, ERROR_INVALID_NUMBER, skipSpaces e s.index⟩ := by
  apply calculate_of_body_return hv hr hi
  unfold calcBody
  simp only []
  rw [if_neg hguard, if_pos hrej, (parse_number_error_kind e _ ERROR_NONE).resolve_left hrej]

theorem calculate_invalid_number_witness :
    parse_number ['1', '+', '2', 'a', '='] 2 ERROR_NONE = (0, 3, ERROR_INVALID_NUMBER) ∧
      calculate ['1', '+', '2', 'a', '='] = ⟨0, ERROR_INVALID_NUMBER, 2⟩ := by
  have hr : LoopReach ['1', '+', '2', 'a', '='] (strlen ['1', '+', '2', 'a', '='])
      ⟨2, 0 + 1, '+', true, 0⟩ :=
    LoopReach.next LoopReach.start (by decide) (by
      simp [calcBody, strlen, charAt, NUL, skipSpaces, parse_number, intLoop, fracLoop,
        isOperator, isdigit, applyOp])
  have hp : parse_number ['1', '+', '2', 'a', '='] 2 ERROR_NONE =
      (0, 3, ERROR_INVALID_NUMBER) := by
    simp [charAt, NUL, parse_number, intLoop, isdigit]
  have hsk : skipSpaces ['1', '+', '2', 'a', '='] 2 = 2 := by simp [charAt, skipSpaces]
  have h := calculate_invalid_number ['1', '+', '2', 'a', '='] ⟨2, 0 + 1, '+', true, 0⟩
    (by simp [validate_expression, validateLoop, strlen, charAt, NUL, isalnum, isalpha,
      isdigit])
    hr (by decide) (by rw [hsk]; simp [charAt, isOperator]) (by rw [hsk, hp]; decide)
  rw [hsk] at h
  exact ⟨hp, h⟩

/-- Claim C11 as stated fails. In `12a=` the lexer, started at offset 0, stops on the
character `a` at offset 2, which is not a digit, and rejects the literal; `calculate` reports
`ERROR_INVALID_NUMBER` at position 0, the start of the literal, not at offset 2. -/
theorem calculate_letter_in_literal :
    validate_expression ['1', '2', 'a', '='] = ERROR_NONE ∧
      parse_number ['1', '2', 'a', '='] 0 ERROR_NONE = (0, 2, ERROR_INVALID_NUMBER) ∧
      charAt ['1', '2', 'a', '='] 2 = 'a' ∧ isdigit 'a' = false ∧
      calculate ['1', '2', 'a', '='] = ⟨0, ERROR_INVALID_NUMBER, 0⟩ ∧
      (calculate ['1', '2', 'a', '=']).error_pos ≠ 2 := by
  have h : calculate ['1', '2', 'a', '='] = ⟨0, ERROR_INVALID_NUMBER, 0⟩ := by
    simp [calculate, validate_expression, validateLoop, strlen, charAt, NUL, calcLoop,
      skipSpaces, parse_number, intLoop, isOperator, isalnum, isalpha, isdigit]
  refine ⟨?_, ?_, by decide, by decide, h, by rw [h]; decide⟩
  · simp [validate_expression, validateLoop, strlen, charAt, NUL, isalnum, isalpha, isdigit]
  · simp [charAt, NUL, parse_number, intLoop, isdigit]

/-! ### Spaces inside a literal -/

theorem decimalValue_append (a b : List Char) :
    decimalValue (a ++ b) = decimalValue a * 10 ^ b.length + decimalValue b := by
  induction a with
  | nil => simp [decimalValue_nil]
  | cons d ds ih =>
    rw [List.cons_append, decimalValue_cons, decimalValue_cons, ih, List.length_append]
    ring

theorem intLoop_space {e : List Char} {i : Nat} (v : ℚ) (h : charAt e i = ' ') :
    intLoop e i v = intLoop e (i + 1) v := by
  rw [intLoop, dif_pos (by rw [h]; decide), if_pos h]

theorem intLoop_spaces (n : Nat) :
    ∀ (pre rest : List Char) (v : ℚ),
      intLoop (pre ++ List.replicate n ' ' ++ rest) pre.length v =
        intLoop (pre ++ List.replicate n ' ' ++ rest) (pre.length + n) v := by
  induction n with
  | zero => intro pre rest v; rfl
  | succ n ih =>
    intro pre rest v
    have hc : charAt (pre ++ List.replicate (n + 1) ' ' ++ rest) pre.length = ' ' := by
      rw [List.replicate_succ, List.append_assoc, List.cons_append, charAt_middle]
    rw [intLoop_space v hc]
    have he : pre ++ List.replicate (n + 1) ' ' ++ rest =
        (pre ++ [' ']) ++ List.replicate n ' ' ++ rest := by
      simp [List.replicate_succ]
    have hl : pre.length + 1 = (pre ++ [' ']).length := by simp
    rw [he, hl, ih]
    simp only [List.length_append, List.length_singleton]
    congr 1
    omega

theorem charAt_of_all {P : Char → Prop} (l rest : List Char) (hl : ∀ c ∈ l, P c) {i : Nat}
    (hi : i < l.length) : P (charAt (l ++ rest) i) := by
  rw [charAt_append_left l rest i hi]
  unfold charAt
  rw [List.getD_eq_getElem?_getD, List.getElem?_eq_getElem hi]
  exact hl _ (List.getElem_mem hi)

/-- The integer-part loop over digits, spaces, digits and a terminator. -/
theorem intLoop_spaced (d1 d2 : List Char) (n : Nat) (t : Char) (rest : List Char)
    (h1 : ∀ c ∈ d1, isdigit c = true) (h2 : ∀ c ∈ d2, isdigit c = true)
    (ht : t = '=' ∨ isOperator t = true) :
    intLoop (d1 ++ List.replicate n ' ' ++ d2 ++ t :: rest) 0 0 =
      (d1.length + n + d2.length, (decimalValue (d1 ++ d2) : ℚ), true) := by
  have e1 : d1 ++ List.replicate n ' ' ++ d2 ++ t :: rest =
      [] ++ d1 ++ (List.replicate n ' ' ++ d2 ++ t :: rest) := by simp
  have e2 : d1 ++ List.replicate n ' ' ++ d2 ++ t :: rest =
      d1 ++ List.replicate n ' ' ++ (d2 ++ t :: rest) := by simp
  have s1 := intLoop_digits d1 h1 [] (List.replicate n ' ' ++ d2 ++ t :: rest) 0
  rw [← e1] at s1
  have s2 := intLoop_spaces n d1 (d2 ++ t :: rest) (0 * 10 ^ d1.length + (decimalValue d1 : ℚ))
  rw [← e2] at s2
  have s3 := intLoop_digits d2 h2 (d1 ++ List.replicate n ' ') (t :: rest)
    (0 * 10 ^ d1.length + (decimalValue d1 : ℚ))
  have ct := charAt_after (d1 ++ List.replicate n ' ') d2 t rest
  have s4 := intLoop_stop (e := d1 ++ List.replicate n ' ' ++ d2 ++ t :: rest)
    (i := (d1 ++ List.replicate n ' ').length + d2.length)
    ((0 * 10 ^ d1.length + (decimalValue d1 : ℚ)) * 10 ^ d2.length + (decimalValue d2 : ℚ))
    (by rw [ct]; exact (stop_terminates ht).1)
  simp only [List.length_nil, Nat.zero_add, List.length_append, List.length_replicate] at s1 s2 s3 s4
  rw [s1, s2, s3, s4, decimalValue_append]
  push_cast
  simp

/-- Claim C16. Embedded spaces inside a decimal literal are skipped: for decimal digit strings
`d1` (non-empty) and `d2`, any number `n` of spaces and a terminator `t` (`=` or an
operator), `parse_number` on `d1`, `n` spaces, `d2`, `t` returns without error the value it
returns on `d1 d2 t`, the number `d1 d2` denotes, and leaves the cursor on the terminator. -/
theorem parse_number_embedded_spaces (d1 d2 : List Char) (n : Nat) (t : Char)
    (rest : List Char) (hne : d1 ≠ []) (h1 : ∀ c ∈ d1, isdigit c = true)
    (h2 : ∀ c ∈ d2, isdigit c = true) (ht : t = '=' ∨ isOperator t = true) :
    parse_number (d1 ++ List.replicate n ' ' ++ d2 ++ t :: rest) 0 ERROR_NONE =
        ((decimalValue (d1 ++ d2) : ℚ), d1.length + n + d2.length, ERROR_NONE) ∧
      parse_number (d1 ++ d2 ++ t :: rest) 0 ERROR_NONE =
        ((decimalValue (d1 ++ d2) : ℚ), d1.length + d2.length, ERROR_NONE) ∧
      charAt (d1 ++ List.replicate n ' ' ++ d2 ++ t :: rest) (d1.length + n + d2.length) = t ∧
      charAt (d1 ++ d2 ++ t :: rest) (d1.length + d2.length) = t := by
  have st := stop_facts ht
  have hall : ∀ c ∈ d1 ++ List.replicate n ' ' ++ d2 ++ [t], c ≠ 'x' ∧ c ≠ 'X' := by
    intro c hc
    simp only [List.mem_append, List.mem_replicate, List.mem_singleton] at hc
    rcases hc with ((hc | hc) | hc) | hc
    · have f := isdigit_facts (h1 c hc)
      exact ⟨f.2.2.2.2.2.2.2.2.2.2.1, f.2.2.2.2.2.2.2.2.2.2.2.1⟩
    · rw [hc.2]; decide
    · have f := isdigit_facts (h2 c hc)
      exact ⟨f.2.2.2.2.2.2.2.2.2.2.1, f.2.2.2.2.2.2.2.2.2.2.2.1⟩
    · rw [hc]; exact ⟨st.2.2.2.1, st.2.2.2.2.1⟩
  obtain ⟨d, ds, hd⟩ := List.exists_cons_of_ne_nil hne
  have hdl : 1 ≤ d1.length := by rw [hd]; simp
  have hshape : d1 ++ List.replicate n ' ' ++ d2 ++ t :: rest =
      (d1 ++ List.replicate n ' ' ++ d2 ++ [t]) ++ rest := by simp
  have c0 : charAt (d1 ++ List.replicate n ' ' ++ d2 ++ t :: rest) 0 = d := by
    rw [hd]; rfl
  have fd := isdigit_facts (h1 d (by rw [hd]; exact List.mem_cons_self _ _))
  have c1 : ¬ (charAt (d1 ++ List.replicate n ' ' ++ d2 ++ t :: rest) (0 + 1) = 'x' ∨
      charAt (d1 ++ List.replicate n ' ' ++ d2 ++ t :: rest) (0 + 1) = 'X') := by
    have := charAt_of_all (P := fun c => c ≠ 'x' ∧ c ≠ 'X')
      (d1 ++ List.replicate n ' ' ++ d2 ++ [t]) rest hall (i := 0 + 1)
      (by simp only [List.length_append, List.length_singleton]; omega)
    rw [← hshape] at this
    exact fun hh => hh.elim this.1 this.2
  have hsign : ¬ (d = '+' ∨ d = '-') := fun h => h.elim fd.2.2.1 fd.2.2.2.1
  have ct : charAt (d1 ++ List.replicate n ' ' ++ d2 ++ t :: rest)
      (d1.length + n + d2.length) = t := by
    have := charAt_after (d1 ++ List.replicate n ' ') d2 t rest
    simpa only [List.length_append, List.length_replicate] using this
  have hcore := @parse_number_decimal_core (d1 ++ List.replicate n ' ' ++ d2 ++ t :: rest)
    0 (d1.length + n + d2.length) (d1.length + n + d2.length)
    (decimalValue (d1 ++ d2) : ℚ) (decimalValue (d1 ++ d2) : ℚ) ERROR_NONE
    (fun hh => c1 hh.2)
    (by rw [c0, if_neg hsign]; exact intLoop_spaced d1 d2 n t rest h1 h2 ht)
    (by rw [ct, if_neg st.2.1])
    (by rw [c0]; rintro (h | ⟨-, h⟩) <;> first | omega | exact hsign h)
  rw [c0, if_neg fd.2.2.2.1] at hcore
  refine ⟨hcore, ?_, ct, ?_⟩
  · have := parse_number_uint_literal [] (d1 ++ d2) (by simp [hne]) (by
      intro c hc
      rcases List.mem_append.1 hc with h | h
      · exact h1 c h
      · exact h2 c h) t ht rest ERROR_NONE
    simpa using this
  · have := charAt_after [] (d1 ++ d2) t rest
    simpa using this

theorem parse_number_embedded_spaces_witness :
    parse_number ['1', ' ', '2', '+', '3', '='] 0 ERROR_NONE = (12, 3, ERROR_NONE) ∧
      parse_number ['1', '2', '+', '3', '='] 0 ERROR_NONE = (12, 2, ERROR_NONE) ∧
      charAt ['1', ' ', '2', '+', '3', '='] 3 = '+' ∧
      calculate ['1', ' ', '2', '+', '3', '='] = ⟨15, ERROR_NONE, 4⟩ := by
  have h := parse_number_embedded_spaces ['1'] ['2'] 1 '+' ['3', '='] (by decide) (by decide)
    (by decide) (Or.inr (by decide))
  have hv : decimalValue (['1'] ++ ['2']) = 12 := by decide
  rw [hv] at h
  refine ⟨by simpa using h.1, by simpa using h.2.1, by decide, ?_⟩
  simp [calculate, validate_expression, validateLoop, strlen, charAt, NUL, calcLoop,
    skipSpaces, parse_number, intLoop, fracLoop, isOperator, isalnum, isalpha, isdigit,
    applyOp, skipTrailingSpaces]
  norm_num

/-! ### Literals without digits; an operator followed by spaces -/

/-- Claim C14 fails on the code. `parse_number` tests for "no digits" by comparing the cursor
with the start of the literal, so a literal made of a point, or of spaces, with no digit at
all is accepted with value `0`: on `.=` it returns `0` without error, having read only the
point, and `calculate` then reports `ERROR_NONE`; on `0x =` it returns `0` without error,
having read no hexadecimal digit after the prefix.  A lone sign (`-=`) and a bare prefix
(`0x=`) are rejected with `ERROR_INVALID_NUMBER`. -/
theorem parse_number_without_digits :
    parse_number ['.', '='] 0 ERROR_NONE = (0, 1, ERROR_NONE) ∧
      calculate ['.', '='] = ⟨0, ERROR_NONE, 0⟩ ∧
      parse_number ['0', 'x', ' ', '='] 0 ERROR_NONE = (0, 3, ERROR_NONE) ∧
      parse_number ['-', '='] 0 ERROR_NONE = (0, 1, ERROR_INVALID_NUMBER) ∧
      parse_number ['0', 'x', '='] 0 ERROR_NONE = (0, 2, ERROR_INVALID_NUMBER) := by
  refine ⟨?_, ?_, ?_, ?_, ?_⟩ <;>
  simp [calculate, validate_expression, validateLoop, strlen, charAt, NUL, calcLoop,
    skipSpaces, parse_number, intLoop, fracLoop, hexLoop, isOperator, isalnum, isalpha,
    isdigit, isxdigit, hexDigitValue, applyOp, skipTrailingSpaces]

theorem skipSpaces_spaces (n : Nat) :
    ∀ (pre : List Char) (t : Char) (rest : List Char), t ≠ ' ' →
      skipSpaces (pre ++ List.replicate n ' ' ++ t :: rest) pre.length = pre.length + n := by
  induction n with
  | zero =>
    intro pre t rest ht
    have hc : charAt (pre ++ List.replicate 0 ' ' ++ t :: rest) pre.length = t := by
      simpa using charAt_middle pre t rest
    rw [skipSpaces_of_ne (by rw [hc]; exact ht)]
    rfl
  | succ n ih =>
    intro pre t rest ht
    have hc : charAt (pre ++ List.replicate (n + 1) ' ' ++ t :: rest) pre.length = ' ' := by
      rw [List.replicate_succ, List.append_assoc, List.cons_append, charAt_middle]
    rw [skipSpaces_of_eq hc]
    have he : pre ++ List.replicate (n + 1) ' ' ++ t :: rest =
        (pre ++ [' ']) ++ List.replicate n ' ' ++ t :: rest := by
      simp [List.replicate_succ]
    have hl : pre.length + 1 = (pre ++ [' ']).length := by simp
    rw [he, hl, ih _ t rest ht]
    simp only [List.length_append, List.length_singleton]
    omega

/-- An operator followed by spaces before the end marker: the main loop, not the backward
scan, meets the end marker where it expects an operand. -/
theorem calculate_operator_spaces (E : List Char) (c : Char) (n : Nat)
    (hE : ∀ x ∈ E, x ≠ NUL) (hok : (calculate (E ++ ['='])).error = ERROR_NONE)
    (hc : isOperator c = true) (hn : 1 ≤ n) :
    calculate (E ++ [c] ++ List.replicate n ' ' ++ ['=']) =
      ⟨0, ERROR_INVALID_NUMBER, E.length + 1 + n⟩ := by
  obtain ⟨hne, hvalid, r, ep, -, hpre⟩ := calculate_extend hE hok
  have fc := isOperator_facts hc
  have hbody : ∀ x ∈ E ++ [c] ++ List.replicate n ' ', x ≠ NUL ∧ validChar x = true ∧
      x ≠ '=' := by
    intro x hx
    simp only [List.mem_append, List.mem_singleton, List.mem_replicate] at hx
    rcases hx with (h | h) | h
    · exact ⟨hE x h, (hvalid x h).1, (hvalid x h).2⟩
    · rw [h]; exact ⟨fc.2.1, fc.2.2.2, fc.2.2.1⟩
    · rw [h.2]; decide
  have hnf : ∀ x ∈ E ++ [c] ++ List.replicate n ' ' ++ ['='], x ≠ NUL := by
    intro x hx
    rcases List.mem_append.1 hx with h | h
    · exact (hbody x h).1
    · simp at h; subst h; decide
  have hlen : strlen (E ++ [c] ++ List.replicate n ' ' ++ ['=']) = E.length + 1 + n + 1 := by
    rw [strlen_eq_length hnf]; simp; omega
  have hv : validate_expression (E ++ [c] ++ List.replicate n ' ' ++ ['=']) = ERROR_NONE := by
    rw [validate_body_iff (fun x hx => (hbody x hx).1)]
    exact fun x hx => (hbody x hx).2
  have hcn : charAt (E ++ [c] ++ List.replicate n ' ' ++ ['=']) E.length = c := by
    have := charAt_middle E c (List.replicate n ' ' ++ ['='])
    simpa using this
  have hag : ∀ i < E.length,
      charAt (E ++ [c] ++ List.replicate n ' ' ++ ['=']) i = charAt E i := by
    intro i hi
    have h1 : E ++ [c] ++ List.replicate n ' ' ++ ['='] =
        E ++ ([c] ++ List.replicate n ' ' ++ ['=']) := by simp
    rw [h1, charAt_append_left _ _ _ hi]
  have hsk : skipSpaces (E ++ [c] ++ List.replicate n ' ' ++ ['=']) (E.length + 1) =
      E.length + 1 + n := by
    have := skipSpaces_spaces n (E ++ [c]) '=' [] (by decide)
    simpa using this
  have hend : charAt (E ++ [c] ++ List.replicate n ' ' ++ ['=']) (E.length + 1 + n) = '=' := by
    have := charAt_middle (E ++ [c] ++ List.replicate n ' ') '=' []
    simp only [List.length_append, List.length_singleton, List.length_replicate] at this
    exact this
  have hL : calcLoop (E ++ [c] ++ List.replicate n ' ' ++ ['='])
      (strlen (E ++ [c] ++ List.replicate n ' ' ++ ['='])) 0 0 '+' false 0 =
      .returned ⟨0, ERROR_INVALID_NUMBER, E.length + 1 + n⟩ := by
    rw [hlen, hpre _ _ hag (by rw [hcn]; exact hc) (by omega), calcLoop, if_pos (by omega)]
    simp only []
    rw [hsk, hend, if_neg (fun hh => absurd hh.1 (by decide)), parse_number_eq_at_eq hend,
      if_pos (fun hh => by cases hh)]
  unfold calculate
  rw [if_neg (by rw [hv]; decide)]
  simp only [hL]

/-- Claim C15 fails on the code. In `1+ =` the expression `1=` evaluates without error and
the operator `+`, at offset 1, is followed by one space and the end marker; `calculate`
reports `ERROR_INVALID_NUMBER` at offset 3, the end marker, not `ERROR_TRAILING_OPERATOR` at
offset 1.  Without the space (`1+=`) it reports `ERROR_TRAILING_OPERATOR` at offset 1. -/
theorem calculate_operator_then_space :
    (calculate ['1', '=']).error = ERROR_NONE ∧
      calculate ['1', '+', ' ', '='] = ⟨0, ERROR_INVALID_NUMBER, 3⟩ ∧
      calculate ['1', '+', '='] = ⟨0, ERROR_TRAILING_OPERATOR, 1⟩ := by
  have h1 : (calculate ['1', '=']).error = ERROR_NONE := by
    simp [calculate, validate_expression, validateLoop, strlen, charAt, NUL, calcLoop,
      skipSpaces, parse_number, intLoop, fracLoop, isOperator, isalnum, isalpha, isdigit,
      applyOp, skipTrailingSpaces]
  refine ⟨h1, ?_, ?_⟩
  · exact calculate_operator_spaces ['1'] '+' 1 (by decide) h1 (by decide) (le_refl _)
  · simp [calculate, validate_expression, validateLoop, strlen, charAt, NUL, calcLoop,
      skipSpaces, parse_number, intLoop, fracLoop, isOperator, isalnum, isalpha, isdigit,
      applyOp, skipTrailingSpaces]

/-! ### Rounding to binary64 -/

theorem roundHalfEven_natCast (n : ℕ) : roundHalfEven (n : ℚ) = n := by
  unfold roundHalfEven
  simp

theorem roundHalfEven_floor_le (m : ℚ) : ⌊m⌋₊ ≤ roundHalfEven m := by
  unfold roundHalfEven
  split_ifs <;> omega

theorem roundHalfEven_abs_sub_le {m : ℚ} (hm : 0 ≤ m) :
    |(roundHalfEven m : ℚ) - m| ≤ 1 / 2 := by
  have h1 : (⌊m⌋₊ : ℚ) ≤ m := Nat.floor_le hm
  have h2 : m < ⌊m⌋₊ + 1 := Nat.lt_floor_add_one m
  unfold roundHalfEven
  split_ifs with c1 c2 c3 <;> rw [abs_le] <;> push_cast <;> constructor <;> linarith

theorem roundHalfEven_eq_of_lt {m : ℚ} {n : ℕ} (h : |m - n| < 1 / 2) : roundHalfEven m = n := by
  rw [abs_lt] at h
  have hm : 0 ≤ m ∨ m < 0 := le_or_lt 0 m
  rcases hm with hm | hm
  · have h1 : (⌊m⌋₊ : ℚ) ≤ m := Nat.floor_le hm
    have h2 : m < ⌊m⌋₊ + 1 := Nat.lt_floor_add_one m
    unfold roundHalfEven
    split_ifs with c1 c2 c3
    · have : ((⌊m⌋₊ : ℕ) : ℚ) < n + 1 := by linarith
      have : ((n : ℕ) : ℚ) < ⌊m⌋₊ + 1 := by linarith
      have a1 : ⌊m⌋₊ < n + 1 := by exact_mod_cast ‹((⌊m⌋₊ : ℕ) : ℚ) < n + 1›
      have a2 : n < ⌊m⌋₊ + 1 := by exact_mod_cast this
      omega
    · have : ((⌊m⌋₊ : ℕ) : ℚ) + 1 < n + 1 := by linarith
      have b1 : ((n : ℕ) : ℚ) < ⌊m⌋₊ + 1 + 1 := by linarith
      have a1 : ⌊m⌋₊ + 1 < n + 1 := by exact_mod_cast this
      have a2 : n < ⌊m⌋₊ + 1 + 1 := by exact_mod_cast b1
      omega
    · exfalso
      have he : m - ⌊m⌋₊ = 1 / 2 := le_antisymm (not_lt.1 c2) (not_lt.1 c1)
      have b1 : ((n : ℕ) : ℚ) < ⌊m⌋₊ + 1 := by linarith
      have b2 : ((⌊m⌋₊ : ℕ) : ℚ) < n := by linarith
      have a1 : n < ⌊m⌋₊ + 1 := by exact_mod_cast b1
      have a2 : ⌊m⌋₊ < n := by exact_mod_cast b2
      omega
    · exfalso
      have he : m - ⌊m⌋₊ = 1 / 2 := le_antisymm (not_lt.1 c2) (not_lt.1 c1)
      have b1 : ((n : ℕ) : ℚ) < ⌊m⌋₊ + 1 := by linarith
      have b2 : ((⌊m⌋₊ : ℕ) : ℚ) < n := by linarith
      have a1 : n < ⌊m⌋₊ + 1 := by exact_mod_cast b1
      have a2 : ⌊m⌋₊ < n := by exact_mod_cast b2
      omega
  · have hn : (n : ℚ) < 1 / 2 := by linarith
    have hn0 : n = 0 := by
      have : (n : ℚ) < 1 := by linarith
      have : n < 1 := by exact_mod_cast this
      omega
    subst hn0
    have hf : ⌊m⌋₊ = 0 := Nat.floor_of_nonpos hm.le
    unfold roundHalfEven
    rw [hf]
    simp only [Nat.cast_zero, sub_zero]
    rw [if_pos (by linarith)]

theorem roundHalfEven_tie {m : ℚ} {n : ℕ} (h : m = n + 1 / 2) :
    roundHalfEven m = if n % 2 = 0 then n else n + 1 := by
  have hf : ⌊m⌋₊ = n := by
    rw [Nat.floor_eq_iff (by rw [h]; positivity)]
    constructor <;> rw [h] <;> linarith
  unfold roundHalfEven
  rw [hf, h]
  norm_num

theorem binade_ge (a : ℚ) : -1022 ≤ binade a := le_max_right _ _

theorem quantum_pos (a : ℚ) : 0 < quantum a := by
  unfold quantum
  positivity

theorem two_zpow_log_le {a : ℚ} (ha : 0 < a) : (2 : ℚ) ^ Int.log 2 a ≤ a := by
  have := Int.zpow_log_le_self (R := ℚ) (b := 2) (by norm_num) ha
  simpa using this

theorem lt_two_zpow_log_succ (a : ℚ) : a < (2 : ℚ) ^ (Int.log 2 a + 1) := by
  have := Int.lt_zpow_succ_log_self (R := ℚ) (b := 2) (by norm_num) a
  simpa using this

theorem log_two_eq {a : ℚ} {e : ℤ} (h1 : (2 : ℚ) ^ e ≤ a) (h2 : a < (2 : ℚ) ^ (e + 1)) :
    Int.log 2 a = e := by
  have ha : 0 < a := lt_of_lt_of_le (by positivity) h1
  have g1 : e ≤ Int.log 2 a := by
    rw [← Int.zpow_le_iff_le_log (by norm_num) ha]
    simpa using h1
  have g2 : Int.log 2 a < e + 1 := by
    rw [← Int.lt_zpow_iff_log_lt (by norm_num) ha]
    simpa using h2
  omega

/-- Rounding when the binade and the rounded significand are known. -/
theorem roundMag_eq {a : ℚ} {e : ℤ} {n : ℕ} (s : Bool) (h1 : (2 : ℚ) ^ e ≤ a)
    (h2 : a < (2 : ℚ) ^ (e + 1)) (he : -1022 ≤ e)
    (hn : roundHalfEven (a / (2 : ℚ) ^ (e - 52)) = n)
    (hlt : (n : ℚ) * (2 : ℚ) ^ (e - 52) < (2 : ℚ) ^ 1024) :
    roundMag s a = .fin s ((n : ℚ) * (2 : ℚ) ^ (e - 52)) := by
  have ha : 0 < a := lt_of_lt_of_le (by positivity) h1
  have hq : quantum a = (2 : ℚ) ^ (e - 52) := by
    unfold quantum binade
    rw [log_two_eq h1 h2, max_eq_left he]
  unfold roundMag
  rw [if_neg ha.ne', hq, hn, if_neg (not_le.2 hlt)]

/-- A natural number up to `2 ^ 53` is a binary64 number. -/
theorem roundMag_natCast (s : Bool) {n : ℕ} (hn : n ≤ 2 ^ 53) :
    roundMag s (n : ℚ) = .fin s (n : ℚ) := by
  rcases Nat.eq_zero_or_pos n with h0 | hpos
  · subst h0
    unfold roundMag
    simp
  have hl1 : 2 ^ Nat.log 2 n ≤ n := Nat.pow_log_le_self 2 (by omega)
  have hl2 : n < 2 ^ (Nat.log 2 n + 1) := Nat.lt_pow_succ_log_self (by norm_num) n
  have hl : Nat.log 2 n ≤ 53 := by
    by_contra hc
    have : 2 ^ 54 ≤ 2 ^ Nat.log 2 n := Nat.pow_le_pow_right (by norm_num) (by omega)
    omega
  have c1 : (2 : ℚ) ^ ((Nat.log 2 n : ℕ) : ℤ) ≤ (n : ℚ) := by
    rw [zpow_natCast]; exact_mod_cast hl1
  have c2 : (n : ℚ) < (2 : ℚ) ^ (((Nat.log 2 n : ℕ) : ℤ) + 1) := by
    have : (((Nat.log 2 n : ℕ) : ℤ) + 1) = ((Nat.log 2 n + 1 : ℕ) : ℤ) := by push_cast; ring
    rw [this, zpow_natCast]; exact_mod_cast hl2
  have hz : (2 : ℚ) ^ (((Nat.log 2 n : ℕ) : ℤ) - 52) =
      (2 : ℚ) ^ (Nat.log 2 n) / (2 : ℚ) ^ 52 := by
    rw [zpow_sub₀ (by norm_num), zpow_natCast]
    norm_num
  rcases Nat.lt_or_ge (Nat.log 2 n) 53 with hlt | hge
  · -- the quantum is at most one
    have hk : (2 : ℚ) ^ 52 = (2 : ℚ) ^ (Nat.log 2 n) * (2 : ℚ) ^ (52 - Nat.log 2 n) := by
      rw [← pow_add]; congr 1; omega
    have hm : (n : ℚ) / ((2 : ℚ) ^ (Nat.log 2 n) / (2 : ℚ) ^ 52) =
        ((n * 2 ^ (52 - Nat.log 2 n) : ℕ) : ℚ) := by
      rw [hk]; push_cast; field_simp; ring
    have := roundMag_eq (n := n * 2 ^ (52 - Nat.log 2 n)) s c1 c2 (by omega)
      (by rw [hz, hm, roundHalfEven_natCast])
      (by
        rw [hz, hk]; push_cast
        have : (n : ℚ) * (2 : ℚ) ^ (52 - Nat.log 2 n) * ((2 : ℚ) ^ (Nat.log 2 n) /
            ((2 : ℚ) ^ (Nat.log 2 n) * (2 : ℚ) ^ (52 - Nat.log 2 n))) = n := by field_simp; ring
        rw [this]
        have : (n : ℚ) ≤ 2 ^ 53 := by exact_mod_cast hn
        linarith [show (2 : ℚ) ^ 53 < 2 ^ 1024 by norm_num])
    rw [this]
    congr 1
    rw [hz, hk]; push_cast; field_simp; ring
  · have hl53 : Nat.log 2 n = 53 := by omega
    have hn53 : n = 2 ^ 53 := by rw [hl53] at hl1; omega
    rw [hl53] at c1 c2 hz
    have := roundMag_eq (n := 2 ^ 52) s c1 c2 (by norm_num)
      (by rw [hz, hn53]; norm_num; exact_mod_cast roundHalfEven_natCast (2 ^ 52))
      (by rw [hz]; norm_num)
    rw [this, hz, hn53]
    norm_num


theorem roundMag_cases (s : Bool) (a : ℚ) :
    roundMag s a = .inf s ∨ ∃ r, roundMag s a = .fin s r := by
  unfold roundMag
  split_ifs
  · exact Or.inr ⟨_, rfl⟩
  · exact Or.inl rfl
  · exact Or.inr ⟨_, rfl⟩

theorem quantum_eq {a : ℚ} (ha : (2 : ℚ) ^ (-1022 : ℤ) ≤ a) :
    quantum a = (2 : ℚ) ^ Int.log 2 a / 2 ^ 52 ∧ (2 : ℚ) ^ Int.log 2 a ≤ a := by
  have hpos : 0 < a := lt_of_lt_of_le (by positivity) ha
  have he : -1022 ≤ Int.log 2 a := by
    rw [← Int.zpow_le_iff_le_log (by norm_num) hpos]
    simpa using ha
  refine ⟨?_, two_zpow_log_le hpos⟩
  unfold quantum binade
  rw [max_eq_left he, zpow_sub₀ (by norm_num)]
  norm_num

/-- The relative error of rounding in the normal range is at most `2 ^ (-53)`. -/
theorem roundMag_rel (s : Bool) {a : ℚ} (h1 : (2 : ℚ) ^ (-1022 : ℤ) ≤ a)
    (h2 : a ≤ (2 : ℚ) ^ 1023) :
    ∃ r, roundMag s a = .fin s r ∧ |r - a| ≤ a / 2 ^ 53 := by
  have hpos : 0 < a := lt_of_lt_of_le (by positivity) h1
  obtain ⟨hq, hle⟩ := quantum_eq h1
  have hqpos := quantum_pos a
  have hm : 0 ≤ a / quantum a := div_nonneg hpos.le hqpos.le
  have herr := roundHalfEven_abs_sub_le hm
  have hdiff : (roundHalfEven (a / quantum a) : ℚ) * quantum a - a =
      ((roundHalfEven (a / quantum a) : ℚ) - a / quantum a) * quantum a := by
    field_simp
  have hbound : |(roundHalfEven (a / quantum a) : ℚ) * quantum a - a| ≤ a / 2 ^ 53 := by
    rw [hdiff, abs_mul, abs_of_pos hqpos]
    calc |(roundHalfEven (a / quantum a) : ℚ) - a / quantum a| * quantum a
        ≤ 1 / 2 * quantum a := by
          apply mul_le_mul_of_nonneg_right herr hqpos.le
      _ = (2 : ℚ) ^ Int.log 2 a / 2 ^ 53 := by rw [hq]; ring
      _ ≤ a / 2 ^ 53 := by
          apply div_le_div_of_nonneg_right hle (by positivity)
  refine ⟨(roundHalfEven (a / quantum a) : ℚ) * quantum a, ?_, hbound⟩
  unfold roundMag
  rw [if_neg hpos.ne', if_neg]
  rw [not_le]
  have h3 := (abs_le.1 hbound).2
  have h4 : a / 2 ^ 53 ≤ (2 : ℚ) ^ 1023 / 2 ^ 53 :=
    div_le_div_of_nonneg_right h2 (by positivity)
  have h5 : (2 : ℚ) ^ 1023 / 2 ^ 53 < (2 : ℚ) ^ 1023 :=
    div_lt_self (by positivity) (by norm_num)
  have h6 : (2 : ℚ) ^ 1024 = (2 : ℚ) ^ 1023 * 2 := by rw [← pow_succ]
  linarith

/-- Rounding does not take a magnitude of at least one below one. -/
theorem roundMag_ge_one (s : Bool) {a : ℚ} (h : 1 ≤ a) :
    roundMag s a = .inf s ∨ ∃ r, roundMag s a = .fin s r ∧ 1 ≤ r := by
  have hpos : 0 < a := by linarith
  have h1 : (2 : ℚ) ^ (-1022 : ℤ) ≤ a := by
    have : (2 : ℚ) ^ (-1022 : ℤ) ≤ 1 := by
      rw [zpow_neg]
      exact inv_le_one_of_one_le₀ (by norm_num)
    linarith
  obtain ⟨hq, hle⟩ := quantum_eq h1
  have hqpos := quantum_pos a
  have he : 0 ≤ Int.log 2 a := by
    rw [← Int.zpow_le_iff_le_log (by norm_num) hpos]
    simpa using h
  have hpow : (1 : ℚ) ≤ (2 : ℚ) ^ Int.log 2 a := one_le_zpow₀ (by norm_num) he
  have hm : ((2 ^ 52 : ℕ) : ℚ) ≤ a / quantum a := by
    rw [hq, le_div_iff₀ (by positivity)]
    push_cast
    calc (2 : ℚ) ^ 52 * ((2 : ℚ) ^ Int.log 2 a / 2 ^ 52) = (2 : ℚ) ^ Int.log 2 a := by
          field_simp
      _ ≤ a := hle
  have hfl : 2 ^ 52 ≤ ⌊a / quantum a⌋₊ := Nat.le_floor hm
  have hr := roundHalfEven_floor_le (a / quantum a)
  have hge : (1 : ℚ) ≤ (roundHalfEven (a / quantum a) : ℚ) * quantum a := by
    have : ((2 ^ 52 : ℕ) : ℚ) ≤ (roundHalfEven (a / quantum a) : ℚ) := by
      exact_mod_cast le_trans hfl hr
    calc (1 : ℚ) ≤ (2 : ℚ) ^ Int.log 2 a := hpow
      _ = ((2 ^ 52 : ℕ) : ℚ) * quantum a := by rw [hq]; push_cast; field_simp; ring
      _ ≤ (roundHalfEven (a / quantum a) : ℚ) * quantum a :=
          mul_le_mul_of_nonneg_right this hqpos.le
  unfold roundMag
  rw [if_neg hpos.ne']
  split_ifs
  · exact Or.inl rfl
  · exact Or.inr ⟨_, rfl, hge⟩

/-! ### Exact steps of binary64 arithmetic on small natural numbers -/

theorem Dbl.ofNat_eq {n : ℕ} (hn : n ≤ 2 ^ 53) : Dbl.ofNat n = .fin false (n : ℚ) :=
  roundMag_natCast false hn

theorem Dbl.mul_natCast {a b : ℕ} (h : a * b ≤ 2 ^ 53) :
    Dbl.mul (.fin false (a : ℚ)) (.fin false (b : ℚ)) = .fin false ((a * b : ℕ) : ℚ) := by
  have := roundMag_natCast false h
  rw [Nat.cast_mul] at this ⊢
  exact this

theorem Dbl.add_natCast {a b : ℕ} (h : a + b ≤ 2 ^ 53) :
    Dbl.add (.fin false (a : ℚ)) (.fin false (b : ℚ)) = .fin false ((a + b : ℕ) : ℚ) := by
  have hr := roundMag_natCast false h
  have hnn : (0 : ℚ) ≤ (a : ℚ) + (b : ℚ) := by positivity
  unfold Dbl.add
  simp only [Bool.false_eq_true, if_false, Bool.and_self]
  by_cases h0 : (a : ℚ) + (b : ℚ) = 0
  · rw [if_pos h0, Nat.cast_add, h0]
  · rw [if_neg h0, abs_of_nonneg hnn, decide_eq_false (not_lt.2 hnn)]
    rw [Nat.cast_add] at hr ⊢
    exact hr

theorem decDigitRef_le (c : Char) : decDigitRef c ≤ 9 := by
  unfold decDigitRef
  split <;> omega

theorem hexDigitRef_le (c : Char) : hexDigitRef c ≤ 15 := by
  unfold hexDigitRef
  split <;> omega

theorem lexFromD_exact (ds : List Char) :
    ∀ N : ℕ, N * 10 ^ ds.length + decimalValue ds ≤ 2 ^ 53 →
      lexFromD (.fin false (N : ℚ)) ds =
        .fin false ((N * 10 ^ ds.length + decimalValue ds : ℕ) : ℚ) := by
  induction ds with
  | nil => intro N _; simp [lexFromD, decimalValue_nil]
  | cons d ds ih =>
    intro N hN
    rw [decimalValue_cons, List.length_cons, pow_succ] at hN
    have hp : 1 ≤ 10 ^ ds.length := Nat.one_le_pow _ _ (by norm_num)
    have hb : (N * 10 + decDigitRef d) * 10 ^ ds.length + decimalValue ds ≤ 2 ^ 53 := by
      have : (N * 10 + decDigitRef d) * 10 ^ ds.length =
          N * (10 ^ ds.length * 10) + decDigitRef d * 10 ^ ds.length := by ring
      omega
    have hb1 : N * 10 + decDigitRef d ≤ 2 ^ 53 := by
      have : N * 10 + decDigitRef d ≤ (N * 10 + decDigitRef d) * 10 ^ ds.length :=
        Nat.le_mul_of_pos_right _ (by omega)
      omega
    have hd := decDigitRef_le d
    have step : Dbl.add (Dbl.mul (.fin false (N : ℚ)) (Dbl.ofNat 10))
        (Dbl.ofNat (decDigitRef d)) = .fin false ((N * 10 + decDigitRef d : ℕ) : ℚ) := by
      rw [Dbl.ofNat_eq (by norm_num), Dbl.ofNat_eq (by omega), Dbl.mul_natCast (by omega),
        Dbl.add_natCast hb1]
    have hfold : lexFromD (.fin false (N : ℚ)) (d :: ds) =
        lexFromD (Dbl.add (Dbl.mul (.fin false (N : ℚ)) (Dbl.ofNat 10))
          (Dbl.ofNat (decDigitRef d))) ds := rfl
    rw [hfold, step, ih _ hb, decimalValue_cons, List.length_cons, pow_succ]
    congr 2
    ring

theorem hexFromD_exact (hs : List Char) :
    ∀ N : ℕ, N * 16 ^ hs.length + hexValue hs ≤ 2 ^ 53 →
      hexFromD (.fin false (N : ℚ)) hs =
        .fin false ((N * 16 ^ hs.length + hexValue hs : ℕ) : ℚ) := by
  induction hs with
  | nil => intro N _; simp [hexFromD, hexValue]
  | cons d ds ih =>
    intro N hN
    rw [hexValue_cons, List.length_cons, pow_succ] at hN
    have hp : 1 ≤ 16 ^ ds.length := Nat.one_le_pow _ _ (by norm_num)
    have hb : (N * 16 + hexDigitRef d) * 16 ^ ds.length + hexValue ds ≤ 2 ^ 53 := by
      have : (N * 16 + hexDigitRef d) * 16 ^ ds.length =
          N * (16 ^ ds.length * 16) + hexDigitRef d * 16 ^ ds.length := by ring
      omega
    have hb1 : N * 16 + hexDigitRef d ≤ 2 ^ 53 := by
      have : N * 16 + hexDigitRef d ≤ (N * 16 + hexDigitRef d) * 16 ^ ds.length :=
        Nat.le_mul_of_pos_right _ (by omega)
      omega
    have hd := hexDigitRef_le d
    have step : Dbl.add (Dbl.mul (.fin false (N : ℚ)) (Dbl.ofNat 16))
        (Dbl.ofNat (hexDigitRef d)) = .fin false ((N * 16 + hexDigitRef d : ℕ) : ℚ) := by
      rw [Dbl.ofNat_eq (by norm_num), Dbl.ofNat_eq (by omega), Dbl.mul_natCast (by omega),
        Dbl.add_natCast hb1]
    have hfold : hexFromD (.fin false (N : ℚ)) (d :: ds) =
        hexFromD (Dbl.add (Dbl.mul (.fin false (N : ℚ)) (Dbl.ofNat 16))
          (Dbl.ofNat (hexDigitRef d))) ds := rfl
    rw [hfold, step, ih _ hb, hexValue_cons, List.length_cons, pow_succ]
    congr 2
    ring

/-! ### The binary64 lexer on digit strings -/

theorem hexLoopD_xdigit {e : List Char} {i : Nat} (v : Dbl) (h : isxdigit (charAt e i) = true) :
    hexLoopD e i v = hexLoopD e (i + 1)
      (Dbl.add (Dbl.mul v (Dbl.ofNat 16)) (Dbl.ofNat (hexDigitRef (charAt e i)))) := by
  have f := isxdigit_facts h
  rw [hexLoopD, dif_pos ⟨f.1, f.2.1, Or.inl h⟩, if_neg f.2.2.2.2.2.2.2.1]
  rw [f.2.2.2.2.2.2.2.2.2.2]

theorem hexLoopD_stop {e : List Char} {i : Nat} (v : Dbl)
    (h : charAt e i = NUL ∨ charAt e i = '=' ∨
      (isxdigit (charAt e i) = false ∧ charAt e i ≠ ' ')) :
    hexLoopD e i v = (i, v) := by
  rw [hexLoopD, dif_neg]
  rintro ⟨h1, h2, h3⟩
  rcases h with h | h | ⟨h, h'⟩
  · exact h1 h
  · exact h2 h
  · rcases h3 with h3 | h3
    · rw [h] at h3; cases h3
    · exact h' h3

theorem hexLoopD_xdigits (ds : List Char) (hds : ∀ c ∈ ds, isxdigit c = true) :
    ∀ (pre rest : List Char) (v : Dbl),
      hexLoopD (pre ++ ds ++ rest) pre.length v =
        hexLoopD (pre ++ ds ++ rest) (pre.length + ds.length) (hexFromD v ds) := by
  induction ds with
  | nil => intro pre rest v; rfl
  | cons d ds ih =>
    intro pre rest v
    have hd : isxdigit d = true := hds d (List.mem_cons_self _ _)
    have hc : charAt (pre ++ (d :: ds) ++ rest) pre.length = d := by
      rw [List.append_assoc, List.cons_append, charAt_middle]
    rw [hexLoopD_xdigit v (by rw [hc]; exact hd), hc]
    have he : pre ++ (d :: ds) ++ rest = (pre ++ [d]) ++ ds ++ rest := by simp
    have hl : pre.length + 1 = (pre ++ [d]).length := by simp
    rw [he, hl, ih (fun c hc => hds c (List.mem_cons_of_mem _ hc))]
    simp only [List.length_append, List.length_singleton, List.length_cons, List.length_nil]
    have hfold : hexFromD v (d :: ds) =
        hexFromD (Dbl.add (Dbl.mul v (Dbl.ofNat 16)) (Dbl.ofNat (hexDigitRef d))) ds := rfl
    rw [hfold]
    congr 1
    omega

/-- The binary64 lexer on a hexadecimal literal: the cursor, the error, and the value as the
accumulation `hexFromD`. -/
theorem parse_numberD_hex_literal (X : Char) (hX : X = 'x' ∨ X = 'X') (h : List Char)
    (hne : h ≠ []) (hh : ∀ c ∈ h, isxdigit c = true) (rest : List Char) (err : ErrorType) :
    parse_numberD (['0', X] ++ h ++ '=' :: rest) 0 err =
      (hexFromD Dbl.zero h, 2 + h.length, err) := by
  obtain ⟨d, h', rfl⟩ := List.exists_cons_of_ne_nil hne
  have hd : isxdigit d = true := hh d (List.mem_cons_self _ _)
  have hff := hexLoopD_xdigits (d :: h') hh ['0', X] ('=' :: rest) Dbl.zero
  have hstop : charAt (['0', X] ++ (d :: h') ++ '=' :: rest)
      ([('0' : Char), X].length + (d :: h').length) = '=' := by
    rw [← List.length_append]; exact charAt_middle _ _ _
  rw [hexLoopD_stop _ (Or.inr (Or.inl hstop))] at hff
  have h2 : [('0' : Char), X].length = 0 + 2 := rfl
  rw [h2] at hff
  have c0 : charAt (['0', X] ++ (d :: h') ++ '=' :: rest) 0 = '0' := rfl
  have c1 : charAt (['0', X] ++ (d :: h') ++ '=' :: rest) (0 + 1) = X := rfl
  have c2 : charAt (['0', X] ++ (d :: h') ++ '=' :: rest) (0 + 2) = d := rfl
  unfold parse_numberD
  rw [c0, c1, c2, if_pos ⟨rfl, hX⟩, if_neg (isxdigit_facts hd).2.2.2.2.2.2.1]
  simp only [hff]
  rw [if_neg (by simp)]

/-- Claim C4, amended. For every non-empty string `h` of hexadecimal digits that denotes an
integer of at most `2 ^ 53`, `parse_number` (in binary64) started at cursor 0 on `0x h =`
(or `0X h =`) reports no error, returns exactly the integer `h` denotes in base 16, and leaves
the cursor at offset `2 + length(h)`, on the end marker. -/
theorem parse_number_hex_double (X : Char) (h : List Char) (hX : X = 'x' ∨ X = 'X')
    (hne : h ≠ []) (hh : ∀ c ∈ h, isxdigit c = true) (hb : hexValue h ≤ 2 ^ 53) :
    parse_numberD (['0', X] ++ h ++ ['=']) 0 ERROR_NONE =
        (.fin false (hexValue h : ℚ), 2 + h.length, ERROR_NONE) ∧
      charAt (['0', X] ++ h ++ ['=']) (2 + h.length) = '=' := by
  refine ⟨?_, charAt_after ['0', X] h '=' []⟩
  rw [parse_numberD_hex_literal X hX h hne hh [] ERROR_NONE]
  have := hexFromD_exact h 0 (by simpa using hb)
  simp only [Nat.cast_zero, zero_mul, zero_add] at this
  rw [show Dbl.zero = Dbl.fin false 0 from rfl, this]

theorem parse_number_hex_double_witness :
    parse_numberD ['0', 'x', 'f', 'F', '='] 0 ERROR_NONE =
        (.fin false 255, 4, ERROR_NONE) ∧
      charAt ['0', 'x', 'f', 'F', '='] 4 = '=' := by
  have hv : hexValue ['f', 'F'] = 255 := by decide
  have h := parse_number_hex_double 'x' ['f', 'F'] (Or.inl rfl) (by decide) (by decide)
    (by rw [hv]; norm_num)
  rw [hv] at h
  simpa using h

end SimpleCalculator
